import Mathlib

/-!
# modgraphviz: dependency-graph construction, path extraction and version selection

A shallow embedding of `cmd/modgraphviz/graph.go` (`newGraph`, `to`, `print`)
and of `convert` and `edgesAsDOT` in `cmd/modgraphviz/main.go`, with the
properties of the two programs proved over it.

Modelling conventions.

* A Go `string` is a Lean `String`.  The data of the reader of `newGraph` is
  the list of its lines, each the text that stands before one line feed (or
  before the end of the data); the reader does not fail and reports the end of
  its data by a read of no bytes.  The scanner of `bufio` is modelled on these
  lines (`scanLines`): it yields `r.Text()` for one line after the other and
  stops with `bufio.ErrTooLong` at a line of `bufio.MaxScanTokenSize` bytes or
  more.  For `convert` the list is that of the `scanner.Text()` values of a
  scan that ends with a nil `scanner.Err()`.
* A Go `map[string]T` is an association list without repeated keys, kept in
  insertion order.  Go leaves the iteration order of a map unspecified; every
  property below is stated on membership, never on that order.
* A `*vertex` is represented by the name of the vertex it points to, resolved
  in the list of vertex objects in memory (`heap`).  In the source every vertex
  object is created by `newVertex` and stored under its own name, and
  `edges[k]` always points to the vertex named `k`, so an `edges` map is
  represented by the list of its keys.  A Go `graph` has the fields `root` and
  `vertices` only: of the objects in `heap` it holds those its root reaches
  (`graph.holdsEdge`), and no function of `graph.go` reads any other.
* Loops and recursions that have no syntactic bound take a `fuel` argument;
  `none` means the fuel ran out before the end.
* Functions of other libraries that the programs call are parameters:
  `semver.Compare` and the quoting of the verb `%q`.  A statement that depends
  on a value of `semver.Compare` takes it from `Semver.Compare`, which follows
  the library.
-/

namespace GraphGo

/-! ## Library functions used by `graph.go` -/

/-- Go's `unicode.IsSpace`: the code points with the White_Space property. -/
def isSpace (c : Char) : Bool :=
  c = '\t' || c = '\n' || c = Char.ofNat 0x0B || c = Char.ofNat 0x0C || c = '\r' || c = ' '
    || c = Char.ofNat 0x85 || c = Char.ofNat 0xA0 || c = Char.ofNat 0x1680
    || (0x2000 ≤ c.toNat && c.toNat ≤ 0x200A)
    || c = Char.ofNat 0x2028 || c = Char.ofNat 0x2029 || c = Char.ofNat 0x202F
    || c = Char.ofNat 0x205F || c = Char.ofNat 0x3000

/-- The scan of `strings.Fields`: `cur` holds the characters of the field being
read, most recent first; a field ends at a white-space character or at the end
of the input. -/
def fieldsLoop : List Char → List Char → List String
  | [], cur => if cur = [] then [] else [String.mk cur.reverse]
  | c :: cs, cur =>
    if isSpace c then
      if cur = [] then fieldsLoop cs [] else String.mk cur.reverse :: fieldsLoop cs []
    else fieldsLoop cs (c :: cur)

/-- Go's `strings.Fields`: the maximal runs of non-white-space characters. -/
def Fields (s : String) : List String :=
  fieldsLoop s.data []

/-! ## Data model of `graph.go` -/

/-- A `vertex`: its name and the keys of its `edges` map. -/
structure vertex where
  name : String
  edges : List String
deriving DecidableEq, Repr

/-- A `graph`: `root` is the name of the vertex the root pointer refers to
(`none` for a nil pointer), `vertices` the keys of the `vertices` map, and
`heap` the memory in which the pointers are resolved.  The graph holds the
vertex objects that its root reaches; `heap` may hold others, which are
garbage to the program. -/
structure graph where
  root : Option String
  vertices : List String
  heap : List vertex
deriving DecidableEq, Repr

/-- The errors `graph.go` returns: the two it creates with `fmt.Errorf`, with
the value each message is formatted from, and the error of the scanner that
`newGraph` passes on. -/
inductive error where
  /-- The message `couldn't decipher %s` of `newGraph`, with the line. -/
  | decipher (line : String)
  /-- The message `%q does not exist in dependency graph` of `to`. -/
  | notExist (needle : String)
  /-- The error `bufio.ErrTooLong` that `r.Err()` reports (`token too long`). -/
  | tooLong
deriving DecidableEq, Repr

/-- What a call does: it returns a value, returns an error, or panics on a nil
pointer. -/
inductive result (α : Type) where
  | ok (a : α)
  | err (e : error)
  | nilDeref
deriving DecidableEq, Repr

/-- The source's `newVertex`. -/
def newVertex (name : String) : vertex :=
  { name := name, edges := [] }

/-- Map lookup `vertexMap[name]`. -/
def lookup (vertexMap : List vertex) (name : String) : Option vertex :=
  vertexMap.find? (fun x => x.name = name)

/-- The lookup-or-create idiom: `v, ok := vertexMap[name]; if !ok { v =
newVertex(name); vertexMap[v.name] = v }`. -/
def getOrCreate (vertexMap : List vertex) (name : String) : List vertex :=
  match lookup vertexMap name with
  | some _ => vertexMap
  | none => vertexMap ++ [newVertex name]

/-- The assignment `fromVertex.edges[toVertex.name] = toVertex` on the vertex
object named `fromName`. -/
def setEdge (vertexMap : List vertex) (fromName toName : String) : List vertex :=
  vertexMap.map (fun x =>
    if x.name = fromName then
      { x with edges := if toName ∈ x.edges then x.edges else x.edges ++ [toName] }
    else x)

/-- The edges of the vertex object named `name` (`cursor.edges`). -/
def edgesOf (heap : List vertex) (name : String) : List String :=
  match lookup heap name with
  | some x => x.edges
  | none => []

/-! ## The scanner of `bufio` that `newGraph` reads with -/

/-- Go's `bufio.MaxScanTokenSize`, the size to which a scanner lets its buffer
grow when `Buffer` was not called (`newGraph` does not call it). -/
def MaxScanTokenSize : Nat := 64 * 1024

/-- The function `dropCR` of `bufio`, which `ScanLines` applies to every line:
a carriage return at the end of the line is dropped. -/
def dropCR (line : String) : String :=
  if line.data.getLast? = some '\r' then String.mk line.data.dropLast else line

/-- The scanner `bufio.NewScanner(in)` on the lines of the data: the texts
`r.Text()` of the calls of `r.Scan()` that return true, in order, and the value
of `r.Err()` once `r.Scan()` has returned false.  The buffer holds a line from
its first byte on and grows to `MaxScanTokenSize` bytes; `Scan` yields the
line when the buffer holds the line feed after it, or the data has ended.  At
the first line of `MaxScanTokenSize` bytes or more the buffer is full before
that, `Scan` returns false with `ErrTooLong`, and no later line is read.  At
the end of the data `r.Err()` is nil. -/
def scanLines : List String → List String × Option error
  | [] => ([], none)
  | line :: rest =>
    if MaxScanTokenSize ≤ line.utf8ByteSize then ([], some .tooLong)
    else (dropCR line :: (scanLines rest).1, (scanLines rest).2)

/-! ## `newGraph` -/

/-- The scanning loop of `newGraph`, over the texts `r.Text()` still to come,
with the local variables `vertexMap` and `root`. -/
def newGraphLoop : List String → List vertex → String → Except error (List vertex × String)
  | [], vertexMap, root => .ok (vertexMap, root)
  | text :: rest, vertexMap, root =>
    if text = "" then newGraphLoop rest vertexMap root
    else
      match Fields text with
      | [fromName, toName] =>
        let root := if root = "" then fromName else root
        let vertexMap := getOrCreate vertexMap fromName
        let vertexMap := getOrCreate vertexMap toName
        newGraphLoop rest (setEdge vertexMap fromName toName) root
      | _ => .error (.decipher text)

/-- The source's `newGraph`, on the lines of the data of its reader: the loop
over the texts of the scanner, the test of `r.Err()` after the loop, and the
graph that is returned. -/
def newGraph (lines : List String) : Except error graph :=
  match newGraphLoop (scanLines lines).1 [] "" with
  | .error e => .error e
  | .ok (vertexMap, root) =>
    match (scanLines lines).2 with
    | some e => .error e
    | none =>
      .ok { root := (lookup vertexMap root).map (fun x => x.name),
            vertices := vertexMap.map (fun x => x.name),
            heap := vertexMap }

/-! ## `to`: the paths from the root to a needle -/

/-- A `breadcrumb`: `vertex` names the current vertex and `from_` is the
breadcrumb travelled from; `start` is a breadcrumb whose `from` is nil. -/
inductive breadcrumb where
  | start (vertex : String)
  | next (vertex : String) (from_ : breadcrumb)
deriving DecidableEq, Repr

/-- The promoted field `cursor.name` of the embedded `*vertex`. -/
def breadcrumb.name : breadcrumb → String
  | .start v => v
  | .next v _ => v

/-- The loop of `hasCycle` from a cursor on: `cursor = cursor.from`, then
`false` on nil and `true` when `seen[cursor.name]`.  `seen` is written once,
before the loop, and never updated. -/
def hasCycleLoop (seen : List String) : breadcrumb → Bool
  | .start _ => false
  | .next _ f => if f.name ∈ seen then true else hasCycleLoop seen f

/-- The source's `breadcrumb.hasCycle`. -/
def breadcrumb.hasCycle (b : breadcrumb) : Bool :=
  hasCycleLoop [b.name] b

/-- The "going up" loop of `to`: the vertices from the breadcrumb back to the
start, the breadcrumb's own vertex first. -/
def goingUp : breadcrumb → List String
  | .start v => [v]
  | .next v f => v :: goingUp f

/-- The "going down" loop of `to`, for `i` from `len(path) - 1` down to `1`:
the pair `path[i], path[i-1]` is looked up or created and the edge recorded.
The recursion handles the pairs of larger `i` first, as the loop does. -/
def goingDown : List String → List vertex → List vertex
  | to_ :: from_ :: rest, vertexMap =>
    let vertexMap := goingDown (from_ :: rest) vertexMap
    let vertexMap := getOrCreate vertexMap from_
    let vertexMap := getOrCreate vertexMap to_
    setEdge vertexMap from_ to_
  | _, vertexMap => vertexMap

/-- The variables of the search loop of `to`: the queue and the map of the
vertices of the new graph. -/
structure toState where
  q : List breadcrumb
  vertexMap : List vertex
deriving DecidableEq, Repr

/-- One iteration of `for len(q) > 0` in `to`; `none` when the queue is empty
and the loop ends. -/
def toStep (g : graph) (needle : String) (s : toState) : Option toState :=
  match s.q with
  | [] => none
  | cursor :: q =>
    if cursor.hasCycle then some { q := q, vertexMap := s.vertexMap }
    else
      let vertexMap :=
        if cursor.name = needle then goingDown (goingUp cursor) s.vertexMap else s.vertexMap
      some { q := q ++ (edgesOf g.heap cursor.name).map (fun e => breadcrumb.next e cursor),
             vertexMap := vertexMap }

/-- The search loop of `to`, run for at most `fuel` tests of its condition;
the result is the state in which the queue is empty. -/
def toLoop (g : graph) (needle : String) : Nat → toState → Option toState
  | 0, _ => none
  | fuel + 1, s =>
    match toStep g needle s with
    | none => some s
    | some s' => toLoop g needle fuel s'

/-- The state in which `to` enters its search loop: `newRoot` is the only
vertex of the new map and the queue holds the breadcrumb of `g.root`. -/
def toInit (rootName : String) : toState :=
  { q := [.start rootName], vertexMap := [newVertex rootName] }

/-- The source's `graph.to`.  The outer `none` is fuel exhaustion. -/
def graph.to (g : graph) (needle : String) (fuel : Nat) : Option (result graph) :=
  if needle ∈ g.vertices then
    match g.root with
    | none => some .nilDeref
    | some rootName =>
      match toLoop g needle fuel (toInit rootName) with
      | none => none
      | some s =>
        some (.ok { root := some rootName,
                    vertices := s.vertexMap.map (fun x => x.name),
                    heap := s.vertexMap })
  else some (.err (.notExist needle))

/-- The recorded edges of a graph, as pairs of names. -/
def graph.edgeList (g : graph) : List (String × String) :=
  g.heap.flatMap (fun x => x.edges.map (fun e => (x.name, e)))

/-! ## `print`

The verb `%q` of `fmt` is the library function `strconv.Quote`; it is the
parameter `quote`.  The writer is the list of the texts written to it, one per
call of `Fprintf`, and it does not fail. -/

/-- The variables of `printDFS` that change: the map `visited` and what has
been written to `out`. -/
structure printState where
  visited : List String
  out : List String
deriving DecidableEq, Repr

/-- The text `fmt.Fprintf(out, "\t%q -> %q\n", cursor.name, edge.name)` writes. -/
def statement (quote : String → String) (fromName toName : String) : String :=
  "\t" ++ quote fromName ++ " -> " ++ quote toName ++ "\n"

/-- The loop `for _, edge := range cursor.edges` of `printDFS` over the edges
still to print: the statement is written, then `printDFS` is called on the
edge; `dfs` is that recursive call. -/
def printEdges (quote : String → String) (dfs : printState → String → Option printState)
    (cursor : String) : List String → printState → Option printState
  | [], s => some s
  | edge :: rest, s =>
    match dfs { s with out := s.out ++ [statement quote cursor edge] } edge with
    | none => none
    | some s' => printEdges quote dfs cursor rest s'

/-- The source's `printDFS`, with the recursion depth bounded by `fuel`. -/
def printDFS (g : graph) (quote : String → String) : Nat → printState → String →
    Option printState
  | 0, _, _ => none
  | fuel + 1, s, cursor =>
    if cursor ∈ s.visited then some s
    else
      printEdges quote (printDFS g quote fuel) cursor (edgesOf g.heap cursor)
        { s with visited := cursor :: s.visited }

/-- The source's `print`: the texts written when it returns nil.  A nil root
is dereferenced by `cursor.name`.  The outer `none` is fuel exhaustion. -/
def graph.print (g : graph) (quote : String → String) (fuel : Nat) :
    Option (result (List String)) :=
  match g.root with
  | none => some .nilDeref
  | some rootName =>
    match printDFS g quote fuel { visited := [], out := [] } rootName with
    | none => none
    | some s => some (.ok s.out)

/-! ## Notions the properties are stated with -/

/-- The keys of a vertex map. -/
def names (vertexMap : List vertex) : List String :=
  vertexMap.map (fun x => x.name)

/-- Some vertex object named `u` records an edge to `v`. -/
def hasEdge (vertexMap : List vertex) (u v : String) : Prop :=
  ∃ x ∈ vertexMap, x.name = u ∧ v ∈ x.edges

/-- The consecutive node pairs of a path. -/
def pairs (p : List String) : List (String × String) :=
  p.zip p.tail

/-- A simple path of `g` from `a` to `b`: it starts at `a`, ends at `b`, follows
a recorded edge at every step and repeats no node. -/
def simplePath (g : graph) (a b : String) (p : List String) : Prop :=
  p.head? = some a ∧ p.getLast? = some b ∧ p.Nodup ∧
    p.Chain' (fun x y => y ∈ edgesOf g.heap x)

/-- The search tree of `to` below a queued breadcrumb `c`: `c` itself, and the
breadcrumbs queued when a breadcrumb of the tree passes the cycle test and its
edges are appended to the queue. -/
inductive Descends (g : graph) (c : breadcrumb) : breadcrumb → Prop
  | refl : Descends g c c
  | step {p : breadcrumb} {e : String} : Descends g c p → p.hasCycle = false →
      e ∈ edgesOf g.heap p.name → Descends g c (.next e p)

/-- The breadcrumbs below `c` at which `to` records a path: they pass the cycle
test and are at the needle. -/
def Found (g : graph) (needle : String) (c p : breadcrumb) : Prop :=
  Descends g c p ∧ p.hasCycle = false ∧ p.name = needle

/-- The vertex map after the going-down loop has run for each breadcrumb of
`ps` in turn. -/
def record (vertexMap : List vertex) (ps : List breadcrumb) : List vertex :=
  ps.foldl (fun vm p => goingDown (goingUp p) vm) vertexMap

/-- The state of the search loop of `to` after exactly `k` iterations; `none`
when the loop ended earlier. -/
def toRun (g : graph) (needle : String) : Nat → toState → Option toState
  | 0, s => some s
  | k + 1, s => (toStep g needle s).bind (toRun g needle k)

/-- A bound on the iterations a breadcrumb can cause when `k` more nodes may
join its trail and no vertex has more than `d` edges. -/
def weight (d : Nat) : Nat → Nat
  | 0 => 1
  | k + 1 => 1 + d * weight d k

/-- The weight of a queued breadcrumb, for `n` node names. -/
def crumbWeight (n d : Nat) (c : breadcrumb) : Nat :=
  weight d (n - (goingUp c).tail.length)

/-- The weight of a queue. -/
def queueWeight (n d : Nat) (q : List breadcrumb) : Nat :=
  (q.map (crumbWeight n d)).sum

/-- The invariant of the queue of `to`: below its own vertex a queued
breadcrumb repeats no node, and all its nodes are among `U`. -/
def queueOK (U : List String) (q : List breadcrumb) : Prop :=
  ∀ c ∈ q, (goingUp c).tail.Nodup ∧ goingUp c ⊆ U

/-- The largest number of edges of a vertex object is at most this sum. -/
def degreeBound (g : graph) : Nat :=
  (g.heap.map (fun x => x.edges.length)).sum

/-- The vertex `b` can be reached from `a` along recorded edges. -/
def reachable (g : graph) (a b : String) : Prop :=
  Relation.ReflTransGen (fun x y => y ∈ edgesOf g.heap x) a b

/-- The graph `newGraph` builds from the lines `A B` and `B A`. -/
def cycleGraph : graph :=
  { root := some "A", vertices := ["A", "B"], heap := [⟨"A", ["B"]⟩, ⟨"B", ["A"]⟩] }

/-- The graph `newGraph` builds from the lines `A B` and `C A`: the vertex `C`
exists and cannot be reached from the root `A`. -/
def sideGraph : graph :=
  { root := some "A", vertices := ["A", "B", "C"],
    heap := [⟨"A", ["B"]⟩, ⟨"B", []⟩, ⟨"C", ["A"]⟩] }

/-- The graph that holds the vertex `A` and no edge. -/
def rootOnly : graph :=
  { root := some "A", vertices := ["A"], heap := [⟨"A", []⟩] }

/-- The statements `print` writes for a list of edges, in order. -/
def statements (quote : String → String) (es : List (String × String)) : List String :=
  es.map (fun e => statement quote e.1 e.2)

/-- What a call of `printDFS` on `cursor` does to the state: it writes the
statements of the edges `es`, which are the edges of the vertices it marks;
the marked vertices can be reached from `cursor` and all their edges lead to
visited vertices. -/
def dfsSpec (g : graph) (quote : String → String) (s : printState) (cursor : String)
    (s' : printState) : Prop :=
  ∃ es : List (String × String), s'.out = s.out ++ statements quote es ∧ es.Nodup ∧
    s.visited ⊆ s'.visited ∧ cursor ∈ s'.visited ∧
    (∀ u ∈ s'.visited, u ∈ s.visited ∨ reachable g cursor u) ∧
    (∀ u ∈ s'.visited, u ∉ s.visited → ∀ v ∈ edgesOf g.heap u, v ∈ s'.visited) ∧
    (∀ u v, (u, v) ∈ es ↔ u ∈ s'.visited ∧ u ∉ s.visited ∧ v ∈ edgesOf g.heap u)

/-- What the loop of `printDFS` over `edges` does to the state. -/
def loopSpec (g : graph) (quote : String → String) (cursor : String) (edges : List String)
    (s s' : printState) : Prop :=
  ∃ es : List (String × String), s'.out = s.out ++ statements quote es ∧
    (edges.Nodup → es.Nodup) ∧
    s.visited ⊆ s'.visited ∧ (∀ e ∈ edges, e ∈ s'.visited) ∧
    (∀ u ∈ s'.visited, u ∈ s.visited ∨ ∃ e ∈ edges, reachable g e u) ∧
    (∀ u ∈ s'.visited, u ∉ s.visited → ∀ v ∈ edgesOf g.heap u, v ∈ s'.visited) ∧
    (∀ u v, (u, v) ∈ es ↔
      (u = cursor ∧ v ∈ edges) ∨ (u ∈ s'.visited ∧ u ∉ s.visited ∧ v ∈ edgesOf g.heap u))

/-- The number of names of `U` that are not marked visited. -/
def unvisited (U visited : List String) : Nat :=
  (U.filter (fun u => decide (u ∉ visited))).length

/-- A quoting function for the examples: the name between double quotes. -/
def plainQuote (name : String) : String :=
  "\"" ++ name ++ "\""

/-- The graph `newGraph` builds from no line at all: the root is nil. -/
def emptyGraph : graph :=
  { root := none, vertices := [], heap := [] }

/-- A directed path of the graph: every step is a recorded edge. -/
def graph.walk (g : graph) (p : List String) : Prop :=
  p.Chain' (fun x y => (x, y) ∈ g.edgeList)

/-- The graph `newGraph` builds from the lines `A B` and `B C`. -/
def chainGraph : graph :=
  { root := some "A", vertices := ["A", "B", "C"],
    heap := [⟨"A", ["B"]⟩, ⟨"B", ["C"]⟩, ⟨"C", []⟩] }

/-- Six lines with two trails from `R` to `T` that cross `A` and `B` in
opposite orders. -/
def crossingLines : List String :=
  ["R A", "A B", "B T", "R B", "B A", "A T"]

/-- The graph `newGraph` builds from `crossingLines`. -/
def crossingGraph : graph :=
  { root := some "R", vertices := ["R", "A", "B", "T"],
    heap := [⟨"R", ["A", "B"]⟩, ⟨"A", ["B", "T"]⟩, ⟨"B", ["T", "A"]⟩, ⟨"T", []⟩] }

/-- The graph `to` returns for the needle `T` on `crossingGraph`. -/
def crossingResult : graph :=
  { root := some "R", vertices := ["R", "A", "T", "B"],
    heap := [⟨"R", ["A", "B"]⟩, ⟨"A", ["T", "B"]⟩, ⟨"T", []⟩, ⟨"B", ["T", "A"]⟩] }

/-- The graph holds the edge from `u` to `v`: the vertex object `u` is reached
from the root pointer, and its `edges` map has the key `v`. -/
def graph.holdsEdge (g : graph) (u v : String) : Prop :=
  ∃ r, g.root = some r ∧ reachable g r u ∧ v ∈ edgesOf g.heap u

/-- Some line of the input has the two fields `a` and `b`. -/
def lineEdge (lines : List String) (a b : String) : Prop :=
  ∃ l ∈ lines, Fields l = [a, b]

/-- A line of two fields that is longer than the buffer of the scanner:
`MaxScanTokenSize` letters `A`, a space, and the letter `B`. -/
def longLine : String :=
  String.mk (List.replicate MaxScanTokenSize 'A' ++ [' ', 'B'])

/-- The input of the comment in `newGraph`, `the list is unordered: B->C,
A->B`. -/
def unorderedLines : List String :=
  ["B C", "A B"]

/-- The graph `newGraph` returns for `unorderedLines`: the root is `B`, and the
vertex object `A` that the second line created is not reached from it. -/
def unorderedGraph : graph :=
  { root := some "B", vertices := ["B", "C", "A"],
    heap := [⟨"B", ["C"]⟩, ⟨"C", []⟩, ⟨"A", ["B"]⟩] }

end GraphGo

namespace MainGo

/-! ## `convert` of `main.go`

`semver.Compare` belongs to the library `golang.org/x/mod/semver`, not to this
program; `convert` takes it as the parameter `Compare`, and `Semver.Compare`
below is the function the program passes. -/

/-- An `edge` of `main.go`. -/
structure edge where
  from_ : String
  to_ : String
deriving DecidableEq, Repr

/-- The `graph` of `main.go`. -/
structure graph where
  edges : List edge
  mvsPicked : List String
  mvsUnpicked : List String
deriving DecidableEq, Repr

/-- The error of `convert`: `expected 2 words in line, but got %d: %s`, with
the number of words and the line. -/
inductive error where
  | words (n : Nat) (l : String)
deriving DecidableEq, Repr

/-- The characters of `strings.Replace(s, "@", "\n@", 1)`: the first `@` gets
a line feed before it. -/
def replaceLoop : List Char → List Char
  | [] => []
  | c :: cs => if c = '@' then '\n' :: '@' :: cs else c :: replaceLoop cs

/-- Go's `strings.Replace(s, "@", "\n@", 1)`. -/
def Replace (s : String) : String :=
  String.mk (replaceLoop s.data)

/-- The characters before and after the first `@`, if there is one. -/
def splitLoop : List Char → Option (List Char × List Char)
  | [] => none
  | c :: cs =>
    if c = '@' then some ([], cs)
    else (splitLoop cs).map (fun p => (c :: p.1, p.2))

/-- The split `i := strings.IndexByte(node, '@')`, `m, v = node[:i],
node[i+1:]`; `none` when `i < 0`. -/
def moduleVersion (node : String) : Option (String × String) :=
  (splitLoop node.data).map (fun p => (String.mk p.1, String.mk p.2))

/-- Map lookup `mvsPicked[m]`. -/
def mapGet (table : List (String × String)) (m : String) : Option String :=
  (table.find? (fun p => p.1 = m)).map (fun p => p.2)

/-- Map assignment `mvsPicked[m] = v`. -/
def mapSet (table : List (String × String)) (m v : String) : List (String × String) :=
  match mapGet table m with
  | some _ => table.map (fun p => if p.1 = m then (m, v) else p)
  | none => table ++ [(m, v)]

/-- The variables of the loop of `convert`: the graph `g` being filled (its
`mvsPicked` field is written after the loop), the set `seen` and the map
`mvsPicked`. -/
structure convertState where
  g : graph
  seen : List String
  mvsPicked : List (String × String)
deriving DecidableEq, Repr

/-- The body of `for _, node := range []string{from, to}` in `convert`. -/
def visit (Compare : String → String → Int) (s : convertState) (node : String) :
    convertState :=
  if node ∈ s.seen then s
  else
    let s := { s with seen := s.seen ++ [node] }
    match moduleVersion node with
    | none => s
    | some (m, v) =>
      match mapGet s.mvsPicked m with
      | some maxV =>
        if Compare maxV v < 0 then
          { s with
            g := { s.g with mvsUnpicked := s.g.mvsUnpicked ++ [m ++ "@" ++ maxV] }
            mvsPicked := mapSet s.mvsPicked m v }
        else
          { s with g := { s.g with mvsUnpicked := s.g.mvsUnpicked ++ [node] } }
      | none => { s with mvsPicked := mapSet s.mvsPicked m v }

/-- The scanning loop of `convert`, over the lines still to read. -/
def convertLoop (Compare : String → String → Int) :
    List String → convertState → Except error convertState
  | [], s => .ok s
  | l :: rest, s =>
    if l = "" then convertLoop Compare rest s
    else
      match GraphGo.Fields l with
      | [p0, p1] =>
        let from_ := Replace p0
        let to_ := Replace p1
        let s := { s with g := { s.g with edges := s.g.edges ++ [⟨from_, to_⟩] } }
        convertLoop Compare rest (visit Compare (visit Compare s from_) to_)
      | parts => .error (.words parts.length l)

/-- Go's `<=` on the characters of two strings: the lexicographic order of the
code points, which is the order of the UTF-8 bytes. -/
def leChars : List Char → List Char → Bool
  | [], _ => true
  | _ :: _, [] => false
  | a :: as, b :: bs =>
    if a.toNat < b.toNat then true
    else if b.toNat < a.toNat then false
    else leChars as bs

/-- Go's `sort.Strings`: the ascending rearrangement of the list. -/
def sortStrings (l : List String) : List String :=
  l.insertionSort (fun a b => leChars a.data b.data = true)

/-- The source's `convert`, on the lines of its reader. -/
def convert (Compare : String → String → Int) (lines : List String) : Except error graph :=
  match convertLoop Compare lines
      { g := { edges := [], mvsPicked := [], mvsUnpicked := [] }, seen := [], mvsPicked := [] } with
  | .error e => .error e
  | .ok s =>
    .ok { s.g with mvsPicked := sortStrings (s.mvsPicked.map (fun p => p.1 ++ "@" ++ p.2)) }

/-- The source's `edgesAsDOT`: the contents of the buffer after the loop.  The
verb `%q` of `fmt` is the library function `strconv.Quote`, the parameter
`quote`. -/
def graph.edgesAsDOT (quote : String → String) (g : graph) : String :=
  g.edges.foldl
    (fun buf e => buf ++ ("\t" ++ quote e.from_ ++ " -> " ++ quote e.to_ ++ "\n")) ""

/-- The state in which `convert` enters its loop. -/
def convertInit : convertState :=
  { g := { edges := [], mvsPicked := [], mvsUnpicked := [] }, seen := [], mvsPicked := [] }

/-- The nodes the loop of `convert` visits, in the order of the scan: line by
line, `from` before `to`. -/
def nodesOf (lines : List String) : List String :=
  lines.flatMap (fun l => (GraphGo.Fields l).map Replace)

/-- The state with another list of edges. -/
def withEdges (s : convertState) (es : List edge) : convertState :=
  { s with g := { s.g with edges := es } }

/-- The state of the classifier after the nodes `nodes` have been visited. -/
def scan (Compare : String → String → Int) (nodes : List String) : convertState :=
  nodes.foldl (visit Compare) convertInit

/-- The keys of the map `mvsPicked`. -/
def keys (table : List (String × String)) : List String :=
  table.map (fun p => p.1)

/-- The string `m+"@"+v` of a map entry. -/
def entry (p : String × String) : String :=
  p.1 ++ "@" ++ p.2

/-- The invariant of the loop of `convert` on `seen` and `mvsPicked`: the map
has no repeated key, each of its entries is the split of a seen node, and the
module of each seen node that splits is a key of the map. -/
def tableOK (seen : List String) (table : List (String × String)) : Prop :=
  (keys table).Nodup ∧
  (∀ p ∈ table, ∃ node ∈ seen, moduleVersion node = some p) ∧
  (∀ node ∈ seen, ∀ m v, moduleVersion node = some (m, v) → m ∈ keys table)

/-- The invariant of the scan for the two lists: `seen` holds each visited
node once, and the superseded list together with the entries of the map is a
rearrangement of the seen nodes that split at `@`. -/
def partitionOK (P : List String) (s : convertState) : Prop :=
  s.seen.Nodup ∧ (∀ n, n ∈ s.seen ↔ n ∈ P) ∧ tableOK s.seen s.mvsPicked ∧
  (s.g.mvsUnpicked ++ s.mvsPicked.map entry).Perm
    (s.seen.filter (fun n => (moduleVersion n).isSome))

/-- In the scan `P` the node `a` is discovered before the node `b`: `a` occurs
at a place before which `b` does not occur. -/
def discoveredBefore (P : List String) (a b : String) : Prop :=
  ∃ pre post, P = pre ++ a :: post ∧ b ∉ pre

/-- The invariant of the scan for ties: a seen node of the module of a map
entry was discovered after the node of that entry, or its version compares
strictly below the version of the entry. -/
def firstKept (Compare : String → String → Int) (P : List String) (s : convertState) :
    Prop :=
  ∀ p ∈ s.mvsPicked, ∀ n ∈ P, ∀ v, moduleVersion n = some (p.1, v) →
    discoveredBefore P (entry p) n ∨ 0 < Compare p.2 v

/-- The text `a` is before the text `b` in the lexicographic order of the code
points. -/
def textBefore (a b : String) : Prop :=
  List.Lex (fun x y : Char => x.toNat < y.toNat) a.data b.data

/-- The version the map holds for a module does not compare below the version
of any seen node of that module. -/
def tableMax (Compare : String → String → Int) (seen : List String)
    (table : List (String × String)) : Prop :=
  ∀ node ∈ seen, ∀ m v, moduleVersion node = some (m, v) →
    ∀ w, (m, w) ∈ table → 0 ≤ Compare w v

/-- The versioned nodes of the input: `node` is a field of a line, after
`Replace`, and splits into the module `m` and the version `v`. -/
def versioned (lines : List String) (m v : String) : Prop :=
  ∃ l ∈ lines, ∃ t ∈ GraphGo.Fields l, moduleVersion (Replace t) = some (m, v)

/-- Three lines with two versions of the module `m`, one of `n`, and a root
without a version. -/
def sampleLines : List String :=
  ["m@1 n@1", "m@22 n@1", "r m@1"]

/-- The graph `convert` returns on `sampleLines` when versions are compared by
length. -/
def sampleGraph : graph :=
  { edges := [⟨"m\n@1", "n\n@1"⟩, ⟨"m\n@22", "n\n@1"⟩, ⟨"r", "m\n@1"⟩],
    mvsPicked := ["m\n@22", "n\n@1"],
    mvsUnpicked := ["m\n@1"] }

/-- The two lines of the third scenario of the specification. -/
def scenarioLines : List String :=
  ["m@1.0.0 n@1.0.0", "m@2.0.0 n@1.0.0"]

/-- The edges `convert` records for `scenarioLines`. -/
def scenarioEdges : List edge :=
  [⟨"m\n@1.0.0", "n\n@1.0.0"⟩, ⟨"m\n@2.0.0", "n\n@1.0.0"⟩]

/-- The state of `convert` on `scenarioLines` when it visits `m@2.0.0`. -/
def scenarioState : convertState :=
  { g := { edges := scenarioEdges, mvsPicked := [], mvsUnpicked := [] },
    seen := ["m\n@1.0.0", "n\n@1.0.0"],
    mvsPicked := [("m\n", "1.0.0"), ("n\n", "1.0.0")] }

/-- The graph `convert` returns on the line `m@1 m@2` when versions are
compared by length, so that the two versions tie. -/
def tieGraph : graph :=
  { edges := [⟨"m\n@1", "m\n@2"⟩], mvsPicked := ["m\n@1"], mvsUnpicked := ["m\n@2"] }

/-- Two lines in which the module `m` is seen with three versions of growing
length, the shortest in the middle. -/
def orderLines : List String :=
  ["m@22 m@1", "m@333 n@1"]

/-- The graph `convert` returns on `orderLines` when versions are compared by
length. -/
def orderGraph : graph :=
  { edges := [⟨"m\n@22", "m\n@1"⟩, ⟨"m\n@333", "n\n@1"⟩],
    mvsPicked := ["m\n@333", "n\n@1"],
    mvsUnpicked := ["m\n@1", "m\n@22"] }

/-- A comparison for the examples: versions are ordered as texts. -/
def byText (a b : String) : Int :=
  if leChars a.data b.data then (if leChars b.data a.data then 0 else -1) else 1

/-- A comparison for the examples: versions are ordered by their length. -/
def byLength (a b : String) : Int :=
  (a.length : Int) - (b.length : Int)

/-- Two lines that give the root `r` the modules `a` and `a.b`, both at the
version `v1`. -/
def dottedLines : List String :=
  ["r a@v1", "r a.b@v1"]

/-- The graph `convert` returns on `dottedLines`. -/
def dottedGraph : graph :=
  { edges := [⟨"r", "a\n@v1"⟩, ⟨"r", "a.b\n@v1"⟩],
    mvsPicked := ["a\n@v1", "a.b\n@v1"],
    mvsUnpicked := [] }

end MainGo

namespace Semver

/-! ## The library function `semver.Compare`

The package `golang.org/x/mod/semver` is not part of this repository; the
definitions of this section follow its file `semver.go`, function by function,
on the characters of the strings. -/

/-- The type `parsed` of `semver`: the parts of a version string. -/
structure parsed where
  major : String
  minor : String
  patch : String
  short : String
  prerelease : String
  build : String
deriving DecidableEq, Repr

/-- The test `'0' <= c && c <= '9'`. -/
def isDigit (c : Char) : Bool :=
  decide ('0'.toNat ≤ c.toNat) && decide (c.toNat ≤ '9'.toNat)

/-- The function `isIdentChar`: a letter, a digit or a hyphen of ASCII. -/
def isIdentChar (c : Char) : Bool :=
  (decide ('A'.toNat ≤ c.toNat) && decide (c.toNat ≤ 'Z'.toNat))
    || (decide ('a'.toNat ≤ c.toNat) && decide (c.toNat ≤ 'z'.toNat))
    || isDigit c || decide (c = '-')

/-- The function `isBadNum`: all digits, more than one, the first a zero. -/
def isBadNum (v : List Char) : Bool :=
  v.all isDigit && decide (1 < v.length) && decide (v.head? = some '0')

/-- The function `isNum`: all digits. -/
def isNum (v : List Char) : Bool :=
  v.all isDigit

/-- The function `parseInt`: the digits at the front of `v` and the rest;
`none` stands for `ok == false`, when `v` does not start with a digit or the
number has a leading zero. -/
def parseInt (v : List Char) : Option (String × List Char) :=
  match v with
  | [] => none
  | c :: cs =>
    if isDigit c = false then none
    else if c = '0' ∧ cs.takeWhile isDigit ≠ [] then none
    else some (String.mk (c :: cs.takeWhile isDigit), cs.dropWhile isDigit)

/-- The loop of `parsePrerelease` from index 1 on: `seen` holds `v[:i]` and
`ident` holds `v[start:i]`, both most recent first. -/
def prereleaseLoop : List Char → List Char → List Char → Option (String × List Char)
  | [], seen, ident =>
    if ident = [] ∨ isBadNum ident.reverse = true then none
    else some (String.mk seen.reverse, [])
  | c :: cs, seen, ident =>
    if c = '+' then
      if ident = [] ∨ isBadNum ident.reverse = true then none
      else some (String.mk seen.reverse, c :: cs)
    else if isIdentChar c = false ∧ c ≠ '.' then none
    else if c = '.' then
      if ident = [] ∨ isBadNum ident.reverse = true then none
      else prereleaseLoop cs (c :: seen) []
    else prereleaseLoop cs (c :: seen) (c :: ident)

/-- The function `parsePrerelease`: a hyphen and identifiers separated by
dots, none empty and none a number with a leading zero, up to a `+` or the
end. -/
def parsePrerelease (v : List Char) : Option (String × List Char) :=
  match v with
  | [] => none
  | c :: cs => if c = '-' then prereleaseLoop cs [c] [] else none

/-- The loop of `parseBuild` from index 1 on, with `seen` and `ident` as in
`prereleaseLoop`. -/
def buildLoop : List Char → List Char → List Char → Option (String × List Char)
  | [], seen, ident =>
    if ident = [] then none else some (String.mk seen.reverse, [])
  | c :: cs, seen, ident =>
    if isIdentChar c = false ∧ c ≠ '.' then none
    else if c = '.' then
      if ident = [] then none else buildLoop cs (c :: seen) []
    else buildLoop cs (c :: seen) (c :: ident)

/-- The function `parseBuild`: a `+` and identifiers separated by dots, none
empty, up to the end. -/
def parseBuild (v : List Char) : Option (String × List Char) :=
  match v with
  | [] => none
  | c :: cs => if c = '+' then buildLoop cs [c] [] else none

/-- The end of `parse`, after the patch number: an optional prerelease, an
optional build, and nothing else. -/
def parseTail (major minor patch : String) (v : List Char) : Option parsed :=
  match (if v.head? = some '-' then parsePrerelease v else some ("", v)) with
  | none => none
  | some (prerelease, v) =>
    match (if v.head? = some '+' then parseBuild v else some ("", v)) with
    | none => none
    | some (build, v) =>
      if v ≠ [] then none
      else some { major := major, minor := minor, patch := patch, short := "",
                  prerelease := prerelease, build := build }

/-- The function `parse`: the parts of a version of the form
`vMAJOR[.MINOR[.PATCH[-PRERELEASE][+BUILD]]]`; `none` stands for
`ok == false`. -/
def parse (v : String) : Option parsed :=
  match v.data with
  | [] => none
  | c :: v =>
    if c ≠ 'v' then none
    else
      match parseInt v with
      | none => none
      | some (major, v) =>
        match v with
        | [] =>
          some { major := major, minor := "0", patch := "0", short := ".0.0",
                 prerelease := "", build := "" }
        | c :: v =>
          if c ≠ '.' then none
          else
            match parseInt v with
            | none => none
            | some (minor, v) =>
              match v with
              | [] =>
                some { major := major, minor := minor, patch := "0", short := ".0",
                       prerelease := "", build := "" }
              | c :: v =>
                if c ≠ '.' then none
                else
                  match parseInt v with
                  | none => none
                  | some (patch, v) => parseTail major minor patch v

/-- Go's `<` on strings. -/
def less (x y : List Char) : Bool :=
  !MainGo.leChars y x

/-- The function `compareInt`, on two numbers without leading zeros. -/
def compareInt (x y : String) : Int :=
  if x = y then 0
  else if x.length < y.length then -1
  else if x.length > y.length then 1
  else if less x.data y.data then -1
  else 1

/-- The function `nextIdent`: the characters before the first dot, and the
rest. -/
def nextIdent (x : List Char) : List Char × List Char :=
  (x.takeWhile (fun c => c ≠ '.'), x.dropWhile (fun c => c ≠ '.'))

/-- The loop `for x != "" && y != ""` of `comparePrerelease` and the return
after it.  Every round drops a character of `x`, so as many rounds as `x` has
characters end the loop. -/
def comparePrereleaseLoop : Nat → List Char → List Char → Int
  | 0, x, _ => if x = [] then -1 else 1
  | fuel + 1, x, y =>
    if x ≠ [] ∧ y ≠ [] then
      let dx := (nextIdent x.tail).1
      let dy := (nextIdent y.tail).1
      if dx ≠ dy then
        if isNum dx ≠ isNum dy then (if isNum dx then -1 else 1)
        else if isNum dx = true ∧ dx.length < dy.length then -1
        else if isNum dx = true ∧ dx.length > dy.length then 1
        else if less dx dy then -1
        else 1
      else comparePrereleaseLoop fuel (nextIdent x.tail).2 (nextIdent y.tail).2
    else if x = [] then -1
    else 1

/-- The function `comparePrerelease`. -/
def comparePrerelease (x y : String) : Int :=
  if x = y then 0
  else if x = "" then 1
  else if y = "" then -1
  else comparePrereleaseLoop x.length x.data y.data

/-- The function `semver.Compare`: invalid versions are equal to each other
and below every valid one; valid versions are compared by major, minor and
patch number and then by prerelease. -/
def Compare (v w : String) : Int :=
  match parse v, parse w with
  | none, none => 0
  | none, some _ => -1
  | some _, none => 1
  | some pv, some pw =>
    if compareInt pv.major pw.major ≠ 0 then compareInt pv.major pw.major
    else if compareInt pv.minor pw.minor ≠ 0 then compareInt pv.minor pw.minor
    else if compareInt pv.patch pw.patch ≠ 0 then compareInt pv.patch pw.patch
    else comparePrerelease pv.prerelease pw.prerelease

end Semver

/-! # Properties -/

namespace GraphGo

/-! ## Vertex maps: names and recorded edges -/

theorem mem_edgeList (g : graph) (u v : String) :
    (u, v) ∈ g.edgeList ↔ hasEdge g.heap u v := by
  unfold graph.edgeList hasEdge
  simp only [List.mem_flatMap, List.mem_map, Prod.mk.injEq]
  constructor
  · rintro ⟨x, hx, e, he, rfl, rfl⟩
    exact ⟨x, hx, rfl, he⟩
  · rintro ⟨x, hx, rfl, he⟩
    exact ⟨x, hx, v, he, rfl, rfl⟩

theorem lookup_eq_none {vm : List vertex} {n : String} :
    lookup vm n = none ↔ n ∉ names vm := by
  unfold lookup names
  simp only [List.find?_eq_none, decide_eq_true_eq, List.mem_map, not_exists, not_and]

theorem lookup_some {vm : List vertex} {n : String} {x : vertex} (h : lookup vm n = some x) :
    x ∈ vm ∧ x.name = n := by
  unfold lookup at h
  refine ⟨List.mem_of_find?_eq_some h, ?_⟩
  simpa using List.find?_some h

theorem lookup_of_mem {vm : List vertex} (hnd : (names vm).Nodup) {x : vertex} (hx : x ∈ vm) :
    lookup vm x.name = some x := by
  induction vm with
  | nil => cases hx
  | cons y ys ih =>
    unfold names at hnd
    simp only [List.map_cons, List.nodup_cons, List.mem_map, not_exists, not_and] at hnd
    unfold lookup
    by_cases hy : y.name = x.name
    · rcases List.mem_cons.1 hx with rfl | hx'
      · simp
      · exact absurd hy (hnd.1 x hx' ∘ Eq.symm)
    · rcases List.mem_cons.1 hx with rfl | hx'
      · exact absurd rfl hy
      · rw [List.find?_cons_of_neg _ (by simpa using hy)]
        exact ih hnd.2 hx'

theorem mem_edgesOf {vm : List vertex} (hnd : (names vm).Nodup) (u v : String) :
    v ∈ edgesOf vm u ↔ hasEdge vm u v := by
  unfold edgesOf hasEdge
  constructor
  · intro h
    cases hl : lookup vm u with
    | none => rw [hl] at h; cases h
    | some x =>
      rw [hl] at h
      exact ⟨x, (lookup_some hl).1, (lookup_some hl).2, h⟩
  · rintro ⟨x, hx, rfl, hv⟩
    rw [lookup_of_mem hnd hx]
    exact hv

theorem names_getOrCreate (vm : List vertex) (n m : String) :
    m ∈ names (getOrCreate vm n) ↔ m ∈ names vm ∨ m = n := by
  unfold getOrCreate
  cases hl : lookup vm n with
  | none =>
    simp only [names, List.map_append, List.mem_append, List.map_cons, List.map_nil,
      List.mem_singleton, newVertex]
  | some x =>
    have hx := lookup_some hl
    simp only
    constructor
    · exact Or.inl
    · rintro (h | rfl)
      · exact h
      · exact List.mem_map.2 ⟨x, hx.1, hx.2⟩

theorem nodup_getOrCreate {vm : List vertex} (hnd : (names vm).Nodup) (n : String) :
    (names (getOrCreate vm n)).Nodup := by
  unfold getOrCreate
  cases hl : lookup vm n with
  | some x => exact hnd
  | none =>
    have hn := lookup_eq_none.1 hl
    simp only [names, List.map_append, List.map_cons, List.map_nil, newVertex]
    refine List.Nodup.append hnd (List.nodup_singleton _) ?_
    intro a ha hb
    rw [List.mem_singleton] at hb
    subst hb
    exact hn ha

theorem hasEdge_getOrCreate (vm : List vertex) (n u v : String) :
    hasEdge (getOrCreate vm n) u v ↔ hasEdge vm u v := by
  unfold getOrCreate
  cases hl : lookup vm n with
  | some x => exact Iff.rfl
  | none =>
    unfold hasEdge
    simp only [List.mem_append, List.mem_singleton]
    constructor
    · rintro ⟨x, hx | rfl, hu, hv⟩
      · exact ⟨x, hx, hu, hv⟩
      · simp [newVertex] at hv
    · rintro ⟨x, hx, hu, hv⟩
      exact ⟨x, Or.inl hx, hu, hv⟩

theorem names_setEdge (vm : List vertex) (a b : String) :
    names (setEdge vm a b) = names vm := by
  unfold names setEdge
  rw [List.map_map]
  apply List.map_congr_left
  intro x _
  simp only [Function.comp]
  split <;> rfl

theorem hasEdge_setEdge {vm : List vertex} {a : String} (ha : a ∈ names vm) (b u v : String) :
    hasEdge (setEdge vm a b) u v ↔ hasEdge vm u v ∨ (u = a ∧ v = b) := by
  unfold hasEdge setEdge
  simp only [List.mem_map]
  constructor
  · rintro ⟨x, ⟨y, hy, rfl⟩, hu, hv⟩
    by_cases hya : y.name = a
    · rw [if_pos hya] at hu hv
      simp only at hu hv
      by_cases hb : b ∈ y.edges
      · rw [if_pos hb] at hv
        exact Or.inl ⟨y, hy, hu, hv⟩
      · rw [if_neg hb, List.mem_append, List.mem_singleton] at hv
        rcases hv with hv | hv
        · exact Or.inl ⟨y, hy, hu, hv⟩
        · exact Or.inr ⟨hu ▸ hya, hv⟩
    · rw [if_neg hya] at hu hv
      exact Or.inl ⟨y, hy, hu, hv⟩
  · rintro (⟨y, hy, hu, hv⟩ | ⟨rfl, rfl⟩)
    · refine ⟨_, ⟨y, hy, rfl⟩, ?_, ?_⟩
      · split <;> exact hu
      · split
        · simp only
          split
          · exact hv
          · exact List.mem_append_left _ hv
        · exact hv
    · obtain ⟨y, hy, hya⟩ := List.mem_map.1 ha
      refine ⟨_, ⟨y, hy, rfl⟩, ?_, ?_⟩
      · rw [if_pos hya]; exact hya
      · rw [if_pos hya]
        simp only
        split
        · assumption
        · exact List.mem_append_right _ (List.mem_singleton.2 rfl)

end GraphGo

namespace GraphGo

/-! ## The going-down loop -/

theorem mem_pairs_iff (p : List String) (u v : String) :
    (u, v) ∈ pairs p ↔ [u, v] <:+: p := by
  unfold pairs
  induction p with
  | nil => simp
  | cons a t ih =>
    cases t with
    | nil =>
      simp only [List.tail_cons, List.zip_nil_right, List.not_mem_nil, false_iff]
      intro h
      have := h.length_le
      simp at this
    | cons b t' =>
      rw [List.infix_cons_iff, ← ih]
      simp only [List.tail_cons, List.zip_cons_cons, List.mem_cons, Prod.mk.injEq,
        List.cons_prefix_cons, List.nil_prefix, and_true]

theorem names_goingDown (path : List String) (vm : List vertex) (m : String) :
    m ∈ names (goingDown path vm) ↔ m ∈ names vm ∨ (2 ≤ path.length ∧ m ∈ path) := by
  induction path with
  | nil => simp [goingDown]
  | cons a t ih =>
    cases t with
    | nil => simp [goingDown]
    | cons b t' =>
      simp only [goingDown, names_setEdge, names_getOrCreate, ih, List.length_cons,
        List.mem_cons]
      constructor
      · rintro (((h | ⟨_, h | h⟩) | h) | h)
        · exact Or.inl h
        · exact Or.inr ⟨by omega, Or.inr (Or.inl h)⟩
        · exact Or.inr ⟨by omega, Or.inr (Or.inr h)⟩
        · exact Or.inr ⟨by omega, Or.inr (Or.inl h)⟩
        · exact Or.inr ⟨by omega, Or.inl h⟩
      · rintro (h | ⟨_, h | h | h⟩)
        · exact Or.inl (Or.inl (Or.inl h))
        · exact Or.inr h
        · exact Or.inl (Or.inr h)
        · cases t' with
          | nil => cases h
          | cons c t'' =>
            exact Or.inl (Or.inl (Or.inr ⟨by simp, Or.inr h⟩))

theorem nodup_goingDown (path : List String) {vm : List vertex} (hnd : (names vm).Nodup) :
    (names (goingDown path vm)).Nodup := by
  induction path with
  | nil => simpa [goingDown] using hnd
  | cons a t ih =>
    cases t with
    | nil => simpa [goingDown] using hnd
    | cons b t' =>
      simp only [goingDown, names_setEdge]
      exact nodup_getOrCreate (nodup_getOrCreate ih _) _

theorem hasEdge_goingDown (path : List String) (vm : List vertex) (u v : String) :
    hasEdge (goingDown path vm) u v ↔ hasEdge vm u v ∨ [v, u] <:+: path := by
  induction path with
  | nil => simp [goingDown]
  | cons a t ih =>
    cases t with
    | nil =>
      simp only [goingDown, iff_self_or]
      intro h
      have := h.length_le
      simp at this
    | cons b t' =>
      have hb : b ∈ names (getOrCreate (getOrCreate (goingDown (b :: t') vm) b) a) := by
        rw [names_getOrCreate, names_getOrCreate]
        exact Or.inl (Or.inr rfl)
      have key : [v, u] <:+: a :: b :: t' ↔ (v = a ∧ u = b) ∨ [v, u] <:+: b :: t' := by
        rw [List.infix_cons_iff]
        simp only [List.cons_prefix_cons, List.nil_prefix, and_true]
      simp only [goingDown]
      rw [hasEdge_setEdge hb, hasEdge_getOrCreate, hasEdge_getOrCreate, ih, key]
      tauto

end GraphGo

namespace GraphGo

/-! ## Breadcrumbs and the cycle test -/

theorem goingUp_eq (b : breadcrumb) : goingUp b = b.name :: (goingUp b).tail := by
  cases b <;> rfl

theorem goingUp_ne_nil (b : breadcrumb) : goingUp b ≠ [] := by
  rw [goingUp_eq]; exact List.cons_ne_nil _ _

theorem hasCycleLoop_iff (seen : List String) (b : breadcrumb) :
    hasCycleLoop seen b = true ↔ ∃ n ∈ (goingUp b).tail, n ∈ seen := by
  induction b with
  | start v => simp [hasCycleLoop, goingUp]
  | next v f ih =>
    simp only [hasCycleLoop, goingUp, List.tail_cons]
    rw [goingUp_eq f]
    by_cases hf : f.name ∈ seen
    · simp only [hf, if_true, true_iff]
      exact ⟨f.name, List.mem_cons_self _ _, hf⟩
    · simp only [hf, if_false, ih, List.mem_cons, exists_eq_or_imp, false_or, Bool.false_eq_true]

theorem hasCycle_iff (b : breadcrumb) :
    b.hasCycle = true ↔ b.name ∈ (goingUp b).tail := by
  unfold breadcrumb.hasCycle
  rw [hasCycleLoop_iff]
  simp only [List.mem_singleton, exists_eq_right]

theorem hasCycle_false_iff (b : breadcrumb) :
    b.hasCycle = false ↔ b.name ∉ (goingUp b).tail := by
  rw [← hasCycle_iff, Bool.not_eq_true]

theorem nodup_goingUp {b : breadcrumb} (hc : b.hasCycle = false) (ht : (goingUp b).tail.Nodup) :
    (goingUp b).Nodup := by
  rw [goingUp_eq]
  exact List.nodup_cons.2 ⟨(hasCycle_false_iff b).1 hc, ht⟩

/-! ## The search tree -/

theorem descends_head {g : graph} {c p : breadcrumb} (h : Descends g c p) :
    p = c ∨ (c.hasCycle = false ∧ ∃ e ∈ edgesOf g.heap c.name, Descends g (.next e c) p) := by
  induction h with
  | refl => exact Or.inl rfl
  | @step p e _ hc he ih =>
    right
    rcases ih with rfl | ⟨hcc, e', he', hd⟩
    · exact ⟨hc, e, he, Descends.refl⟩
    · exact ⟨hcc, e', he', Descends.step hd hc he⟩

theorem descends_of_child {g : graph} {c p : breadcrumb} {e : String}
    (hc : c.hasCycle = false) (he : e ∈ edgesOf g.heap c.name)
    (h : Descends g (.next e c) p) : Descends g c p := by
  induction h with
  | refl => exact Descends.step Descends.refl hc he
  | step _ hc' he' ih => exact Descends.step ih hc' he'

theorem found_of_cyclic {g : graph} {needle : String} {c p : breadcrumb}
    (hc : c.hasCycle = true) : ¬ Found g needle c p := by
  rintro ⟨hd, hp, _⟩
  rcases descends_head hd with rfl | ⟨hcc, _⟩
  · rw [hc] at hp; cases hp
  · rw [hc] at hcc; cases hcc

theorem found_head {g : graph} {needle : String} {c : breadcrumb} (hc : c.hasCycle = false)
    (p : breadcrumb) :
    Found g needle c p ↔
      (p = c ∧ c.name = needle) ∨ ∃ e ∈ edgesOf g.heap c.name, Found g needle (.next e c) p := by
  constructor
  · rintro ⟨hd, hp, hn⟩
    rcases descends_head hd with rfl | ⟨_, e, he, hd'⟩
    · exact Or.inl ⟨rfl, hn⟩
    · exact Or.inr ⟨e, he, hd', hp, hn⟩
  · rintro (⟨rfl, hn⟩ | ⟨e, he, hd, hp, hn⟩)
    · exact ⟨Descends.refl, hc, hn⟩
    · exact ⟨descends_of_child hc he hd, hp, hn⟩

/-! ## What the search loop computes -/

theorem toLoop_spec (g : graph) (needle : String) :
    ∀ (fuel : Nat) (s s' : toState), toLoop g needle fuel s = some s' →
      s'.q = [] ∧ ∃ ps : List breadcrumb,
        (∀ p, p ∈ ps ↔ ∃ c ∈ s.q, Found g needle c p) ∧
        s'.vertexMap = record s.vertexMap ps := by
  intro fuel
  induction fuel with
  | zero => intro s s' h; simp [toLoop] at h
  | succ n ih =>
    intro s s' h
    obtain ⟨q, vm⟩ := s
    cases q with
    | nil =>
      simp only [toLoop, toStep, Option.some.injEq] at h
      subst h
      exact ⟨rfl, [], by simp, rfl⟩
    | cons c q =>
      by_cases hc : c.hasCycle = true
      · simp only [toLoop, toStep, hc, if_true] at h
        obtain ⟨hq, ps, hps, hvm⟩ := ih _ _ h
        refine ⟨hq, ps, ?_, hvm⟩
        intro p
        rw [hps]
        simp only [List.mem_cons, exists_eq_or_imp]
        constructor
        · exact Or.inr
        · rintro (hf | hf)
          · exact absurd hf (found_of_cyclic hc)
          · exact hf
      · rw [Bool.not_eq_true] at hc
        simp only [toLoop, toStep, hc, Bool.false_eq_true, if_false] at h
        obtain ⟨hq, ps, hps, hvm⟩ := ih _ _ h
        simp only at hps hvm
        have hmem : ∀ p, (∃ c' ∈ q ++ (edgesOf g.heap c.name).map (fun e => breadcrumb.next e c),
              Found g needle c' p) ↔
            (∃ c' ∈ q, Found g needle c' p) ∨
              ∃ e ∈ edgesOf g.heap c.name, Found g needle (.next e c) p := by
          intro p
          simp only [List.mem_append, List.mem_map]
          constructor
          · rintro ⟨c', hc' | ⟨e, he, rfl⟩, hf⟩
            · exact Or.inl ⟨c', hc', hf⟩
            · exact Or.inr ⟨e, he, hf⟩
          · rintro (⟨c', hc', hf⟩ | ⟨e, he, hf⟩)
            · exact ⟨c', Or.inl hc', hf⟩
            · exact ⟨_, Or.inr ⟨e, he, rfl⟩, hf⟩
        refine ⟨hq, ?_⟩
        by_cases hn : c.name = needle
        · rw [if_pos hn] at hvm
          refine ⟨c :: ps, ?_, ?_⟩
          · intro p
            simp only [List.mem_cons, exists_eq_or_imp]
            rw [hps, hmem, found_head hc]
            constructor
            · rintro (h | h | h)
              · exact Or.inl (Or.inl ⟨h, hn⟩)
              · exact Or.inr h
              · exact Or.inl (Or.inr h)
            · rintro ((⟨h, _⟩ | h) | h)
              · exact Or.inl h
              · exact Or.inr (Or.inr h)
              · exact Or.inr (Or.inl h)
          · rw [hvm]; rfl
        · rw [if_neg hn] at hvm
          refine ⟨ps, ?_, hvm⟩
          intro p
          simp only [List.mem_cons, exists_eq_or_imp]
          rw [hps, hmem, found_head hc]
          constructor
          · rintro (h | h)
            · exact Or.inr h
            · exact Or.inl (Or.inr h)
          · rintro ((⟨_, h⟩ | h) | h)
            · exact absurd h hn
            · exact Or.inr h
            · exact Or.inl h

theorem hasEdge_record (ps : List breadcrumb) (vm : List vertex) (u v : String) :
    hasEdge (record vm ps) u v ↔ hasEdge vm u v ∨ ∃ p ∈ ps, [v, u] <:+: goingUp p := by
  induction ps generalizing vm with
  | nil => simp [record]
  | cons p ps ih =>
    have h : record vm (p :: ps) = record (goingDown (goingUp p) vm) ps := rfl
    rw [h, ih, hasEdge_goingDown]
    simp only [List.mem_cons, exists_eq_or_imp]
    tauto

theorem names_record (ps : List breadcrumb) (vm : List vertex) (m : String) :
    m ∈ names (record vm ps) ↔
      m ∈ names vm ∨ ∃ p ∈ ps, 2 ≤ (goingUp p).length ∧ m ∈ goingUp p := by
  induction ps generalizing vm with
  | nil => simp [record]
  | cons p ps ih =>
    have h : record vm (p :: ps) = record (goingDown (goingUp p) vm) ps := rfl
    rw [h, ih, names_goingDown]
    simp only [List.mem_cons, exists_eq_or_imp]
    tauto

theorem nodup_record (ps : List breadcrumb) {vm : List vertex} (hnd : (names vm).Nodup) :
    (names (record vm ps)).Nodup := by
  induction ps generalizing vm with
  | nil => exact hnd
  | cons p ps ih => exact ih (nodup_goingDown _ hnd)

end GraphGo

namespace GraphGo

/-! ## Termination of the search loop -/

theorem weight_pos (d k : Nat) : 1 ≤ weight d k := by
  cases k <;> simp [weight]

theorem length_edgesOf_le (g : graph) (a : String) :
    (edgesOf g.heap a).length ≤ degreeBound g := by
  unfold edgesOf degreeBound
  cases hl : lookup g.heap a with
  | none => simp
  | some x =>
    have hx := (lookup_some hl).1
    exact List.single_le_sum (fun _ _ => Nat.zero_le _) _
      (List.mem_map.2 ⟨x, hx, rfl⟩)

theorem length_goingUp_le {U : List String} {c : breadcrumb}
    (hok : (goingUp c).tail.Nodup ∧ goingUp c ⊆ U) (hc : c.hasCycle = false) :
    (goingUp c).length ≤ U.length :=
  (List.subperm_of_subset (nodup_goingUp hc hok.1) hok.2).length_le

theorem toStep_queueOK {g : graph} {needle : String} {U : List String}
    (hU : ∀ a b, b ∈ edgesOf g.heap a → b ∈ U) {s s' : toState}
    (hok : queueOK U s.q) (h : toStep g needle s = some s') : queueOK U s'.q := by
  obtain ⟨q, vm⟩ := s
  cases q with
  | nil => simp [toStep] at h
  | cons c q =>
    have hq : queueOK U q := fun c' hc' => hok c' (List.mem_cons_of_mem _ hc')
    by_cases hc : c.hasCycle = true
    · simp only [toStep, hc, if_true, Option.some.injEq] at h
      subst h
      exact hq
    · rw [Bool.not_eq_true] at hc
      simp only [toStep, hc, Bool.false_eq_true, if_false, Option.some.injEq] at h
      subst h
      intro c' hc'
      simp only [List.mem_append, List.mem_map] at hc'
      rcases hc' with hc' | ⟨e, he, rfl⟩
      · exact hq c' hc'
      · have hcok := hok c (List.mem_cons_self _ _)
        refine ⟨nodup_goingUp hc hcok.1, ?_⟩
        intro x hx
        simp only [goingUp, List.mem_cons] at hx
        rcases hx with rfl | hx
        · exact hU _ _ he
        · exact hcok.2 hx

theorem toStep_weight {g : graph} {needle : String} {U : List String} {s s' : toState}
    (hok : queueOK U s.q) (h : toStep g needle s = some s') :
    queueWeight U.length (degreeBound g) s'.q < queueWeight U.length (degreeBound g) s.q := by
  obtain ⟨q, vm⟩ := s
  cases q with
  | nil => simp [toStep] at h
  | cons c q =>
    by_cases hc : c.hasCycle = true
    · simp only [toStep, hc, if_true, Option.some.injEq] at h
      subst h
      have := weight_pos (degreeBound g) (U.length - (goingUp c).tail.length)
      simp only [queueWeight, List.map_cons, List.sum_cons, crumbWeight]
      omega
    · rw [Bool.not_eq_true] at hc
      simp only [toStep, hc, Bool.false_eq_true, if_false, Option.some.injEq] at h
      subst h
      have hlen := length_goingUp_le (hok c (List.mem_cons_self _ _)) hc
      have hpos : 1 ≤ (goingUp c).length := by
        rw [goingUp_eq]; simp
      have hchildren : (((edgesOf g.heap c.name).map (fun e => breadcrumb.next e c)).map
          (crumbWeight U.length (degreeBound g))).sum
            ≤ degreeBound g * weight (degreeBound g) (U.length - (goingUp c).length) := by
        refine le_trans (List.sum_le_card_nsmul _
          (weight (degreeBound g) (U.length - (goingUp c).length)) ?_) ?_
        · intro x hx
          simp only [List.mem_map] at hx
          obtain ⟨_, ⟨e, _, rfl⟩, rfl⟩ := hx
          simp [crumbWeight, goingUp]
        · simp only [List.length_map, smul_eq_mul]
          exact Nat.mul_le_mul_right _ (length_edgesOf_le g c.name)
      have hw : crumbWeight U.length (degreeBound g) c
          = 1 + degreeBound g * weight (degreeBound g) (U.length - (goingUp c).length) := by
        unfold crumbWeight
        have : U.length - (goingUp c).tail.length = (U.length - (goingUp c).length) + 1 := by
          rw [List.length_tail]; omega
        rw [this, weight]
      simp only [queueWeight, List.map_append, List.sum_append, List.map_cons, List.sum_cons]
      rw [hw]
      omega

theorem toLoop_terminates (g : graph) (needle : String) (U : List String)
    (hU : ∀ a b, b ∈ edgesOf g.heap a → b ∈ U) :
    ∀ (fuel : Nat) (s : toState), queueOK U s.q →
      queueWeight U.length (degreeBound g) s.q < fuel →
      ∃ s', toLoop g needle fuel s = some s' := by
  intro fuel
  induction fuel with
  | zero => intro s _ h; cases h
  | succ n ih =>
    intro s hok hlt
    cases hs : toStep g needle s with
    | none => exact ⟨s, by simp [toLoop, hs]⟩
    | some s1 =>
      have h1 := toStep_weight hok hs
      obtain ⟨s', hs'⟩ := ih s1 (toStep_queueOK hU hok hs) (by omega)
      exact ⟨s', by simp [toLoop, hs, hs']⟩

theorem toRun_queueOK {g : graph} {needle : String} {U : List String}
    (hU : ∀ a b, b ∈ edgesOf g.heap a → b ∈ U) :
    ∀ (k : Nat) (s s' : toState), queueOK U s.q → toRun g needle k s = some s' →
      queueOK U s'.q := by
  intro k
  induction k with
  | zero =>
    intro s s' hok h
    simp only [toRun, Option.some.injEq] at h
    subst h
    exact hok
  | succ n ih =>
    intro s s' hok h
    cases hs : toStep g needle s with
    | none => simp [toRun, hs] at h
    | some s1 =>
      simp only [toRun, hs, Option.some_bind] at h
      exact ih s1 s' (toStep_queueOK hU hok hs) h

theorem queueOK_toInit {U : List String} {r : String} (hr : r ∈ U) :
    queueOK U (toInit r).q := by
  intro c hc
  simp only [toInit, List.mem_singleton] at hc
  subst hc
  simp [goingUp, hr]

end GraphGo

namespace GraphGo

/-! ## The search tree below the root and the simple paths of the graph -/

theorem descends_start {g : graph} {r : String} {p : breadcrumb}
    (h : Descends g (.start r) p) :
    (goingUp p).getLast? = some r ∧
      (goingUp p).Chain' (fun y x => y ∈ edgesOf g.heap x) ∧ (goingUp p).tail.Nodup := by
  induction h with
  | refl => simp [goingUp]
  | @step p e _ hc he ih =>
    obtain ⟨hlast, hchain, hnd⟩ := ih
    refine ⟨?_, ?_, ?_⟩
    · simp only [goingUp]
      rw [goingUp_eq p] at hlast ⊢
      rw [List.getLast?_cons_cons]
      exact hlast
    · simp only [goingUp]
      rw [goingUp_eq p] at hchain ⊢
      exact List.chain'_cons.2 ⟨he, hchain⟩
    · simp only [goingUp, List.tail_cons]
      exact nodup_goingUp hc hnd

theorem exists_crumb_of_trail {g : graph} {r : String} :
    ∀ l : List String, l.getLast? = some r →
      l.Chain' (fun y x => y ∈ edgesOf g.heap x) → l.Nodup →
      ∃ p, goingUp p = l ∧ Descends g (.start r) p ∧ p.hasCycle = false := by
  intro l
  induction l with
  | nil => intro h; simp at h
  | cons a t ih =>
    intro hlast hchain hnd
    cases t with
    | nil =>
      simp only [List.getLast?_singleton, Option.some.injEq] at hlast
      subst hlast
      exact ⟨.start a, rfl, Descends.refl, by simp [breadcrumb.hasCycle, hasCycleLoop]⟩
    | cons b t' =>
      rw [List.getLast?_cons_cons] at hlast
      rw [List.chain'_cons] at hchain
      obtain ⟨p, hp, hd, hc⟩ := ih hlast hchain.2 (List.nodup_cons.1 hnd).2
      have hname : p.name = b := by
        have := goingUp_eq p
        rw [hp] at this
        exact (List.cons.inj this).1.symm
      refine ⟨.next a p, by simp [goingUp, hp], Descends.step hd hc (hname ▸ hchain.1), ?_⟩
      rw [hasCycle_false_iff]
      simp only [goingUp, List.tail_cons, hp, breadcrumb.name]
      exact (List.nodup_cons.1 hnd).1

theorem found_start_iff (g : graph) (r t : String) (l : List String) :
    (∃ p, Found g t (.start r) p ∧ goingUp p = l.reverse) ↔ simplePath g r t l := by
  unfold simplePath
  constructor
  · rintro ⟨p, ⟨hd, hc, hn⟩, hl⟩
    obtain ⟨hlast, hchain, hnd⟩ := descends_start hd
    have hnd' := nodup_goingUp hc hnd
    rw [hl] at hlast hchain hnd'
    refine ⟨?_, ?_, List.nodup_reverse.1 hnd', ?_⟩
    · rw [← List.getLast?_reverse]; exact hlast
    · rw [← List.head?_reverse, ← hl, goingUp_eq, List.head?_cons, hn]
    · have := List.chain'_reverse.1 hchain
      exact this
  · rintro ⟨hhead, hlast, hnd, hchain⟩
    have h1 : l.reverse.getLast? = some r := by rw [List.getLast?_reverse]; exact hhead
    have h2 : l.reverse.Chain' (fun y x => y ∈ edgesOf g.heap x) :=
      List.chain'_reverse.2 hchain
    obtain ⟨p, hp, hd, hc⟩ := exists_crumb_of_trail l.reverse h1 h2 (List.nodup_reverse.2 hnd)
    refine ⟨p, ⟨hd, hc, ?_⟩, hp⟩
    have := goingUp_eq p
    rw [hp] at this
    have h3 : l.reverse.head? = some t := by rw [List.head?_reverse]; exact hlast
    rw [this, List.head?_cons, Option.some.injEq] at h3
    exact h3

/-- The result of the search loop from the initial state of `to`: the recorded
edges are the consecutive pairs of the simple paths from the root to the
needle, and the names are the root's and those on such a path. -/
theorem toLoop_toInit {g : graph} {needle r : String} {fuel : Nat} {s : toState}
    (h : toLoop g needle fuel (toInit r) = some s) :
    (names s.vertexMap).Nodup ∧
      (∀ u v, hasEdge s.vertexMap u v ↔ ∃ l, simplePath g r needle l ∧ (u, v) ∈ pairs l) ∧
      (∀ m, m ∈ names s.vertexMap ↔ m = r ∨ ∃ l, simplePath g r needle l ∧ m ∈ l) := by
  obtain ⟨_, ps, hps, hvm⟩ := toLoop_spec g needle fuel _ _ h
  have hps' : ∀ p, p ∈ ps ↔ Found g needle (.start r) p := by
    intro p
    rw [hps]
    simp [toInit]
  rw [hvm]
  refine ⟨nodup_record ps (by simp [toInit, names, newVertex]), ?_, ?_⟩
  · intro u v
    rw [hasEdge_record]
    have h0 : ¬ hasEdge (toInit r).vertexMap u v := by
      simp [hasEdge, toInit, newVertex]
    simp only [h0, false_or]
    constructor
    · rintro ⟨p, hp, hinf⟩
      refine ⟨(goingUp p).reverse, (found_start_iff g r needle _).1
        ⟨p, (hps' p).1 hp, by rw [List.reverse_reverse]⟩, ?_⟩
      rw [mem_pairs_iff]
      have := List.reverse_infix.2 hinf
      simpa using this
    · rintro ⟨l, hl, hmem⟩
      obtain ⟨p, hf, hp⟩ := (found_start_iff g r needle l).2 hl
      refine ⟨p, (hps' p).2 hf, ?_⟩
      rw [hp]
      rw [mem_pairs_iff] at hmem
      have := List.reverse_infix.2 hmem
      simpa using this
  · intro m
    rw [names_record]
    have h0 : m ∈ names (toInit r).vertexMap ↔ m = r := by
      simp [names, toInit, newVertex]
    rw [h0]
    constructor
    · rintro (h | ⟨p, hp, _, hm⟩)
      · exact Or.inl h
      · exact Or.inr ⟨(goingUp p).reverse, (found_start_iff g r needle _).1
          ⟨p, (hps' p).1 hp, by rw [List.reverse_reverse]⟩, List.mem_reverse.2 hm⟩
    · rintro (h | ⟨l, hl, hm⟩)
      · exact Or.inl h
      · obtain ⟨p, hf, hp⟩ := (found_start_iff g r needle l).2 hl
        by_cases hlen : 2 ≤ l.length
        · exact Or.inr ⟨p, (hps' p).2 hf, by rw [hp]; simpa using hlen,
            by rw [hp]; exact List.mem_reverse.2 hm⟩
        · left
          obtain ⟨hhead, _, _, _⟩ := hl
          cases l with
          | nil => cases hm
          | cons a t =>
            cases t with
            | nil =>
              simp only [List.head?_cons, Option.some.injEq] at hhead
              simp only [List.mem_singleton] at hm
              rw [hm, hhead]
            | cons b t' => simp at hlen

end GraphGo

namespace GraphGo

/-! ## `strings.Fields` -/

theorem fieldsLoop_ne_empty (cs cur : List Char) :
    ∀ t ∈ fieldsLoop cs cur, t ≠ "" := by
  induction cs generalizing cur with
  | nil =>
    intro t ht
    by_cases hcur : cur = []
    · simp [fieldsLoop, hcur] at ht
    · simp only [fieldsLoop, hcur, if_false, List.mem_singleton] at ht
      subst ht
      intro h
      have h2 := congrArg String.data h
      simp only [List.reverse_eq_nil_iff] at h2
      exact hcur h2
  | cons c cs ih =>
    intro t ht
    by_cases hsp : isSpace c = true
    · by_cases hcur : cur = []
      · simp only [fieldsLoop, hsp, if_true, hcur] at ht
        exact ih [] t ht
      · simp only [fieldsLoop, hsp, if_true, hcur, if_false, List.mem_cons] at ht
        rcases ht with rfl | ht
        · intro h
          have h2 := congrArg String.data h
          simp only [List.reverse_eq_nil_iff] at h2
          exact hcur h2
        · exact ih [] t ht
    · simp only [fieldsLoop, hsp, Bool.false_eq_true, if_false] at ht
      exact ih _ t ht

theorem Fields_ne_empty (s : String) : ∀ t ∈ Fields s, t ≠ "" :=
  fieldsLoop_ne_empty _ _

theorem Fields_empty : Fields "" = [] := rfl

/-! ## The loop of `newGraph` -/

theorem newGraphLoop_cons_empty (rest : List String) (vm : List vertex) (root : String) :
    newGraphLoop ("" :: rest) vm root = newGraphLoop rest vm root := by
  simp [newGraphLoop]

theorem newGraphLoop_cons_pair {text : String} (htext : text ≠ "") {a b : String}
    (hf : Fields text = [a, b]) (rest : List String) (vm : List vertex) (root : String) :
    newGraphLoop (text :: rest) vm root =
      newGraphLoop rest (setEdge (getOrCreate (getOrCreate vm a) b) a b)
        (if root = "" then a else root) := by
  simp [newGraphLoop, htext, hf]

theorem newGraphLoop_cons_bad {text : String} (htext : text ≠ "")
    (hf : (Fields text).length ≠ 2) (rest : List String) (vm : List vertex) (root : String) :
    newGraphLoop (text :: rest) vm root = .error (.decipher text) := by
  simp only [newGraphLoop, htext, if_false]
  split
  · rename_i h; rw [h] at hf; simp at hf
  · rfl

theorem length_two_iff {α : Type} (l : List α) : l.length = 2 ↔ ∃ a b, l = [a, b] := by
  constructor
  · intro h
    match l, h with
    | [a, b], _ => exact ⟨a, b, rfl⟩
  · rintro ⟨a, b, rfl⟩; rfl

/-- The loop of `newGraph` fails exactly on a line that is not empty and has
other than two fields, with that line as the error; the first such line is
reported. -/
theorem newGraphLoop_error_iff (lines : List String) (vm : List vertex) (root : String) :
    (∃ e, newGraphLoop lines vm root = .error e) ↔
      ∃ l ∈ lines, l ≠ "" ∧ (Fields l).length ≠ 2 := by
  induction lines generalizing vm root with
  | nil => simp [newGraphLoop]
  | cons text rest ih =>
    by_cases htext : text = ""
    · subst htext
      rw [newGraphLoop_cons_empty, ih]
      simp
    · by_cases hf : (Fields text).length = 2
      · obtain ⟨a, b, hab⟩ := (length_two_iff _).1 hf
        rw [newGraphLoop_cons_pair htext hab, ih]
        simp [hf]
      · rw [newGraphLoop_cons_bad htext hf]
        simp only [Except.error.injEq, exists_eq', List.mem_cons, exists_eq_or_imp, true_iff]
        exact Or.inl ⟨htext, hf⟩

theorem newGraphLoop_error_line (lines : List String) (vm : List vertex) (root : String)
    (e : error) (h : newGraphLoop lines vm root = .error e) :
    ∃ l ∈ lines, l ≠ "" ∧ (Fields l).length ≠ 2 ∧ e = .decipher l := by
  induction lines generalizing vm root with
  | nil => simp [newGraphLoop] at h
  | cons text rest ih =>
    by_cases htext : text = ""
    · subst htext
      rw [newGraphLoop_cons_empty] at h
      obtain ⟨l, hl, h1⟩ := ih _ _ h
      exact ⟨l, List.mem_cons_of_mem _ hl, h1⟩
    · by_cases hf : (Fields text).length = 2
      · obtain ⟨a, b, hab⟩ := (length_two_iff _).1 hf
        rw [newGraphLoop_cons_pair htext hab] at h
        obtain ⟨l, hl, h1⟩ := ih _ _ h
        exact ⟨l, List.mem_cons_of_mem _ hl, h1⟩
      · rw [newGraphLoop_cons_bad htext hf] at h
        simp only [Except.error.injEq] at h
        exact ⟨text, List.mem_cons_self _ _, htext, hf, h.symm⟩

/-- What the loop of `newGraph` leaves in `vertexMap`. -/
theorem newGraphLoop_spec (lines : List String) :
    ∀ (vm : List vertex) (root : String) (vm' : List vertex) (root' : String),
      newGraphLoop lines vm root = .ok (vm', root') → (names vm).Nodup →
      (names vm').Nodup ∧
        (∀ m, m ∈ names vm' ↔ m ∈ names vm ∨ ∃ l ∈ lines, m ∈ Fields l) ∧
        (∀ u v, hasEdge vm' u v ↔ hasEdge vm u v ∨ ∃ l ∈ lines, Fields l = [u, v]) := by
  induction lines with
  | nil =>
    intro vm root vm' root' h hnd
    simp only [newGraphLoop, Except.ok.injEq, Prod.mk.injEq] at h
    obtain ⟨rfl, rfl⟩ := h
    simp [hnd]
  | cons text rest ih =>
    intro vm root vm' root' h hnd
    by_cases htext : text = ""
    · subst htext
      rw [newGraphLoop_cons_empty] at h
      obtain ⟨h1, h2, h3⟩ := ih _ _ _ _ h hnd
      refine ⟨h1, ?_, ?_⟩
      · intro m; rw [h2]; simp [Fields_empty]
      · intro u v; rw [h3]; simp [Fields_empty]
    · by_cases hf : (Fields text).length = 2
      · obtain ⟨a, b, hab⟩ := (length_two_iff _).1 hf
        rw [newGraphLoop_cons_pair htext hab] at h
        have ha : a ∈ names (getOrCreate (getOrCreate vm a) b) := by
          rw [names_getOrCreate, names_getOrCreate]; exact Or.inl (Or.inr rfl)
        have hnd1 : (names (setEdge (getOrCreate (getOrCreate vm a) b) a b)).Nodup := by
          rw [names_setEdge]
          exact nodup_getOrCreate (nodup_getOrCreate hnd _) _
        obtain ⟨h1, h2, h3⟩ := ih _ _ _ _ h hnd1
        refine ⟨h1, ?_, ?_⟩
        · intro m
          rw [h2, names_setEdge, names_getOrCreate, names_getOrCreate]
          simp only [List.mem_cons, exists_eq_or_imp, hab, List.mem_singleton,
            List.not_mem_nil, or_false]
          tauto
        · intro u v
          rw [h3, hasEdge_setEdge ha, hasEdge_getOrCreate, hasEdge_getOrCreate]
          simp only [List.mem_cons, exists_eq_or_imp, hab, List.cons.injEq, and_true]
          constructor
          · rintro ((h | ⟨rfl, rfl⟩) | h)
            · exact Or.inl h
            · exact Or.inr (Or.inl ⟨rfl, rfl⟩)
            · exact Or.inr (Or.inr h)
          · rintro (h | ⟨rfl, rfl⟩ | h)
            · exact Or.inl (Or.inl h)
            · exact Or.inl (Or.inr ⟨rfl, rfl⟩)
            · exact Or.inr h
      · rw [newGraphLoop_cons_bad htext hf] at h
        cases h

theorem newGraphLoop_root_keep (lines : List String) :
    ∀ (vm : List vertex) (root : String) (vm' : List vertex) (root' : String),
      newGraphLoop lines vm root = .ok (vm', root') → root ≠ "" → root' = root := by
  induction lines with
  | nil =>
    intro vm root vm' root' h _
    simp only [newGraphLoop, Except.ok.injEq, Prod.mk.injEq] at h
    exact h.2.symm
  | cons text rest ih =>
    intro vm root vm' root' h hroot
    by_cases htext : text = ""
    · subst htext
      rw [newGraphLoop_cons_empty] at h
      exact ih _ _ _ _ h hroot
    · by_cases hf : (Fields text).length = 2
      · obtain ⟨a, b, hab⟩ := (length_two_iff _).1 hf
        rw [newGraphLoop_cons_pair htext hab, if_neg hroot] at h
        exact ih _ _ _ _ h hroot
      · rw [newGraphLoop_cons_bad htext hf] at h
        cases h

theorem newGraphLoop_root_first (lines : List String) :
    ∀ (vm : List vertex) (vm' : List vertex) (root' : String) (l : String),
      newGraphLoop lines vm "" = .ok (vm', root') →
      lines.find? (fun t => decide (t ≠ "")) = some l →
      (Fields l).head? = some root' := by
  induction lines with
  | nil => intro vm vm' root' l _ hfind; simp at hfind
  | cons text rest ih =>
    intro vm vm' root' l h hfind
    by_cases htext : text = ""
    · subst htext
      rw [newGraphLoop_cons_empty] at h
      rw [List.find?_cons_of_neg _ (by simp)] at hfind
      exact ih _ _ _ _ h hfind
    · rw [List.find?_cons_of_pos _ (by simpa using htext)] at hfind
      simp only [Option.some.injEq] at hfind
      subst hfind
      by_cases hf : (Fields text).length = 2
      · obtain ⟨a, b, hab⟩ := (length_two_iff _).1 hf
        rw [newGraphLoop_cons_pair htext hab, if_pos rfl] at h
        have ha : a ≠ "" := Fields_ne_empty text a (by rw [hab]; simp)
        rw [newGraphLoop_root_keep _ _ _ _ _ h ha, hab]
        rfl
      · rw [newGraphLoop_cons_bad htext hf] at h
        cases h

end GraphGo

namespace GraphGo

/-! ## `newGraph` and `to` as a whole -/

theorem fieldsLoop_append_cr (cs cur : List Char) :
    fieldsLoop (cs ++ ['\r']) cur = fieldsLoop cs cur := by
  induction cs generalizing cur with
  | nil =>
    have hsp : isSpace '\r' = true := by decide
    by_cases hcur : cur = []
    · simp [fieldsLoop, hsp, hcur]
    · simp [fieldsLoop, hsp, hcur]
  | cons c cs ih =>
    have hcons : (c :: cs) ++ ['\r'] = c :: (cs ++ ['\r']) := rfl
    rw [hcons]
    by_cases hsp : isSpace c = true
    · by_cases hcur : cur = []
      · simp only [fieldsLoop, hsp, if_true, hcur, ih]
      · simp only [fieldsLoop, hsp, if_true, hcur, if_false, ih]
    · simp only [fieldsLoop, hsp, Bool.false_eq_true, if_false, ih]

/-- A carriage return at the end of a line is white space: the fields of the
text are those of the line. -/
theorem Fields_dropCR (line : String) : Fields (dropCR line) = Fields line := by
  unfold dropCR
  by_cases h : line.data.getLast? = some '\r'
  · rw [if_pos h]
    unfold Fields
    have hsplit : line.data = line.data.dropLast ++ ['\r'] := by
      have hne : line.data ≠ [] := by
        intro h0; rw [h0] at h; simp at h
      have := List.dropLast_append_getLast hne
      rw [List.getLast?_eq_getLast _ hne] at h
      simp only [Option.some.injEq] at h
      rw [h] at this
      exact this.symm
    conv_rhs => rw [hsplit]
    rw [fieldsLoop_append_cr]
  · rw [if_neg h]

theorem scanLines_short (lines : List String)
    (h : ∀ l ∈ lines, l.utf8ByteSize < MaxScanTokenSize) :
    scanLines lines = (lines.map dropCR, none) := by
  induction lines with
  | nil => rfl
  | cons l rest ih =>
    have hl : ¬ MaxScanTokenSize ≤ l.utf8ByteSize :=
      Nat.not_le.2 (h l (List.mem_cons_self _ _))
    have ih1 := ih (fun x hx => h x (List.mem_cons_of_mem _ hx))
    simp only [scanLines, hl, if_false, ih1, List.map_cons]

theorem scanLines_err (lines : List String) (e : error) (h : (scanLines lines).2 = some e) :
    e = .tooLong ∧ ∃ l ∈ lines, MaxScanTokenSize ≤ l.utf8ByteSize := by
  induction lines with
  | nil => simp [scanLines] at h
  | cons l rest ih =>
    by_cases hl : MaxScanTokenSize ≤ l.utf8ByteSize
    · simp only [scanLines, hl, if_true, Option.some.injEq] at h
      exact ⟨h.symm, l, List.mem_cons_self _ _, hl⟩
    · simp only [scanLines, hl, if_false] at h
      obtain ⟨h1, x, hx, h2⟩ := ih h
      exact ⟨h1, x, List.mem_cons_of_mem _ hx, h2⟩

theorem scanLines_long (lines : List String)
    (h : ∃ l ∈ lines, MaxScanTokenSize ≤ l.utf8ByteSize) :
    (scanLines lines).2 = some .tooLong := by
  induction lines with
  | nil => simp at h
  | cons l rest ih =>
    by_cases hl : MaxScanTokenSize ≤ l.utf8ByteSize
    · simp only [scanLines, hl, if_true]
    · simp only [scanLines, hl, if_false]
      apply ih
      obtain ⟨x, hx, h2⟩ := h
      rcases List.mem_cons.1 hx with rfl | hx
      · exact absurd h2 hl
      · exact ⟨x, hx, h2⟩

theorem scanLines_none (lines : List String) (h : (scanLines lines).2 = none) :
    ∀ l ∈ lines, l.utf8ByteSize < MaxScanTokenSize := by
  intro l hl
  by_contra hlong
  have := scanLines_long lines ⟨l, hl, Nat.not_lt.1 hlong⟩
  rw [h] at this
  cases this

theorem scanLines_texts (lines : List String) :
    ∀ t ∈ (scanLines lines).1, ∃ l ∈ lines, t = dropCR l := by
  induction lines with
  | nil => intro t ht; simp [scanLines] at ht
  | cons l rest ih =>
    intro t ht
    by_cases hl : MaxScanTokenSize ≤ l.utf8ByteSize
    · simp [scanLines, hl] at ht
    · simp only [scanLines, hl, if_false, List.mem_cons] at ht
      rcases ht with rfl | ht
      · exact ⟨l, List.mem_cons_self _ _, rfl⟩
      · obtain ⟨x, hx, h2⟩ := ih t ht
        exact ⟨x, List.mem_cons_of_mem _ hx, h2⟩

theorem newGraph_ok {lines : List String} {g : graph} (h : newGraph lines = .ok g) :
    ∃ vm root, newGraphLoop (lines.map dropCR) [] "" = .ok (vm, root) ∧
      g = { root := (lookup vm root).map (fun x => x.name), vertices := names vm, heap := vm } := by
  unfold newGraph at h
  cases hl : newGraphLoop (scanLines lines).1 [] "" with
  | error e => rw [hl] at h; cases h
  | ok r =>
    obtain ⟨vm, root⟩ := r
    rw [hl] at h
    cases he : (scanLines lines).2 with
    | some e => rw [he] at h; cases h
    | none =>
      rw [he] at h
      simp only [Except.ok.injEq] at h
      rw [scanLines_short lines (scanLines_none lines he)] at hl
      exact ⟨vm, root, hl, h.symm⟩

theorem newGraph_short {lines : List String} {g : graph} (h : newGraph lines = .ok g) :
    ∀ l ∈ lines, l.utf8ByteSize < MaxScanTokenSize := by
  unfold newGraph at h
  cases hl : newGraphLoop (scanLines lines).1 [] "" with
  | error e => rw [hl] at h; cases h
  | ok r =>
    rw [hl] at h
    cases he : (scanLines lines).2 with
    | some e => rw [he] at h; cases h
    | none => exact scanLines_none lines he

theorem exists_mem_map_dropCR (lines : List String) (P : List String → Prop) :
    (∃ l ∈ lines.map dropCR, P (Fields l)) ↔ ∃ l ∈ lines, P (Fields l) := by
  constructor
  · rintro ⟨t, ht, hP⟩
    obtain ⟨l, hl, rfl⟩ := List.mem_map.1 ht
    exact ⟨l, hl, by rwa [Fields_dropCR] at hP⟩
  · rintro ⟨l, hl, hP⟩
    exact ⟨dropCR l, List.mem_map_of_mem _ hl, by rwa [Fields_dropCR]⟩

theorem newGraph_spec {lines : List String} {g : graph} (h : newGraph lines = .ok g) :
    (names g.heap).Nodup ∧ g.vertices = names g.heap ∧
      (∀ m, m ∈ g.vertices ↔ ∃ l ∈ lines, m ∈ Fields l) ∧
      (∀ u v, hasEdge g.heap u v ↔ ∃ l ∈ lines, Fields l = [u, v]) := by
  obtain ⟨vm, root, hl, rfl⟩ := newGraph_ok h
  obtain ⟨h1, h2, h3⟩ := newGraphLoop_spec _ _ _ _ _ hl (by simp [names])
  refine ⟨h1, rfl, ?_, ?_⟩
  · intro m
    rw [h2, ← exists_mem_map_dropCR lines (fun fs => m ∈ fs)]
    simp [names]
  · intro u v
    rw [h3, ← exists_mem_map_dropCR lines (fun fs => fs = [u, v])]
    simp [hasEdge]

theorem newGraph_edge_closed {lines : List String} {g : graph} (h : newGraph lines = .ok g)
    (a b : String) (hb : b ∈ edgesOf g.heap a) : b ∈ g.vertices := by
  obtain ⟨hnd, _, hv, he⟩ := newGraph_spec h
  obtain ⟨l, hl, hf⟩ := (he a b).1 ((mem_edgesOf hnd a b).1 hb)
  exact (hv b).2 ⟨l, hl, by rw [hf]; simp⟩

theorem find?_map_dropCR (lines : List String) {l : String}
    (hfind : lines.find? (fun t => decide (dropCR t ≠ "")) = some l) :
    (lines.map dropCR).find? (fun t => decide (t ≠ "")) = some (dropCR l) := by
  induction lines with
  | nil => simp at hfind
  | cons x rest ih =>
    by_cases hx : dropCR x = ""
    · rw [List.find?_cons_of_neg _ (by simpa using hx)] at hfind
      rw [List.map_cons, List.find?_cons_of_neg _ (by simpa using hx)]
      exact ih hfind
    · rw [List.find?_cons_of_pos _ (by simpa using hx)] at hfind
      simp only [Option.some.injEq] at hfind
      subst hfind
      rw [List.map_cons, List.find?_cons_of_pos _ (by simpa using hx)]

theorem newGraph_root {lines : List String} {g : graph} (h : newGraph lines = .ok g)
    {l : String} (hfind : lines.find? (fun t => decide (dropCR t ≠ "")) = some l) :
    g.root = (Fields l).head? ∧ ∃ r, g.root = some r ∧ r ∈ g.vertices := by
  obtain ⟨hnd, _, hv, _⟩ := newGraph_spec h
  obtain ⟨vm, root, hl, rfl⟩ := newGraph_ok h
  have hhead := newGraphLoop_root_first _ _ _ _ _ hl (find?_map_dropCR lines hfind)
  rw [Fields_dropCR] at hhead
  have hmem : root ∈ names vm := by
    refine (hv root).2 ⟨l, List.mem_of_find?_eq_some hfind, ?_⟩
    exact List.mem_of_mem_head? hhead
  obtain ⟨x, hx, hxn⟩ := List.mem_map.1 hmem
  have hlook : lookup vm root = some x := by
    rw [← hxn]; exact lookup_of_mem hnd hx
  simp only [hlook, Option.map_some', hhead, hxn, true_and]
  exact ⟨root, rfl, hmem⟩

theorem dropCR_empty : dropCR "" = "" := rfl

theorem Fields_of_dropCR_empty {l : String} (h : dropCR l = "") : Fields l = [] := by
  rw [← Fields_dropCR, h, Fields_empty]

theorem newGraph_root_of_mem {lines : List String} {g : graph} (h : newGraph lines = .ok g)
    {t : String} (ht : t ∈ g.vertices) : ∃ r, g.root = some r ∧ r ∈ g.vertices := by
  obtain ⟨_, _, hv, _⟩ := newGraph_spec h
  obtain ⟨l, hl, hf⟩ := (hv t).1 ht
  have hne : dropCR l ≠ "" := by
    intro h0
    rw [Fields_of_dropCR_empty h0] at hf
    cases hf
  cases hfind : lines.find? (fun t => decide (dropCR t ≠ "")) with
  | none =>
    rw [List.find?_eq_none] at hfind
    exact absurd (by simpa using hne) (hfind l hl)
  | some l' => exact (newGraph_root h hfind).2

theorem to_ok {g : graph} {needle : String} {fuel : Nat} {res : graph}
    (h : g.to needle fuel = some (.ok res)) :
    ∃ r s, g.root = some r ∧ needle ∈ g.vertices ∧
      toLoop g needle fuel (toInit r) = some s ∧
      res = { root := some r, vertices := names s.vertexMap, heap := s.vertexMap } := by
  unfold graph.to at h
  by_cases hn : needle ∈ g.vertices
  · rw [if_pos hn] at h
    cases hr : g.root with
    | none => rw [hr] at h; simp at h
    | some r =>
      rw [hr] at h
      simp only at h
      cases hl : toLoop g needle fuel (toInit r) with
      | none => rw [hl] at h; simp at h
      | some s =>
        rw [hl] at h
        simp only [Option.some.injEq, result.ok.injEq] at h
        exact ⟨r, s, rfl, hn, hl, h.symm⟩
  · rw [if_neg hn] at h
    simp at h

theorem to_of_toLoop {g : graph} {needle r : String} {fuel : Nat} {s : toState}
    (hr : g.root = some r) (hn : needle ∈ g.vertices)
    (hl : toLoop g needle fuel (toInit r) = some s) :
    g.to needle fuel =
      some (.ok { root := some r, vertices := names s.vertexMap, heap := s.vertexMap }) := by
  unfold graph.to
  rw [if_pos hn, hr]
  simp only [hl]
  rfl

/-- On a graph built by `newGraph` the call `to` returns a graph for every
target of the known-node set, with any fuel above a bound. -/
theorem to_returns {lines : List String} {g : graph} (hg : newGraph lines = .ok g)
    {target : String} (ht : target ∈ g.vertices) :
    ∃ n, ∀ fuel, n ≤ fuel → ∃ res, g.to target fuel = some (.ok res) := by
  obtain ⟨r, hr, hrmem⟩ := newGraph_root_of_mem hg ht
  refine ⟨weight (degreeBound g) g.vertices.length + 1, ?_⟩
  intro fuel hfuel
  obtain ⟨s, hs⟩ := toLoop_terminates g target g.vertices (newGraph_edge_closed hg) fuel
    (toInit r) (queueOK_toInit hrmem)
    (by simp only [queueWeight, toInit, List.map_cons, List.map_nil, List.sum_cons,
          List.sum_nil, crumbWeight, goingUp, List.tail_cons, List.length_nil, Nat.sub_zero]
        omega)
  exact ⟨_, to_of_toLoop hr ht hs⟩

/-- The edges and names of a graph returned by `to`. -/
theorem to_spec {g : graph} {needle r : String} {fuel : Nat} {res : graph}
    (hr : g.root = some r) (h : g.to needle fuel = some (.ok res)) :
    res.root = some r ∧ res.vertices = names res.heap ∧ (names res.heap).Nodup ∧
      (∀ u v, (u, v) ∈ res.edgeList ↔ ∃ p, simplePath g r needle p ∧ (u, v) ∈ pairs p) ∧
      (∀ m, m ∈ res.vertices ↔ m = r ∨ ∃ p, simplePath g r needle p ∧ m ∈ p) := by
  obtain ⟨r', s, hr', _, hl, rfl⟩ := to_ok h
  rw [hr] at hr'
  simp only [Option.some.injEq] at hr'
  subst hr'
  obtain ⟨h1, h2, h3⟩ := toLoop_toInit hl
  refine ⟨rfl, rfl, h1, ?_, h3⟩
  intro u v
  rw [mem_edgeList]
  exact h2 u v

end GraphGo

namespace GraphGo

/-! ## Further facts used by the main statements -/

theorem newGraph_lines_ok {lines : List String} {g : graph} (h : newGraph lines = .ok g) :
    ∀ l ∈ lines, dropCR l = "" ∨ (Fields l).length = 2 := by
  obtain ⟨vm, root, hl, _⟩ := newGraph_ok h
  intro l hl'
  by_contra hcon
  rw [not_or] at hcon
  obtain ⟨e, he⟩ := (newGraphLoop_error_iff (lines.map dropCR) [] "").2
    ⟨dropCR l, List.mem_map_of_mem _ hl', hcon.1, by rw [Fields_dropCR]; exact hcon.2⟩
  rw [hl] at he
  cases he

theorem nodup_edges_getOrCreate {vm : List vertex} (h : ∀ x ∈ vm, x.edges.Nodup) (n : String) :
    ∀ x ∈ getOrCreate vm n, x.edges.Nodup := by
  unfold getOrCreate
  cases lookup vm n with
  | some _ => exact h
  | none =>
    intro x hx
    rcases List.mem_append.1 hx with hx | hx
    · exact h x hx
    · rw [List.mem_singleton] at hx
      subst hx
      exact List.nodup_nil

theorem nodup_edges_setEdge {vm : List vertex} (h : ∀ x ∈ vm, x.edges.Nodup) (a b : String) :
    ∀ x ∈ setEdge vm a b, x.edges.Nodup := by
  intro x hx
  unfold setEdge at hx
  obtain ⟨y, hy, rfl⟩ := List.mem_map.1 hx
  by_cases hya : y.name = a
  · rw [if_pos hya]
    by_cases hb : b ∈ y.edges
    · simp only [hb, if_true]
      exact h y hy
    · simp only [hb, if_false]
      refine List.Nodup.append (h y hy) (List.nodup_singleton _) ?_
      intro c hc hc'
      rw [List.mem_singleton] at hc'
      subst hc'
      exact hb hc
  · rw [if_neg hya]
    exact h y hy

theorem newGraphLoop_nodup_edges (lines : List String) :
    ∀ (vm : List vertex) (root : String) (vm' : List vertex) (root' : String),
      newGraphLoop lines vm root = .ok (vm', root') → (∀ x ∈ vm, x.edges.Nodup) →
      ∀ x ∈ vm', x.edges.Nodup := by
  induction lines with
  | nil =>
    intro vm root vm' root' h hnd
    simp only [newGraphLoop, Except.ok.injEq, Prod.mk.injEq] at h
    rw [← h.1]
    exact hnd
  | cons text rest ih =>
    intro vm root vm' root' h hnd
    by_cases htext : text = ""
    · subst htext
      rw [newGraphLoop_cons_empty] at h
      exact ih _ _ _ _ h hnd
    · by_cases hf : (Fields text).length = 2
      · obtain ⟨a, b, hab⟩ := (length_two_iff _).1 hf
        rw [newGraphLoop_cons_pair htext hab] at h
        exact ih _ _ _ _ h
          (nodup_edges_setEdge (nodup_edges_getOrCreate (nodup_edges_getOrCreate hnd _) _) _ _)
      · rw [newGraphLoop_cons_bad htext hf] at h
        cases h

theorem nodup_edgesOf {vm : List vertex} (h : ∀ x ∈ vm, x.edges.Nodup) (u : String) :
    (edgesOf vm u).Nodup := by
  unfold edgesOf
  cases hl : lookup vm u with
  | none => exact List.nodup_nil
  | some x => exact h x (lookup_some hl).1

/-- A consecutive pair of a simple path from `r` to `t`: its two nodes differ,
it does not enter `r` and it does not leave `t`. -/
theorem pair_of_simplePath {g : graph} {r t : String} {p : List String}
    (hp : simplePath g r t p) {u v : String} (huv : (u, v) ∈ pairs p) :
    u ≠ v ∧ v ≠ r ∧ u ≠ t := by
  obtain ⟨hhead, hlast, hnd, _⟩ := hp
  rw [mem_pairs_iff] at huv
  obtain ⟨s, t', rfl⟩ := huv
  have hnd1 : (s ++ (u :: v :: t')).Nodup := by simpa using hnd
  have hnd2 := (List.nodup_append.1 hnd1).2.1
  have huv' : u ≠ v := by
    intro h
    exact (List.nodup_cons.1 hnd2).1 (h ▸ List.mem_cons_self _ _)
  refine ⟨huv', ?_, ?_⟩
  · cases s with
    | nil =>
      simp only [List.nil_append, List.cons_append, List.head?_cons, Option.some.injEq] at hhead
      rw [← hhead]
      exact fun h => huv' h.symm
    | cons a s' =>
      simp only [List.cons_append, List.head?_cons, Option.some.injEq] at hhead
      subst hhead
      intro h
      have hmem : v ∈ s' ++ (u :: v :: t') :=
        List.mem_append_right _ (List.mem_cons_of_mem _ (List.mem_cons_self _ _))
      rw [List.cons_append] at hnd1
      exact (List.nodup_cons.1 hnd1).1 (h ▸ hmem)
  · have hsplit : s ++ [u, v] ++ t' = (s ++ [u]) ++ (v :: t') := by simp
    rw [hsplit] at hlast hnd
    rw [List.getLast?_append_of_ne_nil _ (List.cons_ne_nil _ _)] at hlast
    have hmem : t ∈ v :: t' := List.mem_of_getLast?_eq_some hlast
    intro h
    subst h
    exact List.disjoint_of_nodup_append hnd (by simp) hmem

end GraphGo

namespace GraphGo

/-! ## The path extractor `to` -/

/-- C1: on a graph built by `newGraph`, for a target of the known-node set, `to`
returns a graph, and the edges of every graph it returns are exactly the
consecutive node pairs of the simple paths from the root to the target; when
there is a single such path, the edges are exactly those of that path. -/
theorem to_edges_eq_simple_paths (lines : List String) (g : graph)
    (hg : newGraph lines = .ok g) (target : String) (ht : target ∈ g.vertices) :
    ∃ r, g.root = some r ∧
      (∃ n, ∀ fuel, n ≤ fuel → ∃ res, g.to target fuel = some (.ok res)) ∧
      ∀ fuel res, g.to target fuel = some (.ok res) →
        (∀ u v, (u, v) ∈ res.edgeList ↔ ∃ p, simplePath g r target p ∧ (u, v) ∈ pairs p) ∧
        (∀ p, (∀ q, simplePath g r target q ↔ q = p) →
          ∀ u v, (u, v) ∈ res.edgeList ↔ (u, v) ∈ pairs p) := by
  obtain ⟨r, hr, _⟩ := newGraph_root_of_mem hg ht
  refine ⟨r, hr, to_returns hg ht, ?_⟩
  intro fuel res hres
  obtain ⟨_, _, _, hedges, _⟩ := to_spec hr hres
  refine ⟨hedges, ?_⟩
  intro p hp u v
  rw [hedges]
  constructor
  · rintro ⟨q, hq, hmem⟩
    rw [(hp q).1 hq] at hmem
    exact hmem
  · intro hmem
    exact ⟨p, (hp p).2 rfl, hmem⟩

/-- The lines `A B`, `B C` with target `C`: the hypotheses of C1 hold, and its
conclusion there. -/
theorem to_edges_eq_simple_paths_witness :
    newGraph ["A B", "B C"] = .ok chainGraph ∧ "C" ∈ chainGraph.vertices ∧
    chainGraph.to "C" 4 = some (.ok chainGraph) ∧
    chainGraph.edgeList = [("A", "B"), ("B", "C")] ∧
    ∃ r, chainGraph.root = some r ∧
      (∃ n, ∀ fuel, n ≤ fuel → ∃ res, chainGraph.to "C" fuel = some (.ok res)) ∧
      ∀ fuel res, chainGraph.to "C" fuel = some (.ok res) →
        (∀ u v, (u, v) ∈ res.edgeList ↔
          ∃ p, simplePath chainGraph r "C" p ∧ (u, v) ∈ pairs p) ∧
        (∀ p, (∀ q, simplePath chainGraph r "C" q ↔ q = p) →
          ∀ u v, (u, v) ∈ res.edgeList ↔ (u, v) ∈ pairs p) :=
  ⟨rfl, by decide, by decide, by decide,
    to_edges_eq_simple_paths ["A B", "B C"] chainGraph rfl "C" (by decide)⟩

/-- C2 as stated fails: on the graph of `crossingLines` the graph returned for
the target `T` has the directed path `A`, `B`, `A`, which visits `A` twice. -/
theorem to_result_not_acyclic :
    ¬ (∀ (lines : List String) (g : graph) (target : String) (fuel : Nat) (res : graph),
        newGraph lines = .ok g → target ∈ g.vertices →
        g.to target fuel = some (.ok res) → ∀ p, res.walk p → p.Nodup) := by
  intro h
  have hw : crossingResult.walk ["A", "B", "A"] :=
    List.chain'_cons.2 ⟨by decide, List.chain'_cons.2 ⟨by decide, List.chain'_singleton _⟩⟩
  have hnd := h crossingLines crossingGraph "T" 16 crossingResult rfl (by decide) (by decide)
    ["A", "B", "A"] hw
  revert hnd
  decide

/-- C2, amended: every edge of a graph returned by `to` is a step of a path
from the root to the target that repeats no node; so the edge is not a
self-loop, does not enter the root and does not leave the target. -/
theorem to_result_edges_on_simple_paths (lines : List String) (g : graph)
    (hg : newGraph lines = .ok g) (target : String) (ht : target ∈ g.vertices) :
    ∃ r, g.root = some r ∧
      (∃ n, ∀ fuel, n ≤ fuel → ∃ res, g.to target fuel = some (.ok res)) ∧
      ∀ fuel res, g.to target fuel = some (.ok res) →
        ∀ u v, (u, v) ∈ res.edgeList →
          (∃ p, p.Nodup ∧ simplePath g r target p ∧ (u, v) ∈ pairs p) ∧
          u ≠ v ∧ v ≠ r ∧ u ≠ target := by
  obtain ⟨r, hr, _⟩ := newGraph_root_of_mem hg ht
  refine ⟨r, hr, to_returns hg ht, ?_⟩
  intro fuel res hres u v huv
  obtain ⟨_, _, _, hedges, _⟩ := to_spec hr hres
  obtain ⟨p, hp, hmem⟩ := (hedges u v).1 huv
  exact ⟨⟨p, hp.2.2.1, hp, hmem⟩, pair_of_simplePath hp hmem⟩

/-- The crossing graph with target `T`: the hypotheses of the amended C2 hold,
and its conclusion there. -/
theorem to_result_edges_on_simple_paths_witness :
    newGraph crossingLines = .ok crossingGraph ∧ "T" ∈ crossingGraph.vertices ∧
    crossingGraph.to "T" 16 = some (.ok crossingResult) ∧
    ∃ r, crossingGraph.root = some r ∧
      (∃ n, ∀ fuel, n ≤ fuel → ∃ res, crossingGraph.to "T" fuel = some (.ok res)) ∧
      ∀ fuel res, crossingGraph.to "T" fuel = some (.ok res) →
        ∀ u v, (u, v) ∈ res.edgeList →
          (∃ p, p.Nodup ∧ simplePath crossingGraph r "T" p ∧ (u, v) ∈ pairs p) ∧
          u ≠ v ∧ v ≠ r ∧ u ≠ "T" :=
  ⟨rfl, by decide, by decide,
    to_result_edges_on_simple_paths crossingLines crossingGraph rfl "T" (by decide)⟩

/-- C3: `to` returns an error exactly when the needle is not a key of the
`vertices` map, whatever the graph; on a graph built by `newGraph` that is
exactly when the needle is a field of no line. -/
theorem to_error_iff_unknown :
    (∀ (g : graph) (t : String) (fuel : Nat),
      ((∃ e, g.to t fuel = some (.err e)) ↔ t ∉ g.vertices) ∧
      (t ∉ g.vertices → g.to t fuel = some (.err (.notExist t)))) ∧
    (∀ (lines : List String) (g : graph), newGraph lines = .ok g →
      ∀ (t : String) (fuel : Nat),
        (∃ e, g.to t fuel = some (.err e)) ↔ ∀ l ∈ lines, t ∉ Fields l) := by
  have key : ∀ (g : graph) (t : String) (fuel : Nat),
      ((∃ e, g.to t fuel = some (.err e)) ↔ t ∉ g.vertices) ∧
      (t ∉ g.vertices → g.to t fuel = some (.err (.notExist t))) := by
    intro g t fuel
    have hno : t ∉ g.vertices → g.to t fuel = some (.err (.notExist t)) := by
      intro ht
      unfold graph.to
      rw [if_neg ht]
    refine ⟨⟨?_, fun ht => ⟨_, hno ht⟩⟩, hno⟩
    rintro ⟨e, he⟩ ht
    unfold graph.to at he
    rw [if_pos ht] at he
    cases hr : g.root with
    | none => rw [hr] at he; simp at he
    | some r =>
      rw [hr] at he
      simp only at he
      cases hl : toLoop g t fuel (toInit r) with
      | none => rw [hl] at he; simp at he
      | some s => rw [hl] at he; simp at he
  refine ⟨key, ?_⟩
  intro lines g hg t fuel
  rw [(key g t fuel).1, (newGraph_spec hg).2.2.1 t]
  simp

/-- The target `Z` on the graph of `A B`, `B C`: no line mentions `Z`, and the
call returns the error. -/
theorem to_error_iff_unknown_witness :
    newGraph ["A B", "B C"] = .ok chainGraph ∧
    ((∃ e, chainGraph.to "Z" 0 = some (.err e)) ↔ ∀ l ∈ ["A B", "B C"], "Z" ∉ Fields l) ∧
    chainGraph.to "Z" 0 = some (.err (.notExist "Z")) :=
  ⟨rfl, to_error_iff_unknown.2 ["A B", "B C"] chainGraph rfl "Z" 0, by decide⟩

/-- C4: on a graph built by `newGraph`, for a target of the known-node set, the
search loop of `to` ends with an empty queue and `to` returns, for all fuel
above a bound; and every breadcrumb that passes the cycle test at the head of
the queue has pairwise distinct nodes, at most as many as the graph has. -/
theorem to_search_terminates (lines : List String) (g : graph)
    (hg : newGraph lines = .ok g) (target : String) (ht : target ∈ g.vertices) :
    ∃ r, g.root = some r ∧ g.vertices.Nodup ∧
      (∃ n, ∀ fuel, n ≤ fuel →
        (∃ s, toLoop g target fuel (toInit r) = some s ∧ s.q = []) ∧
        ∃ res, g.to target fuel = some (.ok res)) ∧
      ∀ k s c rest, toRun g target k (toInit r) = some s → s.q = c :: rest →
        c.hasCycle = false →
        (goingUp c).Nodup ∧ (goingUp c).length ≤ g.vertices.length := by
  obtain ⟨r, hr, hrmem⟩ := newGraph_root_of_mem hg ht
  obtain ⟨hnd, hv, _, _⟩ := newGraph_spec hg
  refine ⟨r, hr, hv ▸ hnd, ?_, ?_⟩
  · obtain ⟨n, hn⟩ := to_returns hg ht
    refine ⟨n, fun fuel hfuel => ?_⟩
    obtain ⟨res, hres⟩ := hn fuel hfuel
    refine ⟨?_, res, hres⟩
    obtain ⟨r', s, hr', _, hl, _⟩ := to_ok hres
    rw [hr] at hr'
    simp only [Option.some.injEq] at hr'
    subst hr'
    exact ⟨s, hl, (toLoop_spec g target fuel _ _ hl).1⟩
  · intro k s c rest hrun hq hc
    have hok := toRun_queueOK (newGraph_edge_closed hg) k _ _ (queueOK_toInit hrmem) hrun
    have hcok := hok c (by rw [hq]; exact List.mem_cons_self _ _)
    exact ⟨nodup_goingUp hc hcok.1, length_goingUp_le hcok hc⟩

/-- The two-cycle `A B`, `B A` with target `B`: the hypotheses of C4 hold, and
its conclusion there. -/
theorem to_search_terminates_witness :
    newGraph ["A B", "B A"] = .ok ⟨some "A", ["A", "B"], [⟨"A", ["B"]⟩, ⟨"B", ["A"]⟩]⟩ ∧
    ∃ r, (some "A" : Option String) = some r ∧ ["A", "B"].Nodup ∧
      (∃ n, ∀ fuel, n ≤ fuel →
        (∃ s, toLoop ⟨some "A", ["A", "B"], [⟨"A", ["B"]⟩, ⟨"B", ["A"]⟩]⟩ "B" fuel (toInit r)
            = some s ∧ s.q = []) ∧
        ∃ res, graph.to ⟨some "A", ["A", "B"], [⟨"A", ["B"]⟩, ⟨"B", ["A"]⟩]⟩ "B" fuel
            = some (.ok res)) ∧
      ∀ k s c rest,
        toRun ⟨some "A", ["A", "B"], [⟨"A", ["B"]⟩, ⟨"B", ["A"]⟩]⟩ "B" k (toInit r) = some s →
        s.q = c :: rest → c.hasCycle = false →
        (goingUp c).Nodup ∧ (goingUp c).length ≤ ["A", "B"].length :=
  ⟨rfl, to_search_terminates ["A B", "B A"]
    ⟨some "A", ["A", "B"], [⟨"A", ["B"]⟩, ⟨"B", ["A"]⟩]⟩ rfl "B" (by decide)⟩

end GraphGo

namespace GraphGo

/-! ## The graph builder `newGraph` -/

theorem length_le_utf8ByteSize_go (cs : List Char) :
    cs.length ≤ String.utf8ByteSize.go cs := by
  induction cs with
  | nil => simp [String.utf8ByteSize.go]
  | cons c cs ih =>
    have hc := Char.utf8Size_pos c
    simp only [String.utf8ByteSize.go, List.length_cons]
    omega

theorem length_le_utf8ByteSize (cs : List Char) :
    cs.length ≤ (String.mk cs).utf8ByteSize :=
  length_le_utf8ByteSize_go cs

theorem longLine_tooLong : MaxScanTokenSize ≤ longLine.utf8ByteSize := by
  unfold longLine
  refine le_trans ?_ (length_le_utf8ByteSize _)
  rw [List.length_append, List.length_replicate]
  exact Nat.le_add_right _ _

theorem fieldsLoop_letters (n : Nat) (c : Char) (cur : List Char) :
    (fieldsLoop (List.replicate n 'A' ++ [' ', 'B']) (c :: cur)).length = 2 := by
  induction n generalizing c cur with
  | zero =>
    have h1 : isSpace ' ' = true := by decide
    have h2 : isSpace 'B' = false := by decide
    simp [fieldsLoop, h1, h2]
  | succ n ih =>
    have h3 : isSpace 'A' = false := by decide
    rw [List.replicate_succ, List.cons_append]
    simp only [fieldsLoop, h3, Bool.false_eq_true, if_false]
    exact ih _ _

theorem fieldsLoop_letters_succ (n : Nat) :
    (fieldsLoop (List.replicate (n + 1) 'A' ++ [' ', 'B']) []).length = 2 := by
  have h3 : isSpace 'A' = false := by decide
  rw [List.replicate_succ, List.cons_append]
  simp only [fieldsLoop, h3, Bool.false_eq_true, if_false]
  exact fieldsLoop_letters n _ _

theorem Fields_longLine : (Fields longLine).length = 2 := by
  have hn : MaxScanTokenSize = 65535 + 1 := by decide
  unfold Fields longLine
  rw [hn]
  exact fieldsLoop_letters_succ 65535

theorem newGraph_head_tooLong (l : String) (rest : List String)
    (h : MaxScanTokenSize ≤ l.utf8ByteSize) : newGraph (l :: rest) = .error .tooLong := by
  simp [newGraph, scanLines, h, newGraphLoop]

theorem newGraph_error_cases (lines : List String) (e : error) (h : newGraph lines = .error e) :
    (e = .tooLong ∧ ∃ l ∈ lines, MaxScanTokenSize ≤ l.utf8ByteSize) ∨
      ∃ l ∈ lines, dropCR l ≠ "" ∧ (Fields l).length ≠ 2 ∧ e = .decipher (dropCR l) := by
  unfold newGraph at h
  cases hl : newGraphLoop (scanLines lines).1 [] "" with
  | error e' =>
    rw [hl] at h
    simp only [Except.error.injEq] at h
    subst h
    obtain ⟨t, ht, hne, hlen, he⟩ := newGraphLoop_error_line _ [] "" e' hl
    obtain ⟨l, hmem, rfl⟩ := scanLines_texts lines t ht
    rw [Fields_dropCR] at hlen
    exact Or.inr ⟨l, hmem, hne, hlen, he⟩
  | ok r =>
    rw [hl] at h
    cases he : (scanLines lines).2 with
    | none => rw [he] at h; cases h
    | some e' =>
      rw [he] at h
      simp only [Except.error.injEq] at h
      subst h
      exact Or.inl (scanLines_err lines e' he)

theorem newGraph_returns (lines : List String)
    (h : ∀ l ∈ lines, l.utf8ByteSize < MaxScanTokenSize ∧
      (dropCR l = "" ∨ (Fields l).length = 2)) :
    ∃ g, newGraph lines = .ok g := by
  cases hn : newGraph lines with
  | ok g => exact ⟨g, rfl⟩
  | error e =>
    rcases newGraph_error_cases lines e hn with ⟨_, l, hl, hlong⟩ | ⟨l, hl, hne, hlen, _⟩
    · exact absurd (h l hl).1 (Nat.not_lt.2 hlong)
    · rcases (h l hl).2 with h1 | h1
      · exact absurd h1 hne
      · exact absurd h1 hlen

theorem reachable_iff_lines {lines : List String} {g : graph} (hg : newGraph lines = .ok g)
    (a b : String) : reachable g a b ↔ Relation.ReflTransGen (lineEdge lines) a b := by
  obtain ⟨hnd, _, _, hedges⟩ := newGraph_spec hg
  have hstep : ∀ x y, y ∈ edgesOf g.heap x ↔ lineEdge lines x y := by
    intro x y
    rw [mem_edgesOf hnd, hedges]
    rfl
  unfold reachable
  constructor
  · intro h
    exact Relation.ReflTransGen.mono (fun x y hxy => (hstep x y).1 hxy) h
  · intro h
    exact Relation.ReflTransGen.mono (fun x y hxy => (hstep x y).2 hxy) h

/-- The edges the graph returned by `newGraph` holds: those of the lines whose
first field is reached from the root along lines. -/
theorem newGraph_holdsEdge {lines : List String} {g : graph} (hg : newGraph lines = .ok g)
    (u v : String) :
    g.holdsEdge u v ↔
      (∃ r, g.root = some r ∧ Relation.ReflTransGen (lineEdge lines) r u) ∧
        lineEdge lines u v := by
  obtain ⟨hnd, _, _, hedges⟩ := newGraph_spec hg
  unfold graph.holdsEdge
  constructor
  · rintro ⟨r, hr, hreach, hv⟩
    refine ⟨⟨r, hr, (reachable_iff_lines hg r u).1 hreach⟩, ?_⟩
    exact (hedges u v).1 ((mem_edgesOf hnd u v).1 hv)
  · rintro ⟨⟨r, hr, hreach⟩, hline⟩
    exact ⟨r, hr, (reachable_iff_lines hg r u).2 hreach,
      (mem_edgesOf hnd u v).2 ((hedges u v).2 hline)⟩

theorem newGraph_nodup_edges {lines : List String} {g : graph} (hg : newGraph lines = .ok g)
    (u : String) : (edgesOf g.heap u).Nodup := by
  obtain ⟨vm, root, hl, rfl⟩ := newGraph_ok hg
  exact nodup_edgesOf (newGraphLoop_nodup_edges _ _ _ _ _ hl (by simp)) u

/-- Vertices reached from a member of a set of names that is closed under the
recorded edges are in the set. -/
theorem reachable_closed {g : graph} {S : List String}
    (hS : ∀ a ∈ S, ∀ b ∈ edgesOf g.heap a, b ∈ S) {a b : String} (ha : a ∈ S)
    (h : reachable g a b) : b ∈ S := by
  induction h with
  | refl => exact ha
  | tail _ hstep ih => exact hS _ ih _ hstep

/-- C5 as stated fails: the one line `longLine` has two fields, so no line is
malformed, and `newGraph` returns the error `ErrTooLong` of its scanner,
although the reader did not fail. -/
theorem newGraph_error_not_only_malformed :
    ¬ (∀ lines : List String,
        (∃ e, newGraph lines = .error e) ↔ ∃ l ∈ lines, l ≠ "" ∧ (Fields l).length ≠ 2) := by
  intro h
  obtain ⟨l, hl, _, hlen⟩ := (h [longLine]).1 ⟨_, newGraph_head_tooLong _ _ longLine_tooLong⟩
  rw [List.mem_singleton] at hl
  subst hl
  exact hlen Fields_longLine

/-- C5, amended: `newGraph` returns an error and no graph exactly when some
line has `MaxScanTokenSize` bytes or more, or has a text (the line without a
final carriage return) that is not empty and does not have exactly two fields.
The error is `ErrTooLong` of the scanner, or carries the text of a line of
the second kind.  Otherwise the lines of empty text are skipped and the graph
of all lines is returned: its keys are the fields of the lines, and it holds
the edge of every line whose first field the root reaches. -/
theorem newGraph_error_iff_long_or_malformed (lines : List String) :
    ((∃ e, newGraph lines = .error e) ↔
      ∃ l ∈ lines, MaxScanTokenSize ≤ l.utf8ByteSize ∨
        (dropCR l ≠ "" ∧ (Fields l).length ≠ 2)) ∧
    (∀ e, newGraph lines = .error e →
      (e = .tooLong ∧ ∃ l ∈ lines, MaxScanTokenSize ≤ l.utf8ByteSize) ∨
        ∃ l ∈ lines, dropCR l ≠ "" ∧ (Fields l).length ≠ 2 ∧ e = .decipher (dropCR l)) ∧
    ((∀ l ∈ lines, l.utf8ByteSize < MaxScanTokenSize ∧
        (dropCR l = "" ∨ (Fields l).length = 2)) →
      ∃ g, newGraph lines = .ok g ∧
        (∀ m, m ∈ g.vertices ↔ ∃ l ∈ lines, m ∈ Fields l) ∧
        (∀ u v, g.holdsEdge u v ↔
          (∃ r, g.root = some r ∧ Relation.ReflTransGen (lineEdge lines) r u) ∧
            lineEdge lines u v)) := by
  refine ⟨⟨?_, ?_⟩, newGraph_error_cases lines, ?_⟩
  · rintro ⟨e, he⟩
    rcases newGraph_error_cases lines e he with ⟨_, l, hl, hlong⟩ | ⟨l, hl, hne, hlen, _⟩
    · exact ⟨l, hl, Or.inl hlong⟩
    · exact ⟨l, hl, Or.inr ⟨hne, hlen⟩⟩
  · rintro ⟨l, hl, hbad⟩
    cases hn : newGraph lines with
    | error e => exact ⟨e, rfl⟩
    | ok g =>
      rcases hbad with hlong | ⟨hne, hlen⟩
      · exact absurd (newGraph_short hn l hl) (Nat.not_lt.2 hlong)
      · rcases newGraph_lines_ok hn l hl with h1 | h1
        · exact absurd h1 hne
        · exact absurd h1 hlen
  · intro hall
    obtain ⟨g, hg⟩ := newGraph_returns lines hall
    exact ⟨g, hg, (newGraph_spec hg).2.2.1, newGraph_holdsEdge hg⟩

/-- The line `A B C` after a good line and a line that holds a carriage return
alone: the build fails, with that line as the error. -/
theorem newGraph_error_iff_long_or_malformed_witness :
    newGraph ["A B", "\r", "A B C"] = .error (.decipher "A B C") ∧
    ∃ e, newGraph ["A B", "\r", "A B C"] = .error e :=
  ⟨rfl, (newGraph_error_iff_long_or_malformed ["A B", "\r", "A B C"]).1.2
    ⟨"A B C", by decide, Or.inr ⟨by decide, by decide⟩⟩⟩

/-- C6 as stated fails: for the lines `B C`, `A B` the second line is `A B`,
and the graph that `newGraph` returns does not hold an edge from `A` to `B`,
because its root `B` does not reach the vertex `A`. -/
theorem newGraph_line_edge_not_held :
    ¬ (∀ (lines : List String) (g : graph), newGraph lines = .ok g →
        ∀ u v, g.holdsEdge u v ↔ ∃ l ∈ lines, Fields l = [u, v]) := by
  intro h
  have hline : ∃ l ∈ unorderedLines, Fields l = ["A", "B"] := ⟨"A B", by decide, by decide⟩
  obtain ⟨r, hr, hreach, _⟩ := (h unorderedLines unorderedGraph rfl "A" "B").2 hline
  have hrB : r = "B" := by
    have : some "B" = some r := hr
    simp only [Option.some.injEq] at this
    exact this.symm
  subst hrB
  have hmem : "A" ∈ ["B", "C"] :=
    reachable_closed (g := unorderedGraph) (S := ["B", "C"]) (by decide) (by decide) hreach
  revert hmem
  decide

/-- C6, amended: in the graph built by `newGraph` each name is a key once, and
the keys are the fields of the lines; the graph holds an edge from `u` to `v`
exactly when the root reaches `u` along lines and some line has the fields `u`,
`v`; and no vertex records the same edge twice. -/
theorem newGraph_holds_reached_lines (lines : List String) (g : graph)
    (hg : newGraph lines = .ok g) :
    g.vertices.Nodup ∧
    (∀ m, m ∈ g.vertices ↔ ∃ l ∈ lines, m ∈ Fields l) ∧
    (∀ u v, g.holdsEdge u v ↔
      (∃ r, g.root = some r ∧ Relation.ReflTransGen (lineEdge lines) r u) ∧
        lineEdge lines u v) ∧
    (∀ r u, g.root = some r → reachable g r u → (edgesOf g.heap u).Nodup) := by
  obtain ⟨hnd, hv, hnames, _⟩ := newGraph_spec hg
  exact ⟨hv ▸ hnd, hnames, newGraph_holdsEdge hg, fun _ u _ _ => newGraph_nodup_edges hg u⟩

/-- The line `A B` twice, then `A C`, then `D A`: the keys are `A`, `B`, `C`,
`D`, and the graph holds the edges of `A` to `B` and to `C`, each once, and
not the edge of `D`. -/
theorem newGraph_holds_reached_lines_witness :
    newGraph ["A B", "A B", "A C", "D A"]
      = .ok ⟨some "A", ["A", "B", "C", "D"],
          [⟨"A", ["B", "C"]⟩, ⟨"B", []⟩, ⟨"C", []⟩, ⟨"D", ["A"]⟩]⟩ ∧
    ∀ u v, graph.holdsEdge ⟨some "A", ["A", "B", "C", "D"],
          [⟨"A", ["B", "C"]⟩, ⟨"B", []⟩, ⟨"C", []⟩, ⟨"D", ["A"]⟩]⟩ u v ↔
      (∃ r, (some "A" : Option String) = some r ∧
        Relation.ReflTransGen (lineEdge ["A B", "A B", "A C", "D A"]) r u) ∧
        lineEdge ["A B", "A B", "A C", "D A"] u v :=
  ⟨rfl, (newGraph_holds_reached_lines ["A B", "A B", "A C", "D A"]
    ⟨some "A", ["A", "B", "C", "D"],
      [⟨"A", ["B", "C"]⟩, ⟨"B", []⟩, ⟨"C", []⟩, ⟨"D", ["A"]⟩]⟩ rfl).2.2.1⟩

/-- C7: the root of the graph built by `newGraph` is the vertex named by the
first field of the first line whose text is not empty, whatever edges the later
lines give that vertex. -/
theorem newGraph_root_first_from (lines : List String) (g : graph)
    (hg : newGraph lines = .ok g) (l : String)
    (hl : lines.find? (fun t => decide (dropCR t ≠ "")) = some l) :
    ∃ a b, Fields l = [a, b] ∧ g.root = some a ∧ a ∈ g.vertices := by
  have hmem : l ∈ lines := List.mem_of_find?_eq_some hl
  have hne : dropCR l ≠ "" := by simpa using List.find?_some hl
  rcases newGraph_lines_ok hg l hmem with h | h
  · exact absurd h hne
  · obtain ⟨a, b, hab⟩ := (length_two_iff _).1 h
    obtain ⟨hroot, r, hr, hrmem⟩ := newGraph_root hg hl
    rw [hab] at hroot
    simp only [List.head?_cons] at hroot
    rw [hroot] at hr
    simp only [Option.some.injEq] at hr
    subst hr
    exact ⟨a, b, hab, hroot, hrmem⟩

/-- An empty line, then `A B`, then `B A`: the root is `A`, although the last
line gives `A` an incoming edge. -/
theorem newGraph_root_first_from_witness :
    newGraph ["", "A B", "B A"] = .ok ⟨some "A", ["A", "B"], [⟨"A", ["B"]⟩, ⟨"B", ["A"]⟩]⟩ ∧
    ∃ a b, Fields "A B" = [a, b] ∧ (some "A" : Option String) = some a ∧ a ∈ ["A", "B"] :=
  ⟨rfl, newGraph_root_first_from ["", "A B", "B A"]
    ⟨some "A", ["A", "B"], [⟨"A", ["B"]⟩, ⟨"B", ["A"]⟩]⟩ rfl "A B" (by decide)⟩

/-- C8: in every graph returned by `newGraph` and in every graph returned by
`to`, the root, if set, is a key of the `vertices` map. -/
theorem root_mem_vertices :
    (∀ (lines : List String) (g : graph) (r : String),
      newGraph lines = .ok g → g.root = some r → r ∈ g.vertices) ∧
    (∀ (g : graph) (target : String) (fuel : Nat) (res : graph) (r : String),
      g.to target fuel = some (.ok res) → res.root = some r → r ∈ res.vertices) := by
  constructor
  · intro lines g r hg hr
    obtain ⟨vm, root, _, rfl⟩ := newGraph_ok hg
    simp only [Option.map_eq_some'] at hr
    obtain ⟨x, hx, rfl⟩ := hr
    exact List.mem_map.2 ⟨x, (lookup_some hx).1, rfl⟩
  · intro g target fuel res r hres hr
    obtain ⟨r', s, hr', _, _, _⟩ := to_ok hres
    obtain ⟨hroot, _, _, _, hnames⟩ := to_spec hr' hres
    rw [hroot] at hr
    simp only [Option.some.injEq] at hr
    subst hr
    exact (hnames _).2 (Or.inl rfl)

/-- The graph of `A B`, `B C` and the graph `to` returns on it for `C`: the
root `A` is a key of both. -/
theorem root_mem_vertices_witness :
    (newGraph ["A B", "B C"] = .ok chainGraph ∧ chainGraph.root = some "A" ∧
      "A" ∈ chainGraph.vertices) ∧
    (chainGraph.to "C" 4 = some (.ok chainGraph) ∧ "A" ∈ chainGraph.vertices) :=
  ⟨⟨rfl, rfl, root_mem_vertices.1 ["A B", "B C"] chainGraph "A" rfl rfl⟩,
    ⟨by decide, root_mem_vertices.2 chainGraph "C" 4 chainGraph "A" (by decide) rfl⟩⟩

end GraphGo

namespace MainGo

/-! ## The map `mvsPicked` -/

theorem mapGet_eq_none {table : List (String × String)} {m : String} :
    mapGet table m = none ↔ m ∉ keys table := by
  unfold mapGet keys
  simp only [Option.map_eq_none', List.find?_eq_none, decide_eq_true_eq, List.mem_map,
    not_exists, not_and]

theorem mapGet_some {table : List (String × String)} {m w : String}
    (h : mapGet table m = some w) : (m, w) ∈ table := by
  unfold mapGet at h
  simp only [Option.map_eq_some'] at h
  obtain ⟨p, hp, rfl⟩ := h
  have h1 := List.mem_of_find?_eq_some hp
  have h2 : p.1 = m := by simpa using List.find?_some hp
  rw [← h2]
  exact h1

theorem eq_of_mem_of_nodup {table : List (String × String)} (hnd : (keys table).Nodup)
    {m w w' : String} (h : (m, w) ∈ table) (h' : (m, w') ∈ table) : w = w' := by
  induction table with
  | nil => cases h
  | cons p t ih =>
    unfold keys at hnd
    simp only [List.map_cons, List.nodup_cons, List.mem_map, not_exists, not_and] at hnd
    rcases List.mem_cons.1 h with h1 | h1
    · rcases List.mem_cons.1 h' with h2 | h2
      · rw [← h1] at h2
        exact (Prod.mk.inj h2).2.symm
      · exact absurd (by rw [← h1]) (hnd.1 _ h2)
    · rcases List.mem_cons.1 h' with h2 | h2
      · exact absurd (by rw [← h2]) (hnd.1 _ h1)
      · exact ih hnd.2 h1 h2

theorem mem_mapSet {table : List (String × String)} {m v : String} (p : String × String) :
    p ∈ mapSet table m v ↔ p = (m, v) ∧ (m ∈ keys table ∨ mapGet table m = none) ∨
      (p ∈ table ∧ p.1 ≠ m) := by
  unfold mapSet
  cases hget : mapGet table m with
  | none =>
    have hm := mapGet_eq_none.1 hget
    simp only [List.mem_append, List.mem_singleton, or_true, and_true]
    constructor
    · rintro (h | h)
      · refine Or.inr ⟨h, ?_⟩
        intro hp
        exact hm (List.mem_map.2 ⟨p, h, hp⟩)
      · exact Or.inl h
    · rintro (h | ⟨h, _⟩)
      · exact Or.inr h
      · exact Or.inl h
  | some w =>
    have hmem := mapGet_some hget
    have hkey : m ∈ keys table := List.mem_map.2 ⟨(m, w), hmem, rfl⟩
    simp only [List.mem_map, hkey, true_or, and_true, reduceCtorEq, or_false]
    constructor
    · rintro ⟨q, hq, rfl⟩
      by_cases hqm : q.1 = m
      · rw [if_pos hqm]; exact Or.inl rfl
      · rw [if_neg hqm]; exact Or.inr ⟨hq, hqm⟩
    · rintro (rfl | ⟨hp, hpm⟩)
      · exact ⟨(m, w), hmem, by simp⟩
      · exact ⟨p, hp, by rw [if_neg hpm]⟩

theorem keys_mapSet_nodup {table : List (String × String)} (hnd : (keys table).Nodup)
    (m v : String) : (keys (mapSet table m v)).Nodup := by
  unfold mapSet
  cases hget : mapGet table m with
  | none =>
    have hm := mapGet_eq_none.1 hget
    simp only [keys, List.map_append, List.map_cons, List.map_nil]
    refine List.Nodup.append hnd (List.nodup_singleton _) ?_
    intro a ha hb
    rw [List.mem_singleton] at hb
    subst hb
    exact hm ha
  | some w =>
    have : keys (table.map (fun p => if p.1 = m then (m, v) else p)) = keys table := by
      unfold keys
      rw [List.map_map]
      apply List.map_congr_left
      intro p _
      simp only [Function.comp]
      split
      · rename_i h; exact h.symm
      · rfl
    simp only
    rw [this]
    exact hnd

/-! ## Splitting a node at `@` -/

theorem splitLoop_some {cs a b : List Char} (h : splitLoop cs = some (a, b)) :
    '@' ∉ a ∧ cs = a ++ '@' :: b := by
  induction cs generalizing a b with
  | nil => simp [splitLoop] at h
  | cons c cs ih =>
    by_cases hc : c = '@'
    · simp only [splitLoop, hc, if_true, Option.some.injEq, Prod.mk.injEq] at h
      obtain ⟨rfl, rfl⟩ := h
      simp [hc]
    · simp only [splitLoop, hc, if_false, Option.map_eq_some'] at h
      obtain ⟨⟨a', b'⟩, hp, heq⟩ := h
      simp only [Prod.mk.injEq] at heq
      obtain ⟨rfl, rfl⟩ := heq
      obtain ⟨h1, h2⟩ := ih hp
      refine ⟨?_, by rw [h2]; rfl⟩
      simp only [List.mem_cons, not_or]
      exact ⟨fun h => hc h.symm, h1⟩

theorem splitLoop_append {a : List Char} (ha : '@' ∉ a) (b : List Char) :
    splitLoop (a ++ '@' :: b) = some (a, b) := by
  induction a with
  | nil => simp [splitLoop]
  | cons c a ih =>
    simp only [List.mem_cons, not_or] at ha
    have hc : c ≠ '@' := fun h => ha.1 h.symm
    simp [splitLoop, hc, ih ha.2]

theorem moduleVersion_some {node m v : String} (h : moduleVersion node = some (m, v)) :
    '@' ∉ m.data ∧ node = entry (m, v) := by
  unfold moduleVersion at h
  simp only [Option.map_eq_some'] at h
  obtain ⟨⟨a, b⟩, hp, heq⟩ := h
  simp only [Prod.mk.injEq] at heq
  obtain ⟨rfl, rfl⟩ := heq
  obtain ⟨h1, h2⟩ := splitLoop_some hp
  refine ⟨h1, ?_⟩
  apply String.ext
  simp only [entry, String.data_append, h2]
  simp

theorem moduleVersion_entry {m : String} (hm : '@' ∉ m.data) (v : String) :
    moduleVersion (entry (m, v)) = some (m, v) := by
  unfold moduleVersion entry
  have : (m ++ "@" ++ v).data = m.data ++ '@' :: v.data := by
    simp only [String.data_append]
    simp
  rw [this, splitLoop_append hm]
  rfl

theorem moduleVersion_entry_of_some {node : String} {p : String × String}
    (h : moduleVersion node = some p) : moduleVersion (entry p) = some p := by
  obtain ⟨m, v⟩ := p
  exact moduleVersion_entry (moduleVersion_some h).1 v

end MainGo

namespace MainGo

/-! ## One node of `convert` -/

theorem mem_mapSet_iff {table : List (String × String)} {m v : String}
    (p : String × String) :
    p ∈ mapSet table m v ↔ p = (m, v) ∨ (p ∈ table ∧ p.1 ≠ m) := by
  rw [mem_mapSet]
  have : m ∈ keys table ∨ mapGet table m = none := by
    by_cases h : m ∈ keys table
    · exact Or.inl h
    · exact Or.inr (mapGet_eq_none.2 h)
  simp only [this, and_true]

theorem mem_keys_mapSet {table : List (String × String)} {m v : String} (k : String) :
    k ∈ keys (mapSet table m v) ↔ k ∈ keys table ∨ k = m := by
  unfold keys
  simp only [List.mem_map, mem_mapSet_iff]
  constructor
  · rintro ⟨p, rfl | ⟨hp, _⟩, rfl⟩
    · exact Or.inr rfl
    · exact Or.inl ⟨p, hp, rfl⟩
  · rintro (⟨p, hp, rfl⟩ | rfl)
    · by_cases h : p.1 = m
      · exact ⟨(m, v), Or.inl rfl, h.symm⟩
      · exact ⟨p, Or.inr ⟨hp, h⟩, rfl⟩
    · exact ⟨(k, v), Or.inl rfl, rfl⟩

/-- What `visit` does to `seen` and to the map, case by case. -/
theorem visit_cases (Compare : String → String → Int) (s : convertState) (node : String) :
    (node ∈ s.seen ∧ visit Compare s node = s) ∨
    (node ∉ s.seen ∧ (visit Compare s node).seen = s.seen ++ [node] ∧
      ((moduleVersion node = none ∧ (visit Compare s node).mvsPicked = s.mvsPicked) ∨
       (∃ m v maxV, moduleVersion node = some (m, v) ∧ mapGet s.mvsPicked m = some maxV ∧
          Compare maxV v < 0 ∧ (visit Compare s node).mvsPicked = mapSet s.mvsPicked m v) ∨
       (∃ m v maxV, moduleVersion node = some (m, v) ∧ mapGet s.mvsPicked m = some maxV ∧
          ¬ Compare maxV v < 0 ∧ (visit Compare s node).mvsPicked = s.mvsPicked) ∨
       (∃ m v, moduleVersion node = some (m, v) ∧ mapGet s.mvsPicked m = none ∧
          (visit Compare s node).mvsPicked = mapSet s.mvsPicked m v))) := by
  unfold visit
  by_cases hseen : node ∈ s.seen
  · exact Or.inl ⟨hseen, by rw [if_pos hseen]⟩
  · right
    rw [if_neg hseen]
    refine ⟨hseen, ?_⟩
    cases hmv : moduleVersion node with
    | none => exact ⟨rfl, Or.inl ⟨rfl, rfl⟩⟩
    | some p =>
      obtain ⟨m, v⟩ := p
      simp only
      cases hget : mapGet s.mvsPicked m with
      | none => exact ⟨rfl, Or.inr (Or.inr (Or.inr ⟨m, v, rfl, hget, rfl⟩))⟩
      | some maxV =>
        simp only
        by_cases hc : Compare maxV v < 0
        · rw [if_pos hc]
          exact ⟨rfl, Or.inr (Or.inl ⟨m, v, maxV, rfl, hget, hc, rfl⟩)⟩
        · rw [if_neg hc]
          exact ⟨rfl, Or.inr (Or.inr (Or.inl ⟨m, v, maxV, rfl, hget, hc, rfl⟩))⟩

theorem visit_seen (Compare : String → String → Int) (s : convertState) (node n : String) :
    n ∈ (visit Compare s node).seen ↔ n ∈ s.seen ∨ n = node := by
  rcases visit_cases Compare s node with ⟨h, heq⟩ | ⟨_, hseen, _⟩
  · rw [heq]
    constructor
    · exact Or.inl
    · rintro (h' | rfl)
      · exact h'
      · exact h
  · rw [hseen, List.mem_append, List.mem_singleton]

theorem visit_tableOK (Compare : String → String → Int) (s : convertState) (node : String)
    (hok : tableOK s.seen s.mvsPicked) :
    tableOK (visit Compare s node).seen (visit Compare s node).mvsPicked := by
  obtain ⟨ha, hb, hc⟩ := hok
  have hb' : ∀ p ∈ s.mvsPicked, ∃ n ∈ s.seen ++ [node], moduleVersion n = some p := by
    intro p hp
    obtain ⟨n, hn, hmv⟩ := hb p hp
    exact ⟨n, List.mem_append_left _ hn, hmv⟩
  rcases visit_cases Compare s node with ⟨_, heq⟩ | ⟨_, hseen, hcase⟩
  · rw [heq]; exact ⟨ha, hb, hc⟩
  · rw [hseen]
    rcases hcase with ⟨hmv, htab⟩ | ⟨m, v, maxV, hmv, hget, _, htab⟩ |
        ⟨m, v, maxV, hmv, hget, _, htab⟩ | ⟨m, v, hmv, hget, htab⟩
    · rw [htab]
      refine ⟨ha, hb', ?_⟩
      intro n hn m v hnmv
      rcases List.mem_append.1 hn with hn | hn
      · exact hc n hn m v hnmv
      · rw [List.mem_singleton] at hn
        subst hn
        rw [hmv] at hnmv
        cases hnmv
    · rw [htab]
      refine ⟨keys_mapSet_nodup ha _ _, ?_, ?_⟩
      · intro p hp
        rcases (mem_mapSet_iff p).1 hp with rfl | ⟨hp, _⟩
        · exact ⟨node, List.mem_append_right _ (List.mem_singleton.2 rfl), hmv⟩
        · exact hb' p hp
      · intro n hn m' v' hnmv
        rw [mem_keys_mapSet]
        rcases List.mem_append.1 hn with hn | hn
        · exact Or.inl (hc n hn m' v' hnmv)
        · rw [List.mem_singleton] at hn
          subst hn
          rw [hmv] at hnmv
          simp only [Option.some.injEq, Prod.mk.injEq] at hnmv
          exact Or.inr hnmv.1.symm
    · rw [htab]
      refine ⟨ha, hb', ?_⟩
      intro n hn m' v' hnmv
      rcases List.mem_append.1 hn with hn | hn
      · exact hc n hn m' v' hnmv
      · rw [List.mem_singleton] at hn
        subst hn
        rw [hmv] at hnmv
        simp only [Option.some.injEq, Prod.mk.injEq] at hnmv
        rw [← hnmv.1]
        exact List.mem_map.2 ⟨(m, maxV), mapGet_some hget, rfl⟩
    · rw [htab]
      refine ⟨keys_mapSet_nodup ha _ _, ?_, ?_⟩
      · intro p hp
        rcases (mem_mapSet_iff p).1 hp with rfl | ⟨hp, _⟩
        · exact ⟨node, List.mem_append_right _ (List.mem_singleton.2 rfl), hmv⟩
        · exact hb' p hp
      · intro n hn m' v' hnmv
        rw [mem_keys_mapSet]
        rcases List.mem_append.1 hn with hn | hn
        · exact Or.inl (hc n hn m' v' hnmv)
        · rw [List.mem_singleton] at hn
          subst hn
          rw [hmv] at hnmv
          simp only [Option.some.injEq, Prod.mk.injEq] at hnmv
          exact Or.inr hnmv.1.symm

theorem visit_tableMax (Compare : String → String → Int)
    (hrefl : ∀ a, 0 ≤ Compare a a)
    (htrans : ∀ a b c, Compare a b < 0 → 0 ≤ Compare a c → 0 ≤ Compare b c)
    (s : convertState) (node : String)
    (hok : tableOK s.seen s.mvsPicked) (hmax : tableMax Compare s.seen s.mvsPicked) :
    tableMax Compare (visit Compare s node).seen (visit Compare s node).mvsPicked := by
  obtain ⟨ha, _, hc⟩ := hok
  rcases visit_cases Compare s node with ⟨_, heq⟩ | ⟨_, hseen, hcase⟩
  · rw [heq]; exact hmax
  · rw [hseen]
    rcases hcase with ⟨hmv, htab⟩ | ⟨m, v, maxV, hmv, hget, hlt, htab⟩ |
        ⟨m, v, maxV, hmv, hget, hge, htab⟩ | ⟨m, v, hmv, hget, htab⟩
    · rw [htab]
      intro n hn m' v' hnmv w hw
      rcases List.mem_append.1 hn with hn | hn
      · exact hmax n hn m' v' hnmv w hw
      · rw [List.mem_singleton] at hn
        subst hn
        rw [hmv] at hnmv
        cases hnmv
    · rw [htab]
      intro n hn m' v' hnmv w hw
      rcases (mem_mapSet_iff _).1 hw with heq | ⟨hw', hne⟩
      · simp only [Prod.mk.injEq] at heq
        obtain ⟨rfl, rfl⟩ := heq
        rcases List.mem_append.1 hn with hn | hn
        · exact htrans maxV w v' hlt (hmax n hn m' v' hnmv maxV (mapGet_some hget))
        · rw [List.mem_singleton] at hn
          subst hn
          rw [hmv] at hnmv
          simp only [Option.some.injEq, Prod.mk.injEq] at hnmv
          rw [← hnmv.2]
          exact hrefl w
      · rcases List.mem_append.1 hn with hn | hn
        · exact hmax n hn m' v' hnmv w hw'
        · rw [List.mem_singleton] at hn
          subst hn
          rw [hmv] at hnmv
          simp only [Option.some.injEq, Prod.mk.injEq] at hnmv
          exact absurd hnmv.1.symm hne
    · rw [htab]
      intro n hn m' v' hnmv w hw
      rcases List.mem_append.1 hn with hn | hn
      · exact hmax n hn m' v' hnmv w hw
      · rw [List.mem_singleton] at hn
        subst hn
        rw [hmv] at hnmv
        simp only [Option.some.injEq, Prod.mk.injEq] at hnmv
        obtain ⟨rfl, rfl⟩ := hnmv
        rw [eq_of_mem_of_nodup ha hw (mapGet_some hget)]
        exact Int.not_lt.1 hge
    · rw [htab]
      intro n hn m' v' hnmv w hw
      rcases (mem_mapSet_iff _).1 hw with heq | ⟨hw', hne⟩
      · simp only [Prod.mk.injEq] at heq
        obtain ⟨rfl, rfl⟩ := heq
        rcases List.mem_append.1 hn with hn | hn
        · exact absurd (hc n hn m' v' hnmv) (mapGet_eq_none.1 hget)
        · rw [List.mem_singleton] at hn
          subst hn
          rw [hmv] at hnmv
          simp only [Option.some.injEq, Prod.mk.injEq] at hnmv
          rw [← hnmv.2]
          exact hrefl w
      · rcases List.mem_append.1 hn with hn | hn
        · exact hmax n hn m' v' hnmv w hw'
        · rw [List.mem_singleton] at hn
          subst hn
          rw [hmv] at hnmv
          simp only [Option.some.injEq, Prod.mk.injEq] at hnmv
          exact absurd hnmv.1.symm hne

end MainGo

namespace MainGo

/-! ## The loop of `convert` -/

theorem convertLoop_cons_empty (Compare : String → String → Int) (rest : List String)
    (s : convertState) :
    convertLoop Compare ("" :: rest) s = convertLoop Compare rest s := by
  simp [convertLoop]

theorem convertLoop_cons_pair (Compare : String → String → Int) {l : String} (hl : l ≠ "")
    {a b : String} (hf : GraphGo.Fields l = [a, b]) (rest : List String) (s : convertState) :
    convertLoop Compare (l :: rest) s =
      convertLoop Compare rest
        (visit Compare (visit Compare
          { s with g := { s.g with edges := s.g.edges ++ [⟨Replace a, Replace b⟩] } }
          (Replace a)) (Replace b)) := by
  simp [convertLoop, hl, hf]

theorem convertLoop_cons_bad (Compare : String → String → Int) {l : String} (hl : l ≠ "")
    (hf : (GraphGo.Fields l).length ≠ 2) (rest : List String) (s : convertState) :
    convertLoop Compare (l :: rest) s = .error (.words (GraphGo.Fields l).length l) := by
  simp only [convertLoop, hl, if_false]
  split
  · rename_i h; rw [h] at hf; simp at hf
  · rfl

theorem convertLoop_spec (Compare : String → String → Int) (lines : List String) :
    ∀ (s s' : convertState), convertLoop Compare lines s = .ok s' →
      tableOK s.seen s.mvsPicked →
      tableOK s'.seen s'.mvsPicked ∧
      (∀ n, n ∈ s'.seen ↔
        n ∈ s.seen ∨ ∃ l ∈ lines, ∃ t ∈ GraphGo.Fields l, n = Replace t) := by
  induction lines with
  | nil =>
    intro s s' h hok
    simp only [convertLoop, Except.ok.injEq] at h
    subst h
    exact ⟨hok, by simp⟩
  | cons l rest ih =>
    intro s s' h hok
    by_cases hl : l = ""
    · subst hl
      rw [convertLoop_cons_empty] at h
      obtain ⟨h1, h2⟩ := ih _ _ h hok
      refine ⟨h1, ?_⟩
      intro n
      rw [h2]
      simp [GraphGo.Fields_empty]
    · by_cases hf : (GraphGo.Fields l).length = 2
      · obtain ⟨a, b, hab⟩ := (GraphGo.length_two_iff _).1 hf
        rw [convertLoop_cons_pair Compare hl hab] at h
        obtain ⟨h1, h2⟩ := ih _ _ h
          (visit_tableOK Compare _ _ (visit_tableOK Compare _ _ hok))
        refine ⟨h1, ?_⟩
        intro n
        rw [h2, visit_seen, visit_seen]
        constructor
        · rintro (((h | h) | h) | ⟨l', hl', t, ht, h⟩)
          · exact Or.inl h
          · exact Or.inr ⟨l, List.mem_cons_self _ _, a, by rw [hab]; simp, h⟩
          · exact Or.inr ⟨l, List.mem_cons_self _ _, b, by rw [hab]; simp, h⟩
          · exact Or.inr ⟨l', List.mem_cons_of_mem _ hl', t, ht, h⟩
        · rintro (hn | ⟨l', hl', t, ht, hn⟩)
          · exact Or.inl (Or.inl (Or.inl hn))
          · rcases List.mem_cons.1 hl' with rfl | hl'
            · rw [hab] at ht
              simp only [List.mem_cons, List.mem_singleton, List.not_mem_nil, or_false] at ht
              rcases ht with rfl | rfl
              · exact Or.inl (Or.inl (Or.inr hn))
              · exact Or.inl (Or.inr hn)
            · exact Or.inr ⟨l', hl', t, ht, hn⟩
      · rw [convertLoop_cons_bad Compare hl hf] at h
        cases h

theorem convertLoop_max (Compare : String → String → Int)
    (hrefl : ∀ a, 0 ≤ Compare a a)
    (htrans : ∀ a b c, Compare a b < 0 → 0 ≤ Compare a c → 0 ≤ Compare b c)
    (lines : List String) :
    ∀ (s s' : convertState), convertLoop Compare lines s = .ok s' →
      tableOK s.seen s.mvsPicked → tableMax Compare s.seen s.mvsPicked →
      tableMax Compare s'.seen s'.mvsPicked := by
  induction lines with
  | nil =>
    intro s s' h _ hmax
    simp only [convertLoop, Except.ok.injEq] at h
    subst h
    exact hmax
  | cons l rest ih =>
    intro s s' h hok hmax
    by_cases hl : l = ""
    · subst hl
      rw [convertLoop_cons_empty] at h
      exact ih _ _ h hok hmax
    · by_cases hf : (GraphGo.Fields l).length = 2
      · obtain ⟨a, b, hab⟩ := (GraphGo.length_two_iff _).1 hf
        rw [convertLoop_cons_pair Compare hl hab] at h
        have hok1 := visit_tableOK Compare
          { s with g := { s.g with edges := s.g.edges ++ [⟨Replace a, Replace b⟩] } }
          (Replace a) hok
        have hmax1 := visit_tableMax Compare hrefl htrans
          { s with g := { s.g with edges := s.g.edges ++ [⟨Replace a, Replace b⟩] } }
          (Replace a) hok hmax
        exact ih _ _ h (visit_tableOK Compare _ _ hok1)
          (visit_tableMax Compare hrefl htrans _ _ hok1 hmax1)
      · rw [convertLoop_cons_bad Compare hl hf] at h
        cases h

theorem convert_ok {Compare : String → String → Int} {lines : List String} {g : graph}
    (h : convert Compare lines = .ok g) :
    ∃ s, convertLoop Compare lines
        { g := { edges := [], mvsPicked := [], mvsUnpicked := [] }, seen := [],
          mvsPicked := [] } = .ok s ∧
      g.mvsPicked = sortStrings (s.mvsPicked.map entry) := by
  unfold convert at h
  split at h
  · cases h
  · rename_i s hs
    simp only [Except.ok.injEq] at h
    exact ⟨s, hs, by rw [← h]; rfl⟩

/-- The selected list holds the entries of the final map; the final map has
no repeated key, each entry splits back into its module and version, and the
modules are those of the versioned nodes of the input. -/
theorem convert_table {Compare : String → String → Int} {lines : List String} {g : graph}
    (h : convert Compare lines = .ok g) :
    ∃ table : List (String × String),
      g.mvsPicked.Perm (table.map entry) ∧ (keys table).Nodup ∧
      (∀ p ∈ table, moduleVersion (entry p) = some p ∧ versioned lines p.1 p.2) ∧
      (∀ m v, versioned lines m v → m ∈ keys table) ∧
      ((∀ a, 0 ≤ Compare a a) →
        (∀ a b c, Compare a b < 0 → 0 ≤ Compare a c → 0 ≤ Compare b c) →
        ∀ m v, versioned lines m v → ∀ w, (m, w) ∈ table → 0 ≤ Compare w v) := by
  obtain ⟨s, hs, hg⟩ := convert_ok h
  have hok0 : tableOK ([] : List String) ([] : List (String × String)) := by
    refine ⟨by simp [keys], ?_, ?_⟩
    · intro p hp; cases hp
    · intro n hn; cases hn
  obtain ⟨⟨ha, hb, hc⟩, hseen⟩ := convertLoop_spec Compare lines _ _ hs hok0
  have hseen' : ∀ n, n ∈ s.seen ↔ ∃ l ∈ lines, ∃ t ∈ GraphGo.Fields l, n = Replace t := by
    intro n
    rw [hseen]
    simp
  refine ⟨s.mvsPicked, ?_, ha, ?_, ?_, ?_⟩
  · rw [hg]
    exact List.perm_insertionSort _ _
  · intro p hp
    obtain ⟨n, hn, hmv⟩ := hb p hp
    refine ⟨moduleVersion_entry_of_some hmv, ?_⟩
    obtain ⟨l, hl, t, ht, rfl⟩ := (hseen' n).1 hn
    exact ⟨l, hl, t, ht, hmv⟩
  · rintro m v ⟨l, hl, t, ht, hmv⟩
    exact hc _ ((hseen' _).2 ⟨l, hl, t, ht, rfl⟩) m v hmv
  · intro hrefl htrans
    have hmax := convertLoop_max Compare hrefl htrans lines _ _ hs hok0
      (by intro n hn; cases hn)
    rintro m v ⟨l, hl, t, ht, hmv⟩ w hw
    exact hmax _ ((hseen' _).2 ⟨l, hl, t, ht, rfl⟩) m v hmv w hw

end MainGo

namespace MainGo

/-! ## The version classifier in `convert` -/

theorem countP_picked {Compare : String → String → Int} {lines : List String} {g : graph}
    {table : List (String × String)} (hperm : g.mvsPicked.Perm (table.map entry))
    (hsplit : ∀ p ∈ table, moduleVersion (entry p) = some p ∧ versioned lines p.1 p.2)
    (hg : convert Compare lines = .ok g) (m : String) :
    g.mvsPicked.countP (fun e => decide ((moduleVersion e).map Prod.fst = some m))
      = (keys table).count m := by
  have _ := hg
  rw [hperm.countP_eq, List.countP_map, List.count, keys, List.countP_map]
  apply List.countP_congr
  intro p hp
  simp only [Function.comp, (hsplit p hp).1, Option.map_some', Option.some.injEq,
    decide_eq_true_eq, beq_iff_eq]

/-- C9: for every versioned node of the input, the selected list has an entry of
the node's module, and the version of every entry of that module compares
greater than or equal to the node's version, for a comparison that is
reflexive and transitive. -/
theorem convert_picked_is_greatest (Compare : String → String → Int)
    (hrefl : ∀ a, 0 ≤ Compare a a)
    (htrans : ∀ a b c, Compare a b < 0 → 0 ≤ Compare a c → 0 ≤ Compare b c)
    (lines : List String) (g : graph) (hg : convert Compare lines = .ok g)
    (m v : String) (hv : versioned lines m v) :
    (∃ w, entry (m, w) ∈ g.mvsPicked ∧ 0 ≤ Compare w v) ∧
    ∀ e ∈ g.mvsPicked, ∀ w, moduleVersion e = some (m, w) → 0 ≤ Compare w v := by
  obtain ⟨table, hperm, _, hsplit, hkeys, hmax⟩ := convert_table hg
  have hmax' := hmax hrefl htrans m v hv
  constructor
  · obtain ⟨p, hp, hpm⟩ := List.mem_map.1 (hkeys m v hv)
    obtain ⟨m', w⟩ := p
    simp only at hpm
    subst hpm
    exact ⟨w, hperm.mem_iff.2 (List.mem_map.2 ⟨(m', w), hp, rfl⟩), hmax' w hp⟩
  · intro e he w hew
    obtain ⟨p, hp, rfl⟩ := List.mem_map.1 (hperm.mem_iff.1 he)
    rw [(hsplit p hp).1] at hew
    simp only [Option.some.injEq] at hew
    subst hew
    exact hmax' w hp

/-- The node `m@1` of `sampleLines`, with versions compared by length: the
hypotheses of C9 hold, and its conclusion there, the selected entry being
`m@22`. -/
theorem convert_picked_is_greatest_witness :
    convert byLength sampleLines = .ok sampleGraph ∧ versioned sampleLines "m\n" "1" ∧
    ((∃ w, entry ("m\n", w) ∈ sampleGraph.mvsPicked ∧ 0 ≤ byLength w "1") ∧
      ∀ e ∈ sampleGraph.mvsPicked, ∀ w, moduleVersion e = some ("m\n", w) →
        0 ≤ byLength w "1") :=
  ⟨rfl, ⟨"m@1 n@1", by decide, "m@1", by decide, by decide⟩,
    convert_picked_is_greatest byLength
      (fun a => by simp [byLength])
      (fun a b c h1 h2 => by unfold byLength at *; omega)
      sampleLines sampleGraph rfl "m\n" "1"
      ⟨"m@1 n@1", by decide, "m@1", by decide, by decide⟩⟩

/-- C10: the selected list has exactly one entry of each module that has a
versioned node in the input, no entry of any other module, and every entry is
the module and a version of some versioned node of the input. -/
theorem convert_picked_one_per_module (Compare : String → String → Int)
    (lines : List String) (g : graph) (hg : convert Compare lines = .ok g) (m : String) :
    ((∃ v, versioned lines m v) →
      g.mvsPicked.countP (fun e => decide ((moduleVersion e).map Prod.fst = some m)) = 1) ∧
    ((¬ ∃ v, versioned lines m v) →
      g.mvsPicked.countP (fun e => decide ((moduleVersion e).map Prod.fst = some m)) = 0) ∧
    (∀ e ∈ g.mvsPicked, ∃ m' v', versioned lines m' v' ∧ moduleVersion e = some (m', v')) := by
  obtain ⟨table, hperm, hnd, hsplit, hkeys, _⟩ := convert_table hg
  refine ⟨?_, ?_, ?_⟩
  · rintro ⟨v, hv⟩
    rw [countP_picked hperm hsplit hg]
    exact List.count_eq_one_of_mem hnd (hkeys m v hv)
  · intro hno
    rw [countP_picked hperm hsplit hg]
    apply List.count_eq_zero_of_not_mem
    intro hm
    obtain ⟨p, hp, hpm⟩ := List.mem_map.1 hm
    subst hpm
    exact hno ⟨p.2, (hsplit p hp).2⟩
  · intro e he
    obtain ⟨p, hp, rfl⟩ := List.mem_map.1 (hperm.mem_iff.1 he)
    exact ⟨p.1, p.2, (hsplit p hp).2, (hsplit p hp).1⟩

/-- On `sampleLines` the module `m`, seen with two versions, has one selected
entry, and `r`, which has no version, has none. -/
theorem convert_picked_one_per_module_witness :
    convert byLength sampleLines = .ok sampleGraph ∧
    (∃ v, versioned sampleLines "m\n" v) ∧
    sampleGraph.mvsPicked.countP
      (fun e => decide ((moduleVersion e).map Prod.fst = some "m\n")) = 1 ∧
    sampleGraph.mvsPicked.countP
      (fun e => decide ((moduleVersion e).map Prod.fst = some "r")) = 0 :=
  ⟨rfl, ⟨"1", "m@1 n@1", by decide, "m@1", by decide, by decide⟩,
    (convert_picked_one_per_module byLength sampleLines sampleGraph rfl "m\n").1
      ⟨"1", "m@1 n@1", by decide, "m@1", by decide, by decide⟩,
    by decide⟩

end MainGo

namespace GraphGo

/-! ## Simple paths and reachability -/

theorem newGraph_root_mem {lines : List String} {g : graph} (hg : newGraph lines = .ok g)
    {r : String} (hr : g.root = some r) : r ∈ g.vertices := by
  obtain ⟨vm, root, _, rfl⟩ := newGraph_ok hg
  simp only [Option.map_eq_some'] at hr
  obtain ⟨x, hx, rfl⟩ := hr
  exact List.mem_map.2 ⟨x, (lookup_some hx).1, rfl⟩

theorem simplePath_self {g : graph} {r : String} {p : List String}
    (hp : simplePath g r r p) : p = [r] := by
  obtain ⟨hhead, hlast, hnd, _⟩ := hp
  cases p with
  | nil => simp at hhead
  | cons a t =>
    simp only [List.head?_cons, Option.some.injEq] at hhead
    subst hhead
    cases t with
    | nil => rfl
    | cons b t' =>
      rw [List.getLast?_cons_cons] at hlast
      exact absurd (List.mem_of_getLast?_eq_some hlast) (List.nodup_cons.1 hnd).1

theorem simplePath_refl (g : graph) (r : String) : simplePath g r r [r] := by
  refine ⟨rfl, rfl, List.nodup_singleton _, List.chain'_singleton _⟩

theorem eq_singleton_of_nodup {l : List String} {r : String} (hnd : l.Nodup)
    (h : ∀ m, m ∈ l ↔ m = r) : l = [r] := by
  cases l with
  | nil => exact absurd ((h r).2 rfl) (List.not_mem_nil _)
  | cons a t =>
    have ha : a = r := (h a).1 (List.mem_cons_self _ _)
    subst ha
    cases t with
    | nil => rfl
    | cons b t' =>
      have hb : b = a := (h b).1 (List.mem_cons_of_mem _ (List.mem_cons_self _ _))
      subst hb
      exact absurd (List.mem_cons_self _ _) (List.nodup_cons.1 hnd).1

theorem reachable_of_simplePath {g : graph} {a b : String} {p : List String}
    (hp : simplePath g a b p) : reachable g a b := by
  obtain ⟨hhead, hlast, hnd, hchain⟩ := hp
  clear hnd
  induction p generalizing a with
  | nil => simp at hhead
  | cons x t ih =>
    simp only [List.head?_cons, Option.some.injEq] at hhead
    subst hhead
    cases t with
    | nil =>
      simp only [List.getLast?_singleton, Option.some.injEq] at hlast
      subst hlast
      exact Relation.ReflTransGen.refl
    | cons y t' =>
      rw [List.getLast?_cons_cons] at hlast
      rw [List.chain'_cons] at hchain
      exact Relation.ReflTransGen.head hchain.1 (ih rfl hlast hchain.2)

theorem simplePath_of_reachable {g : graph} {a b : String} (h : reachable g a b) :
    ∃ p, simplePath g a b p := by
  induction h with
  | refl => exact ⟨[a], simplePath_refl g a⟩
  | @tail b c _ hbc ih =>
    obtain ⟨p, hhead, hlast, hnd, hchain⟩ := ih
    by_cases hc : c ∈ p
    · obtain ⟨s, t, rfl⟩ := List.append_of_mem hc
      have hpre : s ++ [c] <+: s ++ c :: t := ⟨t, by simp⟩
      refine ⟨s ++ [c], ?_, by simp, hnd.sublist hpre.sublist, hchain.prefix hpre⟩
      cases s with
      | nil => simpa using hhead
      | cons x s' => simpa using hhead
    · refine ⟨p ++ [c], ?_, by simp, ?_, ?_⟩
      · cases p with
        | nil => simp at hhead
        | cons x t => simpa using hhead
      · exact List.Nodup.append hnd (List.nodup_singleton _)
          (by
            intro x hx hx'
            rw [List.mem_singleton] at hx'
            subst hx'
            exact hc hx)
      · refine List.Chain'.append hchain (List.chain'_singleton _) ?_
        intro x hx y hy
        rw [hlast] at hx
        simp only [Option.mem_def, Option.some.injEq] at hx
        simp only [List.head?_cons, Option.mem_def, Option.some.injEq] at hy
        subst hx hy
        exact hbc

theorem simplePath_iff_reachable (g : graph) (a b : String) :
    (∃ p, simplePath g a b p) ↔ reachable g a b :=
  ⟨fun ⟨_, hp⟩ => reachable_of_simplePath hp, simplePath_of_reachable⟩

theorem mem_of_simplePath_last {g : graph} {a b : String} {p : List String}
    (hp : simplePath g a b p) : b ∈ p :=
  List.mem_of_getLast?_eq_some hp.2.1

end GraphGo

namespace GraphGo

/-! ## `to` at the root, at unreachable targets, and the cycle test in the loop -/

theorem to_trivial {g : graph} {r target : String} {fuel : Nat} {res : graph}
    (hr : g.root = some r) (hres : g.to target fuel = some (.ok res))
    (hno : ∀ p, simplePath g r target p → p = [r]) :
    res.edgeList = [] ∧ res.vertices = [r] := by
  obtain ⟨_, hv, hnd, hedges, hnames⟩ := to_spec hr hres
  constructor
  · rw [List.eq_nil_iff_forall_not_mem]
    rintro ⟨u, v⟩ huv
    obtain ⟨p, hp, hmem⟩ := (hedges u v).1 huv
    rw [hno p hp] at hmem
    simp [pairs] at hmem
  · apply eq_singleton_of_nodup (hv ▸ hnd)
    intro m
    rw [hnames]
    constructor
    · rintro (h | ⟨p, hp, hm⟩)
      · exact h
      · rw [hno p hp] at hm
        exact List.mem_singleton.1 hm
    · exact Or.inl

/-- C16: on a graph built by `newGraph` with root `r`, `to` with the needle `r`
returns, and every graph it returns has no edge and the single key `r`, also
when the graph has cycles through `r`. -/
theorem to_root_yields_root_only (lines : List String) (g : graph)
    (hg : newGraph lines = .ok g) (r : String) (hr : g.root = some r) :
    (∃ n, ∀ fuel, n ≤ fuel → ∃ res, g.to r fuel = some (.ok res)) ∧
    ∀ fuel res, g.to r fuel = some (.ok res) →
      res.edgeList = [] ∧ res.vertices = [r] ∧ res.root = some r := by
  refine ⟨to_returns hg (newGraph_root_mem hg hr), ?_⟩
  intro fuel res hres
  obtain ⟨h1, h2⟩ := to_trivial hr hres (fun p hp => simplePath_self hp)
  exact ⟨h1, h2, (to_spec hr hres).1⟩

/-- The two-cycle `A B`, `B A` with the needle `A`: the hypotheses of C16 hold,
the call returns the graph of `A` alone, and the conclusion of C16 there. -/
theorem to_root_yields_root_only_witness :
    newGraph ["A B", "B A"] = .ok cycleGraph ∧ cycleGraph.root = some "A" ∧
    cycleGraph.to "A" 4 = some (.ok rootOnly) ∧
    ((∃ n, ∀ fuel, n ≤ fuel → ∃ res, cycleGraph.to "A" fuel = some (.ok res)) ∧
      ∀ fuel res, cycleGraph.to "A" fuel = some (.ok res) →
        res.edgeList = [] ∧ res.vertices = ["A"] ∧ res.root = some "A") :=
  ⟨rfl, rfl, by decide, to_root_yields_root_only ["A B", "B A"] cycleGraph rfl "A" rfl⟩

theorem mem_edgeTargets {g : graph} {r a b : String} (hb : b ∈ edgesOf g.heap a) :
    b ∈ r :: g.heap.flatMap (fun x => x.edges) := by
  unfold edgesOf at hb
  cases hl : lookup g.heap a with
  | none => rw [hl] at hb; cases hb
  | some x =>
    rw [hl] at hb
    exact List.mem_cons_of_mem _ (List.mem_flatMap.2 ⟨x, (lookup_some hl).1, hb⟩)

/-- C17: for every breadcrumb at the head of the queue in a state the search
loop of `to` reaches, `hasCycle` is true exactly when the trail of the
breadcrumb repeats a node; the iteration then drops the breadcrumb and leaves
the rest of the state, and otherwise it appends the breadcrumbs of its edges. -/
theorem hasCycle_iff_trail_repeats (g : graph) (target r : String) (k : Nat)
    (s : toState) (c : breadcrumb) (rest : List breadcrumb)
    (hrun : toRun g target k (toInit r) = some s) (hq : s.q = c :: rest) :
    (c.hasCycle = true ↔ ¬ (goingUp c).Nodup) ∧
    (¬ (goingUp c).Nodup →
      toStep g target s = some { q := rest, vertexMap := s.vertexMap }) ∧
    ((goingUp c).Nodup → toStep g target s =
      some { q := rest ++ (edgesOf g.heap c.name).map (fun e => breadcrumb.next e c),
             vertexMap := if c.name = target then goingDown (goingUp c) s.vertexMap
                          else s.vertexMap }) := by
  have hok := toRun_queueOK (U := r :: g.heap.flatMap (fun x => x.edges))
    (fun a b hb => mem_edgeTargets hb) k _ _
    (queueOK_toInit (List.mem_cons_self _ _)) hrun
  have htail := (hok c (by rw [hq]; exact List.mem_cons_self _ _)).1
  have hiff : c.hasCycle = true ↔ ¬ (goingUp c).Nodup := by
    constructor
    · intro hc hnd
      rw [goingUp_eq] at hnd
      exact (List.nodup_cons.1 hnd).1 ((hasCycle_iff c).1 hc)
    · intro hnd
      by_contra hc
      rw [Bool.not_eq_true] at hc
      exact hnd (nodup_goingUp hc htail)
  obtain ⟨q, vm⟩ := s
  simp only at hq
  subst hq
  refine ⟨hiff, ?_, ?_⟩
  · intro hnd
    simp [toStep, hiff.2 hnd]
  · intro hnd
    have hc : c.hasCycle = false := by
      rw [← Bool.not_eq_true]
      exact fun h => hiff.1 h hnd
    simp only [toStep, hc, Bool.false_eq_true, if_false]

/-- The two-cycle `A B`, `B A` with the needle `B`, after two iterations: the
head of the queue is the trail `A`, `B`, `A`, and the conclusion of C17 there. -/
theorem hasCycle_iff_trail_repeats_witness :
    toRun cycleGraph "B" 2 (toInit "A")
      = some ⟨[.next "A" (.next "B" (.start "A"))], [⟨"A", ["B"]⟩, ⟨"B", []⟩]⟩ ∧
    breadcrumb.hasCycle (.next "A" (.next "B" (.start "A"))) = true ∧
    ((breadcrumb.hasCycle (.next "A" (.next "B" (.start "A"))) = true ↔
        ¬ (goingUp (.next "A" (.next "B" (.start "A")))).Nodup) ∧
      (¬ (goingUp (.next "A" (.next "B" (.start "A")))).Nodup →
        toStep cycleGraph "B"
            ⟨[.next "A" (.next "B" (.start "A"))], [⟨"A", ["B"]⟩, ⟨"B", []⟩]⟩
          = some { q := [], vertexMap := [⟨"A", ["B"]⟩, ⟨"B", []⟩] }) ∧
      ((goingUp (.next "A" (.next "B" (.start "A")))).Nodup →
        toStep cycleGraph "B"
            ⟨[.next "A" (.next "B" (.start "A"))], [⟨"A", ["B"]⟩, ⟨"B", []⟩]⟩
          = some { q := [] ++ (edgesOf cycleGraph.heap
                      (breadcrumb.name (.next "A" (.next "B" (.start "A"))))).map
                    (fun e => breadcrumb.next e (.next "A" (.next "B" (.start "A")))),
                   vertexMap :=
                    if breadcrumb.name (.next "A" (.next "B" (.start "A"))) = "B" then
                      goingDown (goingUp (.next "A" (.next "B" (.start "A"))))
                        [⟨"A", ["B"]⟩, ⟨"B", []⟩]
                    else [⟨"A", ["B"]⟩, ⟨"B", []⟩] })) :=
  ⟨by decide, by decide,
    hasCycle_iff_trail_repeats cycleGraph "B" "A" 2
      ⟨[.next "A" (.next "B" (.start "A"))], [⟨"A", ["B"]⟩, ⟨"B", []⟩]⟩
      (.next "A" (.next "B" (.start "A"))) [] (by decide) rfl⟩

/-- C20: on a graph built by `newGraph`, for a target of the known-node set,
`to` returns; the root of every graph it returns has the name of the root of
`g`, and its keys are that name and the nodes on the simple paths from the
root to the target.  So the target is a key exactly when it can be reached
from the root, and when it cannot, the result holds the root alone and no
edge. -/
theorem to_result_nodes (lines : List String) (g : graph)
    (hg : newGraph lines = .ok g) (target : String) (ht : target ∈ g.vertices) :
    ∃ r, g.root = some r ∧
      (∃ n, ∀ fuel, n ≤ fuel → ∃ res, g.to target fuel = some (.ok res)) ∧
      ∀ fuel res, g.to target fuel = some (.ok res) →
        res.root = some r ∧
        (∀ m, m ∈ res.vertices ↔ m = r ∨ ∃ p, simplePath g r target p ∧ m ∈ p) ∧
        (target ∈ res.vertices ↔ reachable g r target) ∧
        (¬ reachable g r target → res.vertices = [r] ∧ res.edgeList = []) := by
  obtain ⟨r, hr, _⟩ := newGraph_root_of_mem hg ht
  refine ⟨r, hr, to_returns hg ht, ?_⟩
  intro fuel res hres
  obtain ⟨hroot, _, _, _, hnames⟩ := to_spec hr hres
  refine ⟨hroot, hnames, ?_, ?_⟩
  · rw [hnames, ← simplePath_iff_reachable]
    constructor
    · rintro (rfl | ⟨p, hp, _⟩)
      · exact ⟨[target], simplePath_refl g target⟩
      · exact ⟨p, hp⟩
    · rintro ⟨p, hp⟩
      exact Or.inr ⟨p, hp, mem_of_simplePath_last hp⟩
  · intro hno
    obtain ⟨h1, h2⟩ := to_trivial hr hres
      (fun p hp => absurd (reachable_of_simplePath hp) hno)
    exact ⟨h2, h1⟩

/-- The lines `A B`, `C A` with the target `C`, which exists and cannot be
reached from the root `A`: the hypotheses of C20 hold, the call returns the
graph of `A` alone, and the conclusion of C20 there. -/
theorem to_result_nodes_witness :
    newGraph ["A B", "C A"] = .ok sideGraph ∧ "C" ∈ sideGraph.vertices ∧
    sideGraph.to "C" 3 = some (.ok rootOnly) ∧
    ∃ r, sideGraph.root = some r ∧
      (∃ n, ∀ fuel, n ≤ fuel → ∃ res, sideGraph.to "C" fuel = some (.ok res)) ∧
      ∀ fuel res, sideGraph.to "C" fuel = some (.ok res) →
        res.root = some r ∧
        (∀ m, m ∈ res.vertices ↔ m = r ∨ ∃ p, simplePath sideGraph r "C" p ∧ m ∈ p) ∧
        ("C" ∈ res.vertices ↔ reachable sideGraph r "C") ∧
        (¬ reachable sideGraph r "C" → res.vertices = [r] ∧ res.edgeList = []) :=
  ⟨rfl, by decide, by decide, to_result_nodes ["A B", "C A"] sideGraph rfl "C" (by decide)⟩

end GraphGo

namespace GraphGo

/-! ## The depth-first traversal of `print` -/

theorem printEdges_spec (g : graph) (quote : String → String)
    (dfs : printState → String → Option printState) (cursor : String)
    (hdfs : ∀ s e s', dfs s e = some s' → dfsSpec g quote s e s') :
    ∀ (edges : List String) (s s' : printState), cursor ∈ s.visited →
      printEdges quote dfs cursor edges s = some s' → loopSpec g quote cursor edges s s' := by
  intro edges
  induction edges with
  | nil =>
    intro s s' _ h
    simp only [printEdges, Option.some.injEq] at h
    subst h
    refine ⟨[], by simp [statements], fun _ => List.nodup_nil, List.Subset.refl _,
      by simp, fun u hu => Or.inl hu, fun u hu hn => absurd hu hn, ?_⟩
    intro u v
    simp only [List.not_mem_nil, and_false, false_or, false_iff, not_and]
    exact fun hu hn => absurd hu hn
  | cons e rest ih =>
    intro s s' hcur h
    simp only [printEdges] at h
    cases hcall : dfs { s with out := s.out ++ [statement quote cursor e] } e with
    | none => rw [hcall] at h; cases h
    | some s1 =>
      rw [hcall] at h
      simp only at h
      obtain ⟨es1, hout1, hnd1, hsub1, he1, hreach1, hclosed1, hmem1⟩ := hdfs _ _ _ hcall
      simp only at hout1 hsub1 hreach1 hclosed1 hmem1
      obtain ⟨es2, hout2, hnd2, hsub2, hedges2, hreach2, hclosed2, hmem2⟩ :=
        ih s1 s' (hsub1 hcur) h
      refine ⟨(cursor, e) :: es1 ++ es2, ?_, ?_, ?_, ?_, ?_, ?_, ?_⟩
      · rw [hout2, hout1]
        simp [statements]
      · intro hnd
        obtain ⟨herest, hrest⟩ := List.nodup_cons.1 hnd
        rw [List.cons_append, List.nodup_cons]
        refine ⟨?_, List.Nodup.append hnd1 (hnd2 hrest) ?_⟩
        · intro hin
          rcases List.mem_append.1 hin with hin | hin
          · exact ((hmem1 _ _).1 hin).2.1 hcur
          · rcases (hmem2 _ _).1 hin with ⟨_, hr⟩ | ⟨_, hn, _⟩
            · exact herest hr
            · exact hn (hsub1 hcur)
        · rintro ⟨u, v⟩ h1 h2
          have hu := (hmem1 u v).1 h1
          rcases (hmem2 u v).1 h2 with ⟨rfl, _⟩ | ⟨_, hn, _⟩
          · exact hu.2.1 hcur
          · exact hn hu.1
      · exact fun u hu => hsub2 (hsub1 hu)
      · intro e' he'
        rcases List.mem_cons.1 he' with rfl | he'
        · exact hsub2 he1
        · exact hedges2 e' he'
      · intro u hu
        rcases hreach2 u hu with hu1 | ⟨e', he', hr⟩
        · rcases hreach1 u hu1 with hu0 | hr
          · exact Or.inl hu0
          · exact Or.inr ⟨e, List.mem_cons_self _ _, hr⟩
        · exact Or.inr ⟨e', List.mem_cons_of_mem _ he', hr⟩
      · intro u hu hn v hv
        by_cases hu1 : u ∈ s1.visited
        · exact hsub2 (hclosed1 u hu1 hn v hv)
        · exact hclosed2 u hu hu1 v hv
      · intro u v
        rw [List.cons_append, List.mem_cons, List.mem_append, hmem1, hmem2, Prod.mk.injEq,
          List.mem_cons]
        constructor
        · rintro (⟨rfl, rfl⟩ | ⟨hu1, hn, hv⟩ | ⟨rfl, hv⟩ | ⟨hu, hn1, hv⟩)
          · exact Or.inl ⟨rfl, Or.inl rfl⟩
          · exact Or.inr ⟨hsub2 hu1, hn, hv⟩
          · exact Or.inl ⟨rfl, Or.inr hv⟩
          · exact Or.inr ⟨hu, fun h0 => hn1 (hsub1 h0), hv⟩
        · rintro (⟨rfl, rfl | hv⟩ | ⟨hu, hn, hv⟩)
          · exact Or.inl ⟨rfl, rfl⟩
          · exact Or.inr (Or.inr (Or.inl ⟨rfl, hv⟩))
          · by_cases hu1 : u ∈ s1.visited
            · exact Or.inr (Or.inl ⟨hu1, hn, hv⟩)
            · exact Or.inr (Or.inr (Or.inr ⟨hu, hu1, hv⟩))

theorem printDFS_spec (g : graph) (quote : String → String)
    (hE : ∀ a, (edgesOf g.heap a).Nodup) :
    ∀ (fuel : Nat) (s : printState) (cursor : String) (s' : printState),
      printDFS g quote fuel s cursor = some s' → dfsSpec g quote s cursor s' := by
  intro fuel
  induction fuel with
  | zero => intro s cursor s' h; simp [printDFS] at h
  | succ n ih =>
    intro s cursor s' h
    by_cases hvis : cursor ∈ s.visited
    · simp only [printDFS, hvis, if_true, Option.some.injEq] at h
      subst h
      refine ⟨[], by simp [statements], List.nodup_nil, List.Subset.refl _, hvis,
        fun u hu => Or.inl hu, fun u hu hn => absurd hu hn, ?_⟩
      intro u v
      simp only [List.not_mem_nil, false_iff, not_and]
      exact fun hu hn => absurd hu hn
    · simp only [printDFS, hvis, if_false] at h
      obtain ⟨es, hout, hnd, hsub, hedges, hreach, hclosed, hmem⟩ :=
        printEdges_spec g quote (printDFS g quote n) cursor ih (edgesOf g.heap cursor)
          { s with visited := cursor :: s.visited } s' (List.mem_cons_self _ _) h
      simp only at hout hsub hreach hclosed hmem
      have hcur : cursor ∈ s'.visited := hsub (List.mem_cons_self _ _)
      refine ⟨es, hout, hnd (hE cursor), fun u hu => hsub (List.mem_cons_of_mem _ hu),
        hcur, ?_, ?_, ?_⟩
      · intro u hu
        rcases hreach u hu with hu0 | ⟨e, he, hr⟩
        · rcases List.mem_cons.1 hu0 with rfl | hu0
          · exact Or.inr Relation.ReflTransGen.refl
          · exact Or.inl hu0
        · exact Or.inr (Relation.ReflTransGen.head he hr)
      · intro u hu hn v hv
        by_cases huc : u = cursor
        · subst huc
          exact hedges v hv
        · exact hclosed u hu (by
            intro h0
            rcases List.mem_cons.1 h0 with h0 | h0
            · exact huc h0
            · exact hn h0) v hv
      · intro u v
        rw [hmem]
        constructor
        · rintro (⟨rfl, hv⟩ | ⟨hu, hn, hv⟩)
          · exact ⟨hcur, hvis, hv⟩
          · exact ⟨hu, fun h0 => hn (List.mem_cons_of_mem _ h0), hv⟩
        · rintro ⟨hu, hn, hv⟩
          by_cases huc : u = cursor
          · subst huc
            exact Or.inl ⟨rfl, hv⟩
          · refine Or.inr ⟨hu, ?_, hv⟩
            intro h0
            rcases List.mem_cons.1 h0 with h0 | h0
            · exact huc h0
            · exact hn h0

end GraphGo

namespace GraphGo

/-! ## Termination of `print` and what it writes -/

theorem unvisited_mono (U : List String) {v v' : List String} (h : v ⊆ v') :
    unvisited U v' ≤ unvisited U v := by
  unfold unvisited
  induction U with
  | nil => simp
  | cons x t ih =>
    simp only [List.filter_cons]
    by_cases hx' : x ∉ v'
    · have hx : x ∉ v := fun h0 => hx' (h h0)
      simp only [hx', hx, not_false_eq_true, decide_True, if_true, List.length_cons]
      omega
    · by_cases hx : x ∉ v
      · simp only [hx', hx, not_false_eq_true, decide_True, decide_False, if_true, if_false,
          List.length_cons, Bool.false_eq_true]
        omega
      · simp only [hx', hx, decide_False, if_false, Bool.false_eq_true]
        exact ih

theorem unvisited_cons_lt {U : List String} {c : String} {v : List String}
    (hc : c ∈ U) (hv : c ∉ v) : unvisited U (c :: v) < unvisited U v := by
  induction U with
  | nil => cases hc
  | cons x t ih =>
    have hmono := unvisited_mono t (List.subset_cons_self c v)
    unfold unvisited at ih hmono ⊢
    simp only [List.filter_cons]
    by_cases hxc : x = c
    · subst hxc
      have hx' : ¬ x ∉ x :: v := fun h0 => h0 (List.mem_cons_self _ _)
      simp only [hx', hv, not_false_eq_true, decide_True, decide_False, if_true, if_false,
        List.length_cons, Bool.false_eq_true]
      omega
    · have hct : c ∈ t := by
        rcases List.mem_cons.1 hc with h | h
        · exact absurd h.symm hxc
        · exact h
      have := ih hct
      by_cases hx : x ∉ v
      · have hx' : x ∉ c :: v := by
          intro h0
          rcases List.mem_cons.1 h0 with h0 | h0
          · exact hxc h0
          · exact hx h0
        simp only [hx', hx, not_false_eq_true, decide_True, if_true, List.length_cons]
        omega
      · have hx' : ¬ x ∉ c :: v := fun h0 => hx (fun h1 => h0 (List.mem_cons_of_mem _ h1))
        simp only [hx', hx, decide_False, if_false, Bool.false_eq_true]
        exact this

theorem printDFS_terminates (g : graph) (quote : String → String) (U : List String)
    (hU : ∀ a b, b ∈ edgesOf g.heap a → b ∈ U) (hE : ∀ a, (edgesOf g.heap a).Nodup) :
    ∀ (fuel : Nat) (s : printState) (cursor : String), cursor ∈ U →
      unvisited U s.visited < fuel → ∃ s', printDFS g quote fuel s cursor = some s' := by
  intro fuel
  induction fuel with
  | zero => intro s cursor _ h; cases h
  | succ n ih =>
    intro s cursor hcU hlt
    by_cases hvis : cursor ∈ s.visited
    · exact ⟨s, by simp [printDFS, hvis]⟩
    · simp only [printDFS, hvis, if_false]
      have hbase := unvisited_cons_lt hcU hvis
      have hloop : ∀ (edges : List String), (∀ e ∈ edges, e ∈ U) → ∀ s1 : printState,
          (cursor :: s.visited) ⊆ s1.visited →
          ∃ s', printEdges quote (printDFS g quote n) cursor edges s1 = some s' := by
        intro edges
        induction edges with
        | nil => intro _ s1 _; exact ⟨s1, rfl⟩
        | cons e rest ihl =>
          intro hedges s1 hsub
          have hle := unvisited_mono U hsub
          obtain ⟨s2, hs2⟩ := ih { s1 with out := s1.out ++ [statement quote cursor e] } e
            (hedges e (List.mem_cons_self _ _)) (by simp only; omega)
          obtain ⟨_, _, _, hsub2, _⟩ := printDFS_spec g quote hE n _ _ _ hs2
          obtain ⟨s', hs'⟩ := ihl (fun e' he' => hedges e' (List.mem_cons_of_mem _ he')) s2
            (fun u hu => hsub2 (hsub hu))
          exact ⟨s', by simp only [printEdges, hs2, hs']⟩
      exact hloop _ (fun e he => hU cursor e he) _ (List.Subset.refl _)

theorem print_returns (g : graph) (quote : String → String)
    (hE : ∀ a, (edgesOf g.heap a).Nodup) {r : String} (hr : g.root = some r) :
    ∃ n, ∀ fuel, n ≤ fuel → ∃ out, g.print quote fuel = some (.ok out) := by
  refine ⟨(r :: g.heap.flatMap (fun x => x.edges)).length + 1, ?_⟩
  intro fuel hfuel
  have hlen : unvisited (r :: g.heap.flatMap (fun x => x.edges)) [] < fuel := by
    have : unvisited (r :: g.heap.flatMap (fun x => x.edges)) []
        ≤ (r :: g.heap.flatMap (fun x => x.edges)).length := List.length_filter_le _ _
    omega
  obtain ⟨s', hs'⟩ := printDFS_terminates g quote _ (fun a b hb => mem_edgeTargets hb) hE
    fuel { visited := [], out := [] } r (List.mem_cons_self _ _) hlen
  exact ⟨s'.out, by simp only [graph.print, hr, hs']⟩

theorem print_spec (g : graph) (quote : String → String)
    (hE : ∀ a, (edgesOf g.heap a).Nodup) {r : String} (hr : g.root = some r)
    {fuel : Nat} {out : List String} (h : g.print quote fuel = some (.ok out)) :
    ∃ es : List (String × String), out = statements quote es ∧ es.Nodup ∧
      ∀ u v, (u, v) ∈ es ↔ reachable g r u ∧ v ∈ edgesOf g.heap u := by
  simp only [graph.print, hr] at h
  cases hrun : printDFS g quote fuel { visited := [], out := [] } r with
  | none => rw [hrun] at h; cases h
  | some s' =>
    rw [hrun] at h
    simp only [Option.some.injEq, result.ok.injEq] at h
    obtain ⟨es, hout, hnd, _, hcur, hreach, hclosed, hmem⟩ :=
      printDFS_spec g quote hE fuel _ _ _ hrun
    simp only [List.nil_append, List.not_mem_nil, false_or, not_false_eq_true,
      true_and, forall_const] at hout hreach hclosed hmem
    have hvis : ∀ u, u ∈ s'.visited ↔ reachable g r u := by
      intro u
      constructor
      · exact hreach u
      · intro hru
        induction hru with
        | refl => exact hcur
        | tail _ hbc ih => exact hclosed _ ih _ hbc
    refine ⟨es, by rw [← h, hout], hnd, ?_⟩
    intro u v
    rw [hmem, hvis]

theorem nodup_edges_goingDown (path : List String) {vm : List vertex}
    (h : ∀ x ∈ vm, x.edges.Nodup) : ∀ x ∈ goingDown path vm, x.edges.Nodup := by
  induction path with
  | nil => simpa [goingDown] using h
  | cons a t ih =>
    cases t with
    | nil => simpa [goingDown] using h
    | cons b t' =>
      simp only [goingDown]
      exact nodup_edges_setEdge (nodup_edges_getOrCreate (nodup_edges_getOrCreate ih _) _) _ _

theorem nodup_edges_record (ps : List breadcrumb) {vm : List vertex}
    (h : ∀ x ∈ vm, x.edges.Nodup) : ∀ x ∈ record vm ps, x.edges.Nodup := by
  induction ps generalizing vm with
  | nil => exact h
  | cons p ps ih => exact ih (nodup_edges_goingDown _ h)

/-- In a graph built by `newGraph` or returned by `to` each name is the key of
one vertex object and no vertex records the same edge twice. -/
theorem nodup_of_built {g : graph}
    (hsrc : (∃ lines, newGraph lines = .ok g) ∨
      ∃ g0 target fuel, graph.to g0 target fuel = some (.ok g)) :
    (names g.heap).Nodup ∧ ∀ a, (edgesOf g.heap a).Nodup := by
  rcases hsrc with ⟨lines, hg⟩ | ⟨g0, target, fuel, hres⟩
  · refine ⟨(newGraph_spec hg).1, ?_⟩
    obtain ⟨vm, root, hl, rfl⟩ := newGraph_ok hg
    exact nodup_edgesOf (newGraphLoop_nodup_edges _ _ _ _ _ hl (by simp))
  · obtain ⟨r0, s, hr0, _, hl, rfl⟩ := to_ok hres
    refine ⟨(toLoop_toInit hl).1, ?_⟩
    obtain ⟨_, ps, _, hvm⟩ := toLoop_spec g0 target fuel _ _ hl
    simp only
    rw [hvm]
    exact nodup_edgesOf (nodup_edges_record ps (by simp [toInit, newVertex]))

end GraphGo

namespace GraphGo

/-! ## `print` -/

/-- C18: on a graph built by `newGraph` or returned by `to`, with a set root,
`print` returns, also when the graph has cycles; what it has written is one
statement for each recorded edge whose source can be reached from the root,
each such edge once and nothing else, and a statement is a tab, the quoted
source, ` -> `, the quoted target and a line feed. -/
theorem print_emits_reachable_edges (quote : String → String) (g : graph)
    (hsrc : (∃ lines, newGraph lines = .ok g) ∨
      ∃ g0 target fuel, graph.to g0 target fuel = some (.ok g))
    (r : String) (hr : g.root = some r) :
    (∃ n, ∀ fuel, n ≤ fuel → ∃ out, g.print quote fuel = some (.ok out)) ∧
    ∀ fuel out, g.print quote fuel = some (.ok out) →
      ∃ es : List (String × String),
        out = es.map (fun e => "\t" ++ quote e.1 ++ " -> " ++ quote e.2 ++ "\n") ∧
        es.Nodup ∧ ∀ u v, (u, v) ∈ es ↔ reachable g r u ∧ (u, v) ∈ g.edgeList := by
  obtain ⟨hnd, hE⟩ := nodup_of_built hsrc
  refine ⟨print_returns g quote hE hr, ?_⟩
  intro fuel out hout
  obtain ⟨es, h1, h2, h3⟩ := print_spec g quote hE hr hout
  refine ⟨es, h1, h2, ?_⟩
  intro u v
  rw [h3, mem_edgeList, mem_edgesOf hnd]

/-- The two-cycle `A B`, `B A`: the hypotheses of C18 hold, `print` writes the
two statements, and the conclusion of C18 there. -/
theorem print_emits_reachable_edges_witness :
    newGraph ["A B", "B A"] = .ok cycleGraph ∧ cycleGraph.root = some "A" ∧
    cycleGraph.print plainQuote 3
      = some (.ok ["\t\"A\" -> \"B\"\n", "\t\"B\" -> \"A\"\n"]) ∧
    ((∃ n, ∀ fuel, n ≤ fuel → ∃ out, cycleGraph.print plainQuote fuel = some (.ok out)) ∧
      ∀ fuel out, cycleGraph.print plainQuote fuel = some (.ok out) →
        ∃ es : List (String × String),
          out = es.map
            (fun e => "\t" ++ plainQuote e.1 ++ " -> " ++ plainQuote e.2 ++ "\n") ∧
          es.Nodup ∧
          ∀ u v, (u, v) ∈ es ↔ reachable cycleGraph "A" u ∧ (u, v) ∈ cycleGraph.edgeList) :=
  ⟨rfl, rfl, by decide,
    print_emits_reachable_edges plainQuote cycleGraph (Or.inl ⟨["A B", "B A"], rfl⟩) "A" rfl⟩

/-- C19 fails on the code: from an input without lines, and from an input of
one empty line, `newGraph` returns a graph whose root is nil, and `print` on
that graph dereferences the nil root, whatever the writer. -/
theorem print_without_root_nilDeref :
    newGraph [] = .ok emptyGraph ∧ newGraph [""] = .ok emptyGraph ∧
    ∀ (quote : String → String) (fuel : Nat),
      emptyGraph.print quote fuel = some .nilDeref :=
  ⟨rfl, rfl, fun _ _ => rfl⟩

end GraphGo

namespace MainGo

/-! ## `convert` as a scan of the nodes -/

theorem visit_withEdges (Compare : String → String → Int) (s : convertState)
    (es : List edge) (node : String) :
    visit Compare (withEdges s es) node = withEdges (visit Compare s node) es := by
  unfold visit withEdges
  simp only
  by_cases hseen : node ∈ s.seen
  · simp only [hseen, if_true]
  · simp only [hseen, if_false]
    cases moduleVersion node with
    | none => rfl
    | some p =>
      obtain ⟨m, v⟩ := p
      simp only
      cases mapGet s.mvsPicked m with
      | none => rfl
      | some maxV =>
        simp only
        by_cases hc : Compare maxV v < 0
        · simp only [hc, if_true]
        · simp only [hc, if_false]

theorem foldl_withEdges (Compare : String → String → Int) (es : List edge)
    (nodes : List String) (s : convertState) :
    nodes.foldl (visit Compare) (withEdges s es)
      = withEdges (nodes.foldl (visit Compare) s) es := by
  induction nodes generalizing s with
  | nil => rfl
  | cons n rest ih =>
    simp only [List.foldl_cons, visit_withEdges, ih]

theorem withEdges_withEdges (s : convertState) (es es' : List edge) :
    withEdges (withEdges s es) es' = withEdges s es' := rfl

theorem withEdges_self (s : convertState) : withEdges s s.g.edges = s := rfl

theorem nodesOf_cons_empty (rest : List String) : nodesOf ("" :: rest) = nodesOf rest := by
  simp [nodesOf, GraphGo.Fields_empty]

theorem nodesOf_cons_pair {l a b : String} (hf : GraphGo.Fields l = [a, b])
    (rest : List String) : nodesOf (l :: rest) = Replace a :: Replace b :: nodesOf rest := by
  simp [nodesOf, hf]

/-- The loop of `convert` visits the nodes of the lines in order and records
one edge for each line that is not empty. -/
theorem convertLoop_fold (Compare : String → String → Int) (lines : List String) :
    ∀ (s s' : convertState), convertLoop Compare lines s = .ok s' →
      ∃ es : List edge,
        s' = withEdges ((nodesOf lines).foldl (visit Compare) s) (s.g.edges ++ es) ∧
        List.Forall₂
          (fun l e => ∃ a b, GraphGo.Fields l = [a, b] ∧ e = ⟨Replace a, Replace b⟩)
          (lines.filter (fun l => decide (l ≠ ""))) es := by
  induction lines with
  | nil =>
    intro s s' h
    simp only [convertLoop, Except.ok.injEq] at h
    subst h
    exact ⟨[], by simp [nodesOf, withEdges_self], by simp⟩
  | cons l rest ih =>
    intro s s' h
    by_cases hl : l = ""
    · subst hl
      rw [convertLoop_cons_empty] at h
      obtain ⟨es, h1, h2⟩ := ih _ _ h
      refine ⟨es, by rw [nodesOf_cons_empty]; exact h1, ?_⟩
      rw [List.filter_cons_of_neg (by simp)]
      exact h2
    · by_cases hf : (GraphGo.Fields l).length = 2
      · obtain ⟨a, b, hab⟩ := (GraphGo.length_two_iff _).1 hf
        rw [convertLoop_cons_pair Compare hl hab] at h
        obtain ⟨es, h1, h2⟩ := ih _ _ h
        refine ⟨⟨Replace a, Replace b⟩ :: es, ?_, ?_⟩
        · rw [h1, nodesOf_cons_pair hab]
          have hstate : visit Compare (visit Compare
              { s with g := { s.g with edges := s.g.edges ++ [⟨Replace a, Replace b⟩] } }
              (Replace a)) (Replace b)
              = withEdges (visit Compare (visit Compare s (Replace a)) (Replace b))
                  (s.g.edges ++ [⟨Replace a, Replace b⟩]) := by
            have h0 : ({ s with g := { s.g with
                edges := s.g.edges ++ [⟨Replace a, Replace b⟩] } } : convertState)
                = withEdges s (s.g.edges ++ [⟨Replace a, Replace b⟩]) := rfl
            rw [h0, visit_withEdges, visit_withEdges]
          rw [hstate, foldl_withEdges, withEdges_withEdges]
          simp only [List.foldl_cons]
          have hedges : (withEdges (visit Compare (visit Compare s (Replace a)) (Replace b))
              (s.g.edges ++ [⟨Replace a, Replace b⟩])).g.edges
              = s.g.edges ++ [⟨Replace a, Replace b⟩] := rfl
          rw [hedges, List.append_assoc]
          rfl
        · rw [List.filter_cons_of_pos (by simpa using hl)]
          exact List.Forall₂.cons ⟨a, b, hab, rfl⟩ h2
      · rw [convertLoop_cons_bad Compare hl hf] at h
        cases h

/-- The graph `convert` returns, from the scan of the nodes of the lines. -/
theorem convert_scan {Compare : String → String → Int} {lines : List String} {g : graph}
    (h : convert Compare lines = .ok g) :
    g.mvsPicked = sortStrings ((scan Compare (nodesOf lines)).mvsPicked.map entry) ∧
    g.mvsUnpicked = (scan Compare (nodesOf lines)).g.mvsUnpicked ∧
    List.Forall₂
      (fun l e => ∃ a b, GraphGo.Fields l = [a, b] ∧ e = ⟨Replace a, Replace b⟩)
      (lines.filter (fun l => decide (l ≠ ""))) g.edges := by
  unfold convert at h
  split at h
  · cases h
  · rename_i s hs
    simp only [Except.ok.injEq] at h
    obtain ⟨es, h1, h2⟩ := convertLoop_fold Compare lines _ _ hs
    subst h
    rw [h1]
    refine ⟨rfl, rfl, ?_⟩
    simpa [withEdges] using h2

end MainGo

namespace MainGo

/-! ## The edges of `convert` and `edgesAsDOT` -/

theorem replaceLoop_of_not_mem {cs : List Char} (h : '@' ∉ cs) : replaceLoop cs = cs := by
  induction cs with
  | nil => rfl
  | cons c cs ih =>
    simp only [List.mem_cons, not_or] at h
    have hc : c ≠ '@' := fun h0 => h.1 h0.symm
    simp [replaceLoop, hc, ih h.2]

theorem replaceLoop_append {a : List Char} (ha : '@' ∉ a) (b : List Char) :
    replaceLoop (a ++ '@' :: b) = a ++ '\n' :: '@' :: b := by
  induction a with
  | nil => simp [replaceLoop]
  | cons c a ih =>
    simp only [List.mem_cons, not_or] at ha
    have hc : c ≠ '@' := fun h0 => ha.1 h0.symm
    simp [replaceLoop, hc, ih ha.2]

theorem edgesAsDOT_eq (quote : String → String) (g : graph) :
    g.edgesAsDOT quote = String.join
      (g.edges.map (fun e => "\t" ++ quote e.from_ ++ " -> " ++ quote e.to_ ++ "\n")) := by
  unfold graph.edgesAsDOT String.join
  rw [List.foldl_map]

/-- C15 as stated fails: for the line `m@1 n@1` the recorded edge does not have
the two fields of the line as its ends. -/
theorem convert_edges_not_fields :
    ¬ (∀ (Compare : String → String → Int) (lines : List String) (g : graph),
        convert Compare lines = .ok g →
        List.Forall₂ (fun l e => GraphGo.Fields l = [e.from_, e.to_])
          (lines.filter (fun l => decide (l ≠ ""))) g.edges) := by
  intro h
  have h1 := h byLength ["m@1 n@1"]
    { edges := [⟨"m\n@1", "n\n@1"⟩], mvsPicked := ["m\n@1", "n\n@1"], mvsUnpicked := [] } rfl
  have hf : (["m@1 n@1"].filter (fun l => decide (l ≠ ""))) = ["m@1 n@1"] := by decide
  rw [hf] at h1
  rw [List.forall₂_cons] at h1
  exact absurd h1.1 (by decide)

/-- C15, amended: `convert` records one edge for each line that is not empty,
in the order of the lines; its ends are the two fields of the line, each with
a line feed put before its first `@`, so a field without `@` is kept as it is;
and `edgesAsDOT` is, for each recorded edge in order, a tab, the quoted
source, ` -> `, the quoted target and a line feed. -/
theorem convert_edges_replaced (Compare : String → String → Int) (quote : String → String)
    (lines : List String) (g : graph) (hg : convert Compare lines = .ok g) :
    List.Forall₂
      (fun l e => ∃ a b, GraphGo.Fields l = [a, b] ∧ e.from_ = Replace a ∧ e.to_ = Replace b)
      (lines.filter (fun l => decide (l ≠ ""))) g.edges ∧
    (∀ t : String, '@' ∉ t.data → Replace t = t) ∧
    (∀ a b : List Char, '@' ∉ a →
      Replace (String.mk (a ++ '@' :: b)) = String.mk (a ++ '\n' :: '@' :: b)) ∧
    g.edgesAsDOT quote = String.join
      (g.edges.map (fun e => "\t" ++ quote e.from_ ++ " -> " ++ quote e.to_ ++ "\n")) := by
  refine ⟨?_, ?_, ?_, edgesAsDOT_eq quote g⟩
  · refine List.Forall₂.imp ?_ (convert_scan hg).2.2
    rintro l e ⟨a, b, hab, rfl⟩
    exact ⟨a, b, hab, rfl, rfl⟩
  · intro t ht
    unfold Replace
    rw [replaceLoop_of_not_mem ht]
  · intro a b ha
    unfold Replace
    rw [replaceLoop_append ha]

/-- The lines `r m@1`, an empty line and `m@1 n@1`: the hypothesis of the
amended C15 holds, the recorded edges and the text of `edgesAsDOT`, and the
conclusion of the amended C15 there. -/
theorem convert_edges_replaced_witness :
    convert byLength ["r m@1", "", "m@1 n@1"]
      = .ok { edges := [⟨"r", "m\n@1"⟩, ⟨"m\n@1", "n\n@1"⟩],
              mvsPicked := ["m\n@1", "n\n@1"], mvsUnpicked := [] } ∧
    graph.edgesAsDOT (fun x => "<" ++ x ++ ">")
        { edges := [⟨"r", "m\n@1"⟩, ⟨"m\n@1", "n\n@1"⟩],
          mvsPicked := ["m\n@1", "n\n@1"], mvsUnpicked := [] }
      = "\t<r> -> <m\n@1>\n\t<m\n@1> -> <n\n@1>\n" ∧
    List.Forall₂
      (fun l e => ∃ a b, GraphGo.Fields l = [a, b] ∧ e.from_ = Replace a ∧ e.to_ = Replace b)
      (["r m@1", "", "m@1 n@1"].filter (fun l => decide (l ≠ "")))
      [(⟨"r", "m\n@1"⟩ : edge), ⟨"m\n@1", "n\n@1"⟩] :=
  ⟨rfl, by decide,
    (convert_edges_replaced byLength (fun x => "<" ++ x ++ ">") ["r m@1", "", "m@1 n@1"]
      { edges := [⟨"r", "m\n@1"⟩, ⟨"m\n@1", "n\n@1"⟩],
        mvsPicked := ["m\n@1", "n\n@1"], mvsUnpicked := [] } rfl).1⟩

end MainGo

namespace MainGo

/-! ## The two lists of `convert` as a partition of the versioned nodes -/

/-- What `visit` does to `seen`, to the map and to the superseded list, case
by case. -/
theorem visit_cases_unpicked (Compare : String → String → Int) (s : convertState)
    (node : String) :
    (node ∈ s.seen ∧ visit Compare s node = s) ∨
    (node ∉ s.seen ∧ (visit Compare s node).seen = s.seen ++ [node] ∧
      ((moduleVersion node = none ∧ (visit Compare s node).mvsPicked = s.mvsPicked ∧
          (visit Compare s node).g.mvsUnpicked = s.g.mvsUnpicked) ∨
       (∃ m v maxV, moduleVersion node = some (m, v) ∧ mapGet s.mvsPicked m = some maxV ∧
          Compare maxV v < 0 ∧ (visit Compare s node).mvsPicked = mapSet s.mvsPicked m v ∧
          (visit Compare s node).g.mvsUnpicked = s.g.mvsUnpicked ++ [entry (m, maxV)]) ∨
       (∃ m v maxV, moduleVersion node = some (m, v) ∧ mapGet s.mvsPicked m = some maxV ∧
          ¬ Compare maxV v < 0 ∧ (visit Compare s node).mvsPicked = s.mvsPicked ∧
          (visit Compare s node).g.mvsUnpicked = s.g.mvsUnpicked ++ [node]) ∨
       (∃ m v, moduleVersion node = some (m, v) ∧ mapGet s.mvsPicked m = none ∧
          (visit Compare s node).mvsPicked = mapSet s.mvsPicked m v ∧
          (visit Compare s node).g.mvsUnpicked = s.g.mvsUnpicked))) := by
  unfold visit
  by_cases hseen : node ∈ s.seen
  · exact Or.inl ⟨hseen, by rw [if_pos hseen]⟩
  · right
    rw [if_neg hseen]
    refine ⟨hseen, ?_⟩
    cases hmv : moduleVersion node with
    | none => exact ⟨rfl, Or.inl ⟨rfl, rfl, rfl⟩⟩
    | some p =>
      obtain ⟨m, v⟩ := p
      simp only
      cases hget : mapGet s.mvsPicked m with
      | none => exact ⟨rfl, Or.inr (Or.inr (Or.inr ⟨m, v, rfl, hget, rfl, rfl⟩))⟩
      | some maxV =>
        simp only
        by_cases hc : Compare maxV v < 0
        · rw [if_pos hc]
          exact ⟨rfl, Or.inr (Or.inl ⟨m, v, maxV, rfl, hget, hc, rfl, rfl⟩)⟩
        · rw [if_neg hc]
          exact ⟨rfl, Or.inr (Or.inr (Or.inl ⟨m, v, maxV, rfl, hget, hc, rfl, rfl⟩))⟩

/-- An invariant that holds at the start and is kept by `visit` holds after
the scan of any list of nodes. -/
theorem scan_inv (Compare : String → String → Int) (J : List String → convertState → Prop)
    (h0 : J [] convertInit)
    (hstep : ∀ P s n, J P s → J (P ++ [n]) (visit Compare s n)) :
    ∀ nodes, J nodes (scan Compare nodes) := by
  intro nodes
  induction nodes using List.reverseRecOn with
  | nil => exact h0
  | append_singleton l n ih =>
    have : scan Compare (l ++ [n]) = visit Compare (scan Compare l) n := by
      simp [scan, List.foldl_append]
    rw [this]
    exact hstep l _ n ih

theorem mapSet_of_none {table : List (String × String)} {m : String}
    (h : mapGet table m = none) (v : String) : mapSet table m v = table ++ [(m, v)] := by
  unfold mapSet
  rw [h]

theorem map_replace_of_not_mem {table : List (String × String)} {m : String}
    (h : m ∉ keys table) (v : String) :
    table.map (fun p => if p.1 = m then (m, v) else p) = table := by
  induction table with
  | nil => rfl
  | cons p t ih =>
    simp only [keys, List.map_cons, List.mem_cons, not_or] at h
    have hp : ¬ p.1 = m := fun h0 => h.1 h0.symm
    simp only [List.map_cons, hp, if_false]
    rw [ih (by simpa [keys] using h.2)]

theorem mapSet_perm {table : List (String × String)} (hnd : (keys table).Nodup)
    {m maxV : String} (hget : mapGet table m = some maxV) (v : String) :
    ((m, maxV) :: mapSet table m v).Perm ((m, v) :: table) := by
  have hmem := mapGet_some hget
  unfold mapSet
  rw [hget]
  simp only
  clear hget
  induction table with
  | nil => cases hmem
  | cons p t ih =>
    simp only [keys, List.map_cons, List.nodup_cons] at hnd
    by_cases hp : p.1 = m
    · have hpt : m ∉ keys t := by rw [← hp]; exact hnd.1
      have hpeq : p = (m, maxV) := by
        rcases List.mem_cons.1 hmem with h | h
        · exact h.symm
        · exact absurd (List.mem_map.2 ⟨(m, maxV), h, rfl⟩) hpt
      simp only [List.map_cons, hp, if_true]
      rw [map_replace_of_not_mem hpt, hpeq]
      exact List.Perm.swap _ _ _
    · have hmt : (m, maxV) ∈ t := by
        rcases List.mem_cons.1 hmem with h | h
        · exact absurd (by rw [← h]) hp
        · exact h
      simp only [List.map_cons, hp, if_false]
      have h1 := ih hnd.2 hmt
      exact ((List.Perm.swap _ _ _).trans (h1.cons p)).trans (List.Perm.swap _ _ _)

theorem perm_insert_middle {A T F : List String} (h : (A ++ T).Perm F) (x : String) :
    (A ++ [x] ++ T).Perm (F ++ [x]) := by
  rw [List.append_assoc]
  exact (List.perm_middle.trans (h.cons x)).trans (List.perm_append_singleton x F).symm

theorem perm_insert_end {A T F : List String} (h : (A ++ T).Perm F) (x : String) :
    (A ++ (T ++ [x])).Perm (F ++ [x]) := by
  rw [← List.append_assoc]
  exact h.append_right [x]

theorem visit_partitionOK (Compare : String → String → Int) (P : List String)
    (s : convertState) (node : String) (h : partitionOK P s) :
    partitionOK (P ++ [node]) (visit Compare s node) := by
  obtain ⟨hnd, hseen, hok, hperm⟩ := h
  have hok' := visit_tableOK Compare s node hok
  have hseen' : ∀ n, n ∈ (visit Compare s node).seen ↔ n ∈ P ++ [node] := by
    intro n
    rw [visit_seen, hseen, List.mem_append, List.mem_singleton]
  refine ⟨?_, hseen', hok', ?_⟩
  · rcases visit_cases_unpicked Compare s node with ⟨_, heq⟩ | ⟨hn, hs, _⟩
    · rw [heq]; exact hnd
    · rw [hs]
      exact List.Nodup.append hnd (List.nodup_singleton _)
        (by
          intro x hx hx'
          rw [List.mem_singleton] at hx'
          subst hx'
          exact hn hx)
  · rcases visit_cases_unpicked Compare s node with ⟨_, heq⟩ | ⟨_, hs, hcase⟩
    · rw [heq]; exact hperm
    · rw [hs, List.filter_append]
      rcases hcase with ⟨hmv, htab, hun⟩ | ⟨m, v, maxV, hmv, hget, _, htab, hun⟩ |
          ⟨m, v, maxV, hmv, hget, _, htab, hun⟩ | ⟨m, v, hmv, hget, htab, hun⟩
      · rw [htab, hun]
        simp only [List.filter_cons, hmv, Option.isSome_none, Bool.false_eq_true, if_false,
          List.filter_nil, List.append_nil]
        exact hperm
      · rw [htab, hun]
        have hnode : node = entry (m, v) := (moduleVersion_some hmv).2
        simp only [List.filter_cons, hmv, Option.isSome_some, if_true, List.filter_nil]
        have h1 : (entry (m, maxV) :: (mapSet s.mvsPicked m v).map entry).Perm
            (entry (m, v) :: s.mvsPicked.map entry) :=
          (mapSet_perm hok.1 hget v).map entry
        have h2 : (s.g.mvsUnpicked ++ [entry (m, maxV)]
              ++ (mapSet s.mvsPicked m v).map entry).Perm
            (s.g.mvsUnpicked ++ [entry (m, v)] ++ s.mvsPicked.map entry) := by
          rw [List.append_assoc, List.append_assoc]
          exact List.Perm.append_left _ h1
        rw [hnode]
        exact h2.trans (perm_insert_middle hperm _)
      · rw [htab, hun]
        simp only [List.filter_cons, hmv, Option.isSome_some, if_true, List.filter_nil]
        exact perm_insert_middle hperm node
      · rw [htab, hun, mapSet_of_none hget]
        have hnode : node = entry (m, v) := (moduleVersion_some hmv).2
        simp only [List.filter_cons, hmv, Option.isSome_some, if_true, List.filter_nil,
          List.map_append, List.map_cons, List.map_nil]
        rw [hnode]
        exact perm_insert_end hperm _

theorem scan_partitionOK (Compare : String → String → Int) (nodes : List String) :
    partitionOK nodes (scan Compare nodes) := by
  apply scan_inv Compare partitionOK
  · refine ⟨List.nodup_nil, by simp [convertInit], ⟨by simp [keys, convertInit], ?_, ?_⟩, ?_⟩
    · intro p hp; cases hp
    · intro n hn; cases hn
    · simp [convertInit]
  · exact visit_partitionOK Compare

theorem splitLoop_isSome {cs : List Char} (h : '@' ∈ cs) : ∃ p, splitLoop cs = some p := by
  induction cs with
  | nil => cases h
  | cons c cs ih =>
    by_cases hc : c = '@'
    · exact ⟨([], cs), by simp [splitLoop, hc]⟩
    · have hcs : '@' ∈ cs := by
        rcases List.mem_cons.1 h with h0 | h0
        · exact absurd h0.symm hc
        · exact h0
      obtain ⟨p, hp⟩ := ih hcs
      exact ⟨(c :: p.1, p.2), by simp [splitLoop, hc, hp]⟩

theorem moduleVersion_isSome_iff (node : String) :
    (moduleVersion node).isSome = true ↔ '@' ∈ node.data := by
  constructor
  · intro h
    obtain ⟨p, hp⟩ := Option.isSome_iff_exists.1 h
    obtain ⟨m, v⟩ := p
    have := (moduleVersion_some hp).2
    rw [this]
    simp [entry, String.data_append]
  · intro h
    obtain ⟨p, hp⟩ := splitLoop_isSome h
    simp [moduleVersion, hp]

theorem mem_replaceLoop_iff (cs : List Char) : '@' ∈ replaceLoop cs ↔ '@' ∈ cs := by
  induction cs with
  | nil => simp [replaceLoop]
  | cons c cs ih =>
    by_cases hc : c = '@'
    · simp [replaceLoop, hc]
    · have hc' : ¬ '@' = c := fun h0 => hc h0.symm
      simp [replaceLoop, hc, hc', ih]

theorem mem_Replace_iff (t : String) : '@' ∈ (Replace t).data ↔ '@' ∈ t.data :=
  mem_replaceLoop_iff t.data

theorem mem_nodesOf (lines : List String) (n : String) :
    n ∈ nodesOf lines ↔ ∃ l ∈ lines, ∃ t ∈ GraphGo.Fields l, n = Replace t := by
  unfold nodesOf
  simp only [List.mem_flatMap, List.mem_map]
  constructor
  · rintro ⟨l, hl, t, ht, rfl⟩
    exact ⟨l, hl, t, ht, rfl⟩
  · rintro ⟨l, hl, t, ht, rfl⟩
    exact ⟨l, hl, t, ht, rfl⟩

/-- The two lists of the graph `convert` returns, together, are a
rearrangement of the distinct nodes that hold an `@`. -/
theorem convert_lists_perm {Compare : String → String → Int} {lines : List String}
    {g : graph} (hg : convert Compare lines = .ok g) :
    (g.mvsPicked ++ g.mvsUnpicked).Perm
      ((nodesOf lines).dedup.filter (fun n => decide ('@' ∈ n.data))) := by
  obtain ⟨hp, hu, _⟩ := convert_scan hg
  obtain ⟨hnd, hseen, _, hperm⟩ := scan_partitionOK Compare (nodesOf lines)
  have h1 : (g.mvsPicked ++ g.mvsUnpicked).Perm
      ((scan Compare (nodesOf lines)).seen.filter (fun n => (moduleVersion n).isSome)) := by
    rw [hp, hu]
    exact (List.perm_append_comm.trans
      (List.Perm.append_left _ (List.perm_insertionSort _ _))).trans hperm
  have h2 : ((scan Compare (nodesOf lines)).seen).Perm (nodesOf lines).dedup := by
    rw [List.perm_ext_iff_of_nodup hnd (List.nodup_dedup _)]
    intro n
    rw [hseen, List.mem_dedup]
  have h3 : ∀ l : List String, l.filter (fun n => (moduleVersion n).isSome)
      = l.filter (fun n => decide ('@' ∈ n.data)) := by
    intro l
    apply List.filter_congr
    intro n _
    by_cases h : '@' ∈ n.data
    · simp [h, (moduleVersion_isSome_iff n).2 h]
    · have : (moduleVersion n).isSome = false := by
        rw [← Bool.not_eq_true, moduleVersion_isSome_iff]
        exact h
      simp [h, this]
  rw [← h3]
  exact h1.trans (h2.filter _)

/-- C11: in the graph `convert` returns, the selected and the superseded list
have no element in common and neither repeats one; together they hold exactly
the nodes of the input that hold an `@`, each once, so their lengths add up to
the number of distinct such nodes; a field without `@` is in neither. -/
theorem convert_lists_partition (Compare : String → String → Int) (lines : List String)
    (g : graph) (hg : convert Compare lines = .ok g) :
    List.Disjoint g.mvsPicked g.mvsUnpicked ∧ g.mvsPicked.Nodup ∧ g.mvsUnpicked.Nodup ∧
    (∀ n, n ∈ g.mvsPicked ++ g.mvsUnpicked ↔ n ∈ nodesOf lines ∧ '@' ∈ n.data) ∧
    (∀ l ∈ lines, ∀ t ∈ GraphGo.Fields l, '@' ∈ t.data →
      (g.mvsPicked ++ g.mvsUnpicked).count (Replace t) = 1) ∧
    g.mvsPicked.length + g.mvsUnpicked.length
      = ((nodesOf lines).dedup.filter (fun n => decide ('@' ∈ n.data))).length ∧
    (∀ l ∈ lines, ∀ t ∈ GraphGo.Fields l, '@' ∉ t.data →
      Replace t = t ∧ t ∉ g.mvsPicked ∧ t ∉ g.mvsUnpicked) := by
  have hperm := convert_lists_perm hg
  have hnd : (g.mvsPicked ++ g.mvsUnpicked).Nodup :=
    hperm.nodup_iff.2 ((List.nodup_dedup _).filter _)
  have hmem : ∀ n, n ∈ g.mvsPicked ++ g.mvsUnpicked ↔ n ∈ nodesOf lines ∧ '@' ∈ n.data := by
    intro n
    rw [hperm.mem_iff, List.mem_filter, List.mem_dedup, decide_eq_true_eq]
  obtain ⟨h1, h2, h3⟩ := List.nodup_append.1 hnd
  refine ⟨h3, h1, h2, hmem, ?_, ?_, ?_⟩
  · intro l hl t ht hat
    apply List.count_eq_one_of_mem hnd
    rw [hmem]
    exact ⟨(mem_nodesOf lines _).2 ⟨l, hl, t, ht, rfl⟩, (mem_Replace_iff t).2 hat⟩
  · rw [← List.length_append]
    exact hperm.length_eq
  · intro l hl t ht hat
    have hin : t ∉ g.mvsPicked ++ g.mvsUnpicked := fun h0 => hat ((hmem t).1 h0).2
    refine ⟨?_, fun h0 => hin (List.mem_append_left _ h0),
      fun h0 => hin (List.mem_append_right _ h0)⟩
    unfold Replace
    rw [replaceLoop_of_not_mem hat]

/-- On `sampleLines`: the hypothesis of C11 holds; `m@1` is superseded, `m@22`
and `n@1` are selected, `r` is in neither list; and the conclusion of C11
there. -/
theorem convert_lists_partition_witness :
    convert byLength sampleLines = .ok sampleGraph ∧
    sampleGraph.mvsPicked = ["m\n@22", "n\n@1"] ∧ sampleGraph.mvsUnpicked = ["m\n@1"] ∧
    (List.Disjoint sampleGraph.mvsPicked sampleGraph.mvsUnpicked ∧
      sampleGraph.mvsPicked.Nodup ∧ sampleGraph.mvsUnpicked.Nodup ∧
      (∀ n, n ∈ sampleGraph.mvsPicked ++ sampleGraph.mvsUnpicked ↔
        n ∈ nodesOf sampleLines ∧ '@' ∈ n.data) ∧
      (∀ l ∈ sampleLines, ∀ t ∈ GraphGo.Fields l, '@' ∈ t.data →
        (sampleGraph.mvsPicked ++ sampleGraph.mvsUnpicked).count (Replace t) = 1) ∧
      sampleGraph.mvsPicked.length + sampleGraph.mvsUnpicked.length
        = ((nodesOf sampleLines).dedup.filter (fun n => decide ('@' ∈ n.data))).length ∧
      (∀ l ∈ sampleLines, ∀ t ∈ GraphGo.Fields l, '@' ∉ t.data →
        Replace t = t ∧ t ∉ sampleGraph.mvsPicked ∧ t ∉ sampleGraph.mvsUnpicked)) :=
  ⟨rfl, rfl, rfl, convert_lists_partition byLength sampleLines sampleGraph rfl⟩

end MainGo

namespace MainGo

/-! ## The third scenario -/

theorem convert_scenario (Compare : String → String → Int) :
    convert Compare scenarioLines =
      .ok (if Compare "1.0.0" "2.0.0" < 0 then
            { edges := scenarioEdges, mvsPicked := ["m\n@2.0.0", "n\n@1.0.0"],
              mvsUnpicked := ["m\n@1.0.0"] }
          else
            { edges := scenarioEdges, mvsPicked := ["m\n@1.0.0", "n\n@1.0.0"],
              mvsUnpicked := ["m\n@2.0.0"] }) := by
  have h1 : convert Compare scenarioLines =
      (match (Except.ok (visit Compare (visit Compare scenarioState "m\n@2.0.0") "n\n@1.0.0") :
          Except error convertState) with
       | .error e => .error e
       | .ok s =>
         .ok { s.g with mvsPicked := sortStrings (s.mvsPicked.map (fun p => p.1 ++ "@" ++ p.2)) }) :=
    rfl
  have h2 : visit Compare scenarioState "m\n@2.0.0" =
      if Compare "1.0.0" "2.0.0" < 0 then
        { scenarioState with
          g := { scenarioState.g with mvsUnpicked := ["m\n@1.0.0"] }
          seen := ["m\n@1.0.0", "n\n@1.0.0", "m\n@2.0.0"]
          mvsPicked := [("m\n", "2.0.0"), ("n\n", "1.0.0")] }
      else
        { scenarioState with
          g := { scenarioState.g with mvsUnpicked := ["m\n@2.0.0"] }
          seen := ["m\n@1.0.0", "n\n@1.0.0", "m\n@2.0.0"] } := rfl
  rw [h1, h2]
  by_cases hc : Compare "1.0.0" "2.0.0" < 0
  · rw [if_pos hc, if_pos hc]; rfl
  · rw [if_neg hc, if_neg hc]; rfl

end MainGo

namespace MainGo

/-- C12 as stated fails: `semver.Compare` holds the versions `1.0.0` and
`2.0.0`, which lack the leading `v`, for invalid and equal, so the node of
`m@2.0.0`, discovered second, does not replace the node of `m@1.0.0`: the
selected list that `convert` returns for the two lines does not hold it. -/
theorem convert_scenario_not_greatest :
    ¬ (∃ g, convert Semver.Compare scenarioLines = .ok g ∧
        Replace "m@2.0.0" ∈ g.mvsPicked ∧ Replace "n@1.0.0" ∈ g.mvsPicked ∧
        Replace "m@1.0.0" ∈ g.mvsUnpicked) := by
  rintro ⟨g, hg, h1, _, _⟩
  rw [convert_scenario, if_neg (by decide)] at hg
  simp only [Except.ok.injEq] at hg
  subst hg
  revert h1
  decide

/-- C12, amended: for the two lines, `convert` returns the selected list of
the nodes of `m@1.0.0` and `n@1.0.0` and the superseded list of the node of
`m@2.0.0`, because `semver.Compare` gives 0 for `1.0.0` and `2.0.0`.  The node
of a name is the name with a line feed before `@`, as `convert` stores it. -/
theorem convert_scenario_keeps_first :
    Semver.Compare "1.0.0" "2.0.0" = 0 ∧
    ∃ g, convert Semver.Compare scenarioLines = .ok g ∧
      g.mvsPicked = [Replace "m@1.0.0", Replace "n@1.0.0"] ∧
      g.mvsUnpicked = [Replace "m@2.0.0"] := by
  refine ⟨by decide, _, convert_scenario Semver.Compare, ?_, ?_⟩ <;>
    rw [if_neg (by decide)] <;> rfl

end MainGo

namespace MainGo

/-! ## Ties between versions -/

theorem discoveredBefore_append {P : List String} {a b : String}
    (h : discoveredBefore P a b) (x : String) : discoveredBefore (P ++ [x]) a b := by
  obtain ⟨pre, post, hP, hb⟩ := h
  exact ⟨pre, post ++ [x], by rw [hP]; simp, hb⟩

theorem discoveredBefore_of_mem {P : List String} {a b : String} (ha : a ∈ P) (hb : b ∉ P)
    (x : String) : discoveredBefore (P ++ [x]) a b := by
  obtain ⟨pre, post, hP⟩ := List.append_of_mem ha
  refine ⟨pre, post ++ [x], by rw [hP]; simp, ?_⟩
  intro h
  exact hb (by rw [hP]; exact List.mem_append_left _ h)

theorem discoveredBefore_self {P : List String} {a : String} (ha : a ∉ P) :
    discoveredBefore (P ++ [a]) a a :=
  ⟨P, [], rfl, ha⟩

theorem entry_mem_seen {seen : List String} {table : List (String × String)}
    (hok : tableOK seen table) {p : String × String} (hp : p ∈ table) : entry p ∈ seen := by
  obtain ⟨n, hn, hmv⟩ := hok.2.1 p hp
  obtain ⟨m, v⟩ := p
  rw [← (moduleVersion_some hmv).2]
  exact hn

theorem visit_firstKept (Compare : String → String → Int)
    (hstrict : ∀ a b c, Compare a b < 0 → 0 ≤ Compare a c → 0 < Compare b c)
    (P : List String) (s : convertState) (node : String)
    (hpart : partitionOK P s) (hmax : tableMax Compare s.seen s.mvsPicked)
    (hfirst : firstKept Compare P s) :
    firstKept Compare (P ++ [node]) (visit Compare s node) := by
  obtain ⟨_, hseen, hok, _⟩ := hpart
  have hold : ∀ p ∈ s.mvsPicked, ∀ n ∈ P, ∀ v, moduleVersion n = some (p.1, v) →
      discoveredBefore (P ++ [node]) (entry p) n ∨ 0 < Compare p.2 v := by
    intro p hp n hn v hmv
    rcases hfirst p hp n hn v hmv with h | h
    · exact Or.inl (discoveredBefore_append h node)
    · exact Or.inr h
  unfold firstKept
  rcases visit_cases Compare s node with ⟨hin, heq⟩ | ⟨hnin, _, hcase⟩
  · rw [heq]
    intro p hp n hn v hmv
    rcases List.mem_append.1 hn with hn | hn
    · exact hold p hp n hn v hmv
    · rw [List.mem_singleton] at hn
      subst hn
      exact hold p hp n ((hseen n).1 hin) v hmv
  · have hnP : node ∉ P := fun h0 => hnin ((hseen node).2 h0)
    rcases hcase with ⟨hmv, htab⟩ | ⟨m, v, maxV, hmv, hget, hlt, htab⟩ |
        ⟨m, v, maxV, hmv, hget, _, htab⟩ | ⟨m, v, hmv, hget, htab⟩
    · rw [htab]
      intro p hp n hn v' hnmv
      rcases List.mem_append.1 hn with hn | hn
      · exact hold p hp n hn v' hnmv
      · rw [List.mem_singleton] at hn
        subst hn
        rw [hmv] at hnmv
        cases hnmv
    · rw [htab]
      intro p hp n hn v' hnmv
      rcases (mem_mapSet_iff p).1 hp with rfl | ⟨hp', hne⟩
      · rcases List.mem_append.1 hn with hn | hn
        · right
          exact hstrict maxV v v' hlt
            (hmax n ((hseen n).2 hn) m v' hnmv maxV (mapGet_some hget))
        · rw [List.mem_singleton] at hn
          subst hn
          left
          rw [← (moduleVersion_some hmv).2]
          exact discoveredBefore_self hnP
      · rcases List.mem_append.1 hn with hn | hn
        · exact hold p hp' n hn v' hnmv
        · rw [List.mem_singleton] at hn
          subst hn
          rw [hmv] at hnmv
          simp only [Option.some.injEq, Prod.mk.injEq] at hnmv
          exact absurd hnmv.1.symm hne
    · rw [htab]
      intro p hp n hn v' hnmv
      rcases List.mem_append.1 hn with hn | hn
      · exact hold p hp n hn v' hnmv
      · rw [List.mem_singleton] at hn
        subst hn
        left
        exact discoveredBefore_of_mem ((hseen _).1 (entry_mem_seen hok hp)) hnP n
    · rw [htab]
      intro p hp n hn v' hnmv
      rcases (mem_mapSet_iff p).1 hp with rfl | ⟨hp', hne⟩
      · rcases List.mem_append.1 hn with hn | hn
        · exact absurd (hok.2.2 n ((hseen n).2 hn) m v' hnmv) (mapGet_eq_none.1 hget)
        · rw [List.mem_singleton] at hn
          subst hn
          left
          rw [← (moduleVersion_some hmv).2]
          exact discoveredBefore_self hnP
      · rcases List.mem_append.1 hn with hn | hn
        · exact hold p hp' n hn v' hnmv
        · rw [List.mem_singleton] at hn
          subst hn
          rw [hmv] at hnmv
          simp only [Option.some.injEq, Prod.mk.injEq] at hnmv
          exact absurd hnmv.1.symm hne

theorem scan_firstKept (Compare : String → String → Int)
    (hrefl : ∀ a, 0 ≤ Compare a a)
    (hstrict : ∀ a b c, Compare a b < 0 → 0 ≤ Compare a c → 0 < Compare b c)
    (nodes : List String) :
    partitionOK nodes (scan Compare nodes) ∧
    tableMax Compare (scan Compare nodes).seen (scan Compare nodes).mvsPicked ∧
    firstKept Compare nodes (scan Compare nodes) := by
  apply scan_inv Compare
    (fun P s => partitionOK P s ∧ tableMax Compare s.seen s.mvsPicked ∧ firstKept Compare P s)
  · refine ⟨scan_partitionOK Compare [], ?_, ?_⟩
    · intro n hn; cases hn
    · intro p hp; cases hp
  · rintro P s n ⟨h1, h2, h3⟩
    exact ⟨visit_partitionOK Compare P s n h1,
      visit_tableMax Compare hrefl
        (fun a b c hab hac => le_of_lt (hstrict a b c hab hac)) s n h1.2.2.1 h2,
      visit_firstKept Compare hstrict P s n h1 h2 h3⟩

end MainGo

namespace MainGo

/-- C13: when `convert` visits a new node whose version compares equal to the
version the map holds for its module, the map is left as it is and the node is
appended to the superseded list; and, for a comparison that is reflexive and
transitive, a node whose version compares equal to that of the selected entry
of its module was discovered after the node of that entry, and is superseded
unless it is that node. -/
theorem convert_ties_keep_first (Compare : String → String → Int)
    (hrefl : ∀ a, 0 ≤ Compare a a)
    (hstrict : ∀ a b c, Compare a b < 0 → 0 ≤ Compare a c → 0 < Compare b c) :
    (∀ (s : convertState) (node m v maxV : String), node ∉ s.seen →
      moduleVersion node = some (m, v) → mapGet s.mvsPicked m = some maxV →
      Compare maxV v = 0 →
      (visit Compare s node).mvsPicked = s.mvsPicked ∧
      (visit Compare s node).g.mvsUnpicked = s.g.mvsUnpicked ++ [node]) ∧
    (∀ (lines : List String) (g : graph), convert Compare lines = .ok g →
      ∀ (e n m w v : String), e ∈ g.mvsPicked → moduleVersion e = some (m, w) →
        n ∈ nodesOf lines → moduleVersion n = some (m, v) → Compare w v = 0 →
        discoveredBefore (nodesOf lines) e n ∧ (n ≠ e → n ∈ g.mvsUnpicked)) := by
  constructor
  · intro s node m v maxV hnin hmv hget hzero
    rcases visit_cases_unpicked Compare s node with ⟨hin, _⟩ | ⟨_, _, hcase⟩
    · exact absurd hin hnin
    · rcases hcase with ⟨hmv', _, _⟩ | ⟨m', v', maxV', hmv', hget', hlt, _, _⟩ |
          ⟨m', v', maxV', hmv', hget', _, htab, hun⟩ | ⟨m', v', hmv', hget', _, _⟩
      · rw [hmv] at hmv'; cases hmv'
      · rw [hmv] at hmv'
        simp only [Option.some.injEq, Prod.mk.injEq] at hmv'
        obtain ⟨rfl, rfl⟩ := hmv'
        rw [hget] at hget'
        simp only [Option.some.injEq] at hget'
        subst hget'
        rw [hzero] at hlt
        exact absurd hlt (lt_irrefl 0)
      · exact ⟨htab, hun⟩
      · rw [hmv] at hmv'
        simp only [Option.some.injEq, Prod.mk.injEq] at hmv'
        obtain ⟨rfl, rfl⟩ := hmv'
        rw [hget] at hget'
        cases hget'
  · intro lines g hg e n m w v he hew hn hnv hzero
    obtain ⟨hp, _, _⟩ := convert_scan hg
    obtain ⟨⟨_, _, hok, _⟩, _, hfirst⟩ := scan_firstKept Compare hrefl hstrict (nodesOf lines)
    have hsplit : ∀ p ∈ (scan Compare (nodesOf lines)).mvsPicked,
        moduleVersion (entry p) = some p := by
      intro p hp'
      obtain ⟨n0, _, hmv0⟩ := hok.2.1 p hp'
      exact moduleVersion_entry_of_some hmv0
    have hpicked : ∀ x, x ∈ g.mvsPicked ↔
        ∃ p ∈ (scan Compare (nodesOf lines)).mvsPicked, entry p = x := by
      intro x
      rw [hp, sortStrings, (List.perm_insertionSort _ _).mem_iff, List.mem_map]
    obtain ⟨p, hpt, rfl⟩ := (hpicked e).1 he
    rw [hsplit p hpt] at hew
    simp only [Option.some.injEq] at hew
    subst hew
    constructor
    · rcases hfirst (m, w) hpt n hn v hnv with h | h
      · exact h
      · rw [hzero] at h
        exact absurd h (lt_irrefl 0)
    · intro hne
      have hmem : n ∈ g.mvsPicked ++ g.mvsUnpicked := by
        rw [(convert_lists_perm hg).mem_iff, List.mem_filter, List.mem_dedup,
          decide_eq_true_eq, ← moduleVersion_isSome_iff, hnv]
        exact ⟨hn, rfl⟩
      rcases List.mem_append.1 hmem with h | h
      · obtain ⟨q, hqt, rfl⟩ := (hpicked n).1 h
        rw [hsplit q hqt] at hnv
        simp only [Option.some.injEq] at hnv
        subst hnv
        exact absurd (by rw [eq_of_mem_of_nodup hok.1 hqt hpt]) hne
      · exact h

/-- The line `m@1 m@2` with versions compared by length, so that `1` and `2`
tie: the hypotheses of C13 hold, `m@1` is selected and `m@2` superseded, and
the conclusion of the second part of C13 there. -/
theorem convert_ties_keep_first_witness :
    convert byLength ["m@1 m@2"] = .ok tieGraph ∧
    "m\n@1" ∈ tieGraph.mvsPicked ∧ moduleVersion "m\n@1" = some ("m\n", "1") ∧
    "m\n@2" ∈ nodesOf ["m@1 m@2"] ∧ moduleVersion "m\n@2" = some ("m\n", "2") ∧
    byLength "1" "2" = 0 ∧
    (discoveredBefore (nodesOf ["m@1 m@2"]) "m\n@1" "m\n@2" ∧
      ("m\n@2" ≠ "m\n@1" → "m\n@2" ∈ tieGraph.mvsUnpicked)) :=
  ⟨rfl, by decide, by decide, by decide, by decide, by decide,
    (convert_ties_keep_first byLength
      (fun a => by simp [byLength])
      (fun a b c h1 h2 => by unfold byLength at *; omega)).2
      ["m@1 m@2"] tieGraph rfl "m\n@1" "m\n@2" "m\n" "1" "2"
      (by decide) (by decide) (by decide) (by decide) (by decide)⟩

end MainGo

namespace MainGo

/-! ## The order of the two lists -/

theorem leChars_iff_not_lex (a b : List Char) :
    leChars a b = true ↔ ¬ List.Lex (fun x y : Char => x.toNat < y.toNat) b a := by
  induction a generalizing b with
  | nil => simp [leChars]
  | cons x as ih =>
    cases b with
    | nil =>
      simp only [leChars, Bool.false_eq_true, false_iff, not_not]
      exact List.Lex.nil
    | cons y bs =>
      by_cases hxy : x.toNat < y.toNat
      · simp only [leChars, hxy, if_true, true_iff]
        intro h
        cases h with
        | cons _ => exact absurd hxy (lt_irrefl _)
        | rel h' => exact absurd hxy (Nat.lt_asymm h')
      · by_cases hyx : y.toNat < x.toNat
        · simp only [leChars, hxy, hyx, if_true, if_false, Bool.false_eq_true, false_iff,
            not_not]
          exact List.Lex.rel hyx
        · simp only [leChars, hxy, hyx, if_false]
          rw [ih bs]
          have heq : x = y := by
            have h0 : x.toNat = y.toNat := by omega
            rw [← Char.ofNat_toNat x, ← Char.ofNat_toNat y, h0]
          subst heq
          constructor
          · intro h h'
            cases h' with
            | cons h0 => exact h h0
            | rel h0 => exact hxy h0
          · intro h h'
            exact h (List.Lex.cons h')

theorem leChars_total (a b : List Char) : leChars a b = true ∨ leChars b a = true := by
  induction a generalizing b with
  | nil => simp [leChars]
  | cons x as ih =>
    cases b with
    | nil => simp [leChars]
    | cons y bs =>
      by_cases hxy : x.toNat < y.toNat
      · simp [leChars, hxy]
      · by_cases hyx : y.toNat < x.toNat
        · simp [leChars, hyx]
        · simp only [leChars, hxy, hyx, if_false]
          exact ih bs

theorem leChars_trans (a b c : List Char) (hab : leChars a b = true)
    (hbc : leChars b c = true) : leChars a c = true := by
  induction a generalizing b c with
  | nil => simp [leChars]
  | cons x as ih =>
    cases b with
    | nil => simp [leChars] at hab
    | cons y bs =>
      cases c with
      | nil => simp [leChars] at hbc
      | cons z cs =>
        by_cases hxy : x.toNat < y.toNat
        · by_cases hyz : y.toNat < z.toNat
          · have : x.toNat < z.toNat := by omega
            simp [leChars, this]
          · by_cases hzy : z.toNat < y.toNat
            · simp [leChars, hyz, hzy] at hbc
            · have : x.toNat < z.toNat := by omega
              simp [leChars, this]
        · by_cases hyx : y.toNat < x.toNat
          · simp [leChars, hxy, hyx] at hab
          · simp only [leChars, hxy, hyx, if_false] at hab
            by_cases hyz : y.toNat < z.toNat
            · have : x.toNat < z.toNat := by omega
              simp [leChars, this]
            · by_cases hzy : z.toNat < y.toNat
              · simp [leChars, hyz, hzy] at hbc
              · simp only [leChars, hyz, hzy, if_false] at hbc
                have h1 : ¬ x.toNat < z.toNat := by omega
                have h2 : ¬ z.toNat < x.toNat := by omega
                simp only [leChars, h1, h2, if_false]
                exact ih bs cs hab hbc

theorem sorted_sortStrings (l : List String) :
    (sortStrings l).Sorted (fun a b => ¬ textBefore b a) := by
  haveI : IsTotal String (fun a b => leChars a.data b.data = true) :=
    ⟨fun a b => leChars_total a.data b.data⟩
  haveI : IsTrans String (fun a b => leChars a.data b.data = true) :=
    ⟨fun a b c => leChars_trans a.data b.data c.data⟩
  have h := List.sorted_insertionSort (fun a b : String => leChars a.data b.data = true) l
  refine List.Pairwise.imp ?_ h
  intro a b hab
  exact (leChars_iff_not_lex a.data b.data).1 hab

theorem visit_unpicked_grows (Compare : String → String → Int) (s : convertState)
    (node : String) :
    (visit Compare s node).g.mvsUnpicked = s.g.mvsUnpicked ∨
    ∃ x, (visit Compare s node).g.mvsUnpicked = s.g.mvsUnpicked ++ [x] := by
  rcases visit_cases_unpicked Compare s node with ⟨_, heq⟩ | ⟨_, _, hcase⟩
  · rw [heq]; exact Or.inl rfl
  · rcases hcase with ⟨_, _, hun⟩ | ⟨_, _, _, _, _, _, _, hun⟩ |
        ⟨_, _, _, _, _, _, _, hun⟩ | ⟨_, _, _, _, _, hun⟩
    · exact Or.inl hun
    · exact Or.inr ⟨_, hun⟩
    · exact Or.inr ⟨_, hun⟩
    · exact Or.inl hun

theorem foldl_unpicked_prefix (Compare : String → String → Int) (nodes : List String)
    (s : convertState) :
    s.g.mvsUnpicked <+: (nodes.foldl (visit Compare) s).g.mvsUnpicked := by
  induction nodes generalizing s with
  | nil => exact List.prefix_refl _
  | cons n rest ih =>
    simp only [List.foldl_cons]
    refine List.IsPrefix.trans ?_ (ih (visit Compare s n))
    rcases visit_unpicked_grows Compare s n with h | ⟨x, h⟩
    · rw [h]
    · rw [h]; exact List.prefix_append _ _

/-- C14 as stated fails: on `dottedLines` the selected list holds the node of
`a@v1` before the node of `a.b@v1`, and the name `a.b@v1` is before the name
`a@v1` in lexicographic order, a dot being below `@`.  The list is sorted on
the nodes, where a line feed stands before `@`, and a line feed is below a
dot. -/
theorem convert_picked_names_not_ascending :
    ¬ (∀ (Compare : String → String → Int) (lines : List String) (g : graph)
        (names : List String), convert Compare lines = .ok g →
        names.map Replace = g.mvsPicked → names.Sorted (fun a b => ¬ textBefore b a)) := by
  intro h
  have hs := h Semver.Compare dottedLines dottedGraph ["a@v1", "a.b@v1"] rfl rfl
  have hlt : textBefore "a.b@v1" "a@v1" := List.Lex.cons (List.Lex.rel (by decide))
  exact List.rel_of_sorted_cons hs "a.b@v1" (List.mem_singleton.2 rfl) hlt

/-- C14, amended: the selected list of the graph `convert` returns is in
ascending lexicographic order of the strings it holds, the nodes with a line
feed before `@`; the superseded list is the one the scan of the nodes builds,
line by line and `from` before `to`: each visit leaves it as it is or appends
one entry, and what it holds after any visit is an initial part of the final
list. -/
theorem convert_lists_ordered (Compare : String → String → Int) (lines : List String)
    (g : graph) (hg : convert Compare lines = .ok g) :
    g.mvsPicked.Sorted (fun a b => ¬ textBefore b a) ∧
    g.mvsUnpicked = (scan Compare (nodesOf lines)).g.mvsUnpicked ∧
    (∀ pre n post, nodesOf lines = pre ++ n :: post →
      ((scan Compare (pre ++ [n])).g.mvsUnpicked = (scan Compare pre).g.mvsUnpicked ∨
        ∃ x, (scan Compare (pre ++ [n])).g.mvsUnpicked
          = (scan Compare pre).g.mvsUnpicked ++ [x]) ∧
      (scan Compare (pre ++ [n])).g.mvsUnpicked <+: g.mvsUnpicked) := by
  obtain ⟨hp, hu, _⟩ := convert_scan hg
  refine ⟨by rw [hp]; exact sorted_sortStrings _, hu, ?_⟩
  intro pre n post hnodes
  have h1 : scan Compare (pre ++ [n]) = visit Compare (scan Compare pre) n := by
    simp [scan, List.foldl_append]
  have h2 : scan Compare (nodesOf lines)
      = post.foldl (visit Compare) (scan Compare (pre ++ [n])) := by
    rw [hnodes]
    simp [scan, List.foldl_append]
  refine ⟨?_, ?_⟩
  · rw [h1]
    exact visit_unpicked_grows Compare _ n
  · rw [hu, h2]
    exact foldl_unpicked_prefix Compare post _

/-- On `orderLines` with versions compared by length: the hypothesis of the
amended C14 holds; `m@1` is demoted at the first line and `m@22` at the second, and the
superseded list holds them in that order; and its conclusion there. -/
theorem convert_lists_ordered_witness :
    convert byLength orderLines = .ok orderGraph ∧
    orderGraph.mvsPicked = ["m\n@333", "n\n@1"] ∧
    orderGraph.mvsUnpicked = ["m\n@1", "m\n@22"] ∧
    (orderGraph.mvsPicked.Sorted (fun a b => ¬ textBefore b a) ∧
      orderGraph.mvsUnpicked = (scan byLength (nodesOf orderLines)).g.mvsUnpicked ∧
      (∀ pre n post, nodesOf orderLines = pre ++ n :: post →
        ((scan byLength (pre ++ [n])).g.mvsUnpicked = (scan byLength pre).g.mvsUnpicked ∨
          ∃ x, (scan byLength (pre ++ [n])).g.mvsUnpicked
            = (scan byLength pre).g.mvsUnpicked ++ [x]) ∧
        (scan byLength (pre ++ [n])).g.mvsUnpicked <+: orderGraph.mvsUnpicked)) :=
  ⟨rfl, rfl, rfl, convert_lists_ordered byLength orderLines orderGraph rfl⟩

end MainGo

namespace Semver

/-- Values of `Compare`: versions without the leading `v` are invalid and
equal to each other, and below a valid version; valid versions follow their
numbers, a missing minor or patch number counts as zero, the build is ignored,
and prereleases follow the order of the semantic-versioning document. -/
theorem Compare_values :
    Compare "1.0.0" "2.0.0" = 0 ∧ Compare "2.0.0" "1.0.0" = 0 ∧
    Compare "1.0.0" "v1.0.0" = -1 ∧ Compare "v1.0.0" "v2.0.0" = -1 ∧
    Compare "v1.10.0" "v1.9.0" = 1 ∧ Compare "v1.2" "v1.2.0" = 0 ∧
    Compare "v1.0.0+meta" "v1.0.0" = 0 ∧ Compare "v1.0.0-alpha" "v1.0.0-alpha.1" = -1 ∧
    Compare "v1.0.0-alpha.1" "v1.0.0-alpha.beta" = -1 ∧
    Compare "v1.0.0-beta.2" "v1.0.0-beta.11" = -1 ∧ Compare "v1.0.0-rc.1" "v1.0.0" = -1 := by
  decide

end Semver
